import Mathlib

/-!
# buildir: dependency graph, graph cache codec and scheduler

A shallow embedding of `src/exec.cpp`, `src/exec.hpp`, `src/serde_utils.hpp`,
`src/utils.hpp`, `src/process_pool.cpp` and the choice of the pool size in `src/main.cpp`.

Conventions of the embedding:

* `std::string` is a list of bytes (`Str`), `std::vector<T>` is `List T`;
* `NodeId` (`uint32_t`) is a `Nat`; where the source can wrap, the wrap is written out;
* `std::unordered_map<std::string, NodeId>` is an association list with unique keys
  (`emplace` keeps the first binding of a key), `std::unordered_set<NodeId>` is a list
  without repetition; the order in which the source iterates over either container is
  not fixed by the language, so the encoder takes it as an argument;
* `fatal(msg)` (print and `exit`) is `Except.error` with the kind of the failure;
* indexing a vector is `List.getD`: the source does not check the index;
* a pipe between the pool and a worker is the list of the bytes written to it that have
  not been read yet; the status that `std::system` returns for a command is a parameter.
-/

/-- One byte of a string or of the cache file. -/
abbrev Byte := Fin 256

/-- A `std::string`: raw bytes, no terminator. -/
abbrev Str := List Byte

/-- The ways a run of the program stops early. All but the last are calls of `fatal`
(utils.hpp:15); the names are those of the specification's error table.
`ReadPastEnd` is not a `fatal` and not a report of the program: it marks the first read
through the decoding cursor beyond the end of the buffer, which the source performs
unchecked (serde_utils.hpp:129-147). Decoding stops there in these definitions; the
program goes on with the bytes it finds outside the buffer. -/
inductive Fault where
  | DuplicateRule
  | UnknownDependency
  | UnknownPhony
  | OutOfRange
  | EncodeOverflow
  | CacheMissing
  | CacheEmpty
  | CacheVersionMismatch
  | SizeMismatch
  | CacheCorrupt
  | UnknownTarget
  | DependencyOutputMissing
  | CommandFailed
  | CycleDetected
  | ReadPastEnd
  deriving DecidableEq, Repr

deriving instance DecidableEq for Except

namespace parse

/-- A rule as the parser hands it over (parse.hpp:7). -/
structure Rule where
  name : Str
  deps : List Str
  commands : List Str
  deriving DecidableEq, Repr

/-- The parser's output (parse.hpp:13). -/
structure Result where
  phony : List Str
  rules : List Rule
  deriving DecidableEq, Repr

end parse

namespace exec

/-- `std::unordered_map<std::string, NodeId>` as an association list. -/
abbrev IdMap := List (Str × Nat)

/-- `m.find(k)`: the value bound to `k`, if any. -/
def IdMap.find : IdMap → Str → Option Nat
  | [], _ => none
  | (k', v) :: rest, k => if k' = k then some v else IdMap.find rest k

/-- `m.emplace(k, v)`: inserts unless the key is present; the flag is the `ok` of the
returned pair. -/
def IdMap.emplace (m : IdMap) (k : Str) (v : Nat) : IdMap × Bool :=
  match IdMap.find m k with
  | some _ => (m, false)
  | none => (m ++ [(k, v)], true)

/-- `s.insert(x)` on a `std::unordered_set<NodeId>`. -/
def set_insert (s : List Nat) (x : Nat) : List Nat :=
  if x ∈ s then s else s ++ [x]

/-- `Graph::npos`, the all-ones `uint32_t`. -/
def npos : Nat := 2 ^ 32 - 1

/-- `Graph::GRAPH_SERDE_VERSION`. -/
def GRAPH_SERDE_VERSION : Nat := 1

/-- The fields of `exec::Graph` (exec.hpp:79-84). -/
structure Graph where
  m_node_store : List (List Str)
  m_adjgraph : List (List Nat)
  m_reverse_adj : List (List Nat)
  m_id_map : IdMap
  m_phony : List Nat
  m_names : List Str
  deriving DecidableEq, Repr

/-- `Graph::get_command_ref` (exec.hpp:32). -/
def Graph.get_command_ref (g : Graph) (node_id : Nat) : List Str :=
  g.m_node_store.getD node_id []

/-- `Graph::get_child_ids` (exec.hpp:36). -/
def Graph.get_child_ids (g : Graph) (node_id : Nat) : List Nat :=
  g.m_adjgraph.getD node_id []

/-- `Graph::get_parent_ids` (exec.hpp:41). -/
def Graph.get_parent_ids (g : Graph) (node_id : Nat) : List Nat :=
  g.m_reverse_adj.getD node_id []

/-- `Graph::get_id` (exec.hpp:46): `npos` for an unknown name. -/
def Graph.get_id (g : Graph) (name : Str) : Nat :=
  match IdMap.find g.m_id_map name with
  | none => npos
  | some id => id

/-- `Graph::get_name_ref` (exec.hpp:55). -/
def Graph.get_name_ref (g : Graph) (id : Nat) : Str :=
  g.m_names.getD id []

/-- `Graph::size` (exec.hpp:59). -/
def Graph.size (g : Graph) : Nat :=
  g.m_node_store.length

/-- `Graph::is_phony` (exec.hpp:61). -/
def Graph.is_phony (g : Graph) (id : Nat) : Bool :=
  decide (id ∈ g.m_phony)

/-- First loop of `Graph::build` (exec.cpp:17-23), from index `i` on: every rule name is
emplaced with its position and pushed onto `names`; a name already present is fatal. -/
def build_ids : List parse.Rule → Nat → IdMap → List Str → Except Fault (IdMap × List Str)
  | [], _, id_map, names => .ok (id_map, names)
  | r :: rs, i, id_map, names =>
    match IdMap.emplace id_map r.name i with
    | (_, false) => .error Fault.DuplicateRule
    | (id_map1, true) => build_ids rs (i + 1) id_map1 (names ++ [r.name])

/-- Inner loop of the second loop of `Graph::build` (exec.cpp:35-43): every dep of the
rule `child` is looked up, and the edge is appended to both adjacency vectors. -/
def build_deps (id_map : IdMap) (child : Nat) :
    List Str → List (List Nat) → List (List Nat) → Except Fault (List (List Nat) × List (List Nat))
  | [], adj, rev => .ok (adj, rev)
  | dep :: deps, adj, rev =>
    match IdMap.find id_map dep with
    | none => .error Fault.UnknownDependency
    | some parent =>
      build_deps id_map child deps
        (List.modify (fun l => l ++ [child]) parent adj)
        (List.modify (fun l => l ++ [parent]) child rev)

/-- Second loop of `Graph::build` (exec.cpp:31-44). `id_map.at(rule.name)` throws
`std::out_of_range` for an absent key. -/
def build_edges (id_map : IdMap) :
    List parse.Rule → List (List Str) → List (List Nat) → List (List Nat) →
      Except Fault (List (List Str) × List (List Nat) × List (List Nat))
  | [], nodes, adj, rev => .ok (nodes, adj, rev)
  | rule :: rules, nodes, adj, rev =>
    match IdMap.find id_map rule.name with
    | none => .error Fault.OutOfRange
    | some child =>
      match build_deps id_map child rule.deps adj rev with
      | .error e => .error e
      | .ok (adj1, rev1) => build_edges id_map rules (nodes ++ [rule.commands]) adj1 rev1

/-- Third loop of `Graph::build` (exec.cpp:48-54). -/
def build_phony (id_map : IdMap) : List Str → List Nat → Except Fault (List Nat)
  | [], phoneyset => .ok phoneyset
  | p :: ps, phoneyset =>
    match IdMap.find id_map p with
    | none => .error Fault.UnknownPhony
    | some id => build_phony id_map ps (set_insert phoneyset id)

/-- `Graph::build` (exec.cpp:11-58).

The loop index of the first loop is a `NodeId` compared with a `size_t`: with `2^32` rules
or more it wraps to `0` before the loop can end and rule `0` is emplaced a second time, so
such an input always ends in the duplicate-rule abort. -/
def Graph.build (parsed : parse.Result) : Except Fault Graph :=
  if 2 ^ 32 ≤ parsed.rules.length then .error Fault.DuplicateRule
  else
    match build_ids parsed.rules 0 [] [] with
    | .error e => .error e
    | .ok (id_map, names) =>
      let n := parsed.rules.length
      match build_edges id_map parsed.rules [] (List.replicate n []) (List.replicate n []) with
      | .error e => .error e
      | .ok (nodes, adj, rev) =>
        match build_phony id_map parsed.phony [] with
        | .error e => .error e
        | .ok phoneyset => .ok ⟨nodes, adj, rev, id_map, phoneyset, names⟩

end exec

namespace serde

/-- The byte `n mod 256`. -/
def byte (n : Nat) : Byte := ⟨n % 256, Nat.mod_lt _ (by decide)⟩

/-- `serialize_value<uint32_t>` (serde_utils.hpp:30-39): the four bytes of the value, least
significant first (the value is byte-swapped on a big-endian host). -/
def serialize_value (value : Nat) : List Byte :=
  [byte value, byte (value / 256), byte (value / 65536), byte (value / 16777216)]

/-- `serialize_string` (serde_utils.hpp:41-51). -/
def serialize_string (s : Str) (dest : List Byte) : Except Fault (List Byte) :=
  if s.length > 2 ^ 32 - 1 then .error Fault.EncodeOverflow
  else .ok (dest ++ serialize_value s.length ++ s)

/-- The element case of `serialize_vec` for a trivially copyable `uint32_t`
(serde_utils.hpp:68-69). -/
def serialize_u32 (x : Nat) (dest : List Byte) : Except Fault (List Byte) :=
  .ok (dest ++ serialize_value x)

/-- The element loop of `serialize_vec` (serde_utils.hpp:64-71 and 85-87); `f` writes one
element. -/
def serialize_elems {α : Type} (f : α → List Byte → Except Fault (List Byte)) :
    List α → List Byte → Except Fault (List Byte)
  | [], dest => .ok dest
  | x :: xs, dest =>
    match f x dest with
    | .error e => .error e
    | .ok dest1 => serialize_elems f xs dest1

/-- `serialize_vec` (serde_utils.hpp:55-88): the element count as a `u32`, then the elements
in order. The template is instantiated with `serialize_string`, `serialize_u32` or, for a
vector of vectors, with `serialize_vec` itself. -/
def serialize_vec {α : Type} (f : α → List Byte → Except Fault (List Byte))
    (v : List α) (dest : List Byte) : Except Fault (List Byte) :=
  if v.length > 2 ^ 32 - 1 then .error Fault.EncodeOverflow
  else serialize_elems f v (dest ++ serialize_value v.length)

/-- One entry of `serialize_map` for `map<string, u32>` (serde_utils.hpp:104-118). -/
def serialize_entry (kv : Str × Nat) (dest : List Byte) : Except Fault (List Byte) :=
  match serialize_string kv.1 dest with
  | .error e => .error e
  | .ok dest1 => .ok (dest1 ++ serialize_value kv.2)

/-- `serialize_map` (serde_utils.hpp:92-119); `m` lists the entries in the order in which
the range-for visits them. -/
def serialize_map (m : List (Str × Nat)) (dest : List Byte) : Except Fault (List Byte) :=
  if m.length > 2 ^ 32 - 1 then .error Fault.EncodeOverflow
  else serialize_elems serialize_entry m (dest ++ serialize_value m.length)

/-- `deserialize_value<uint32_t>` (serde_utils.hpp:127-140). The cursor `ptr` is the list of
the bytes from the pointer to the end of the buffer; the source reads four bytes without
looking at the end of the buffer. -/
def deserialize_value (ptr : List Byte) : Except Fault (Nat × List Byte) :=
  match ptr with
  | b0 :: b1 :: b2 :: b3 :: rest =>
    .ok (b0.val + 256 * b1.val + 65536 * b2.val + 16777216 * b3.val, rest)
  | _ => .error Fault.ReadPastEnd

/-- `deserialize_string` (serde_utils.hpp:142-147): `sz` bytes are copied from the cursor,
again without a look at the end of the buffer. -/
def deserialize_string (ptr : List Byte) : Except Fault (Str × List Byte) :=
  match deserialize_value ptr with
  | .error e => .error e
  | .ok (sz, ptr1) =>
    if sz ≤ ptr1.length then .ok (ptr1.take sz, ptr1.drop sz)
    else .error Fault.ReadPastEnd

/-- The loop of `deserialize_vec` (serde_utils.hpp:188-190); `f` reads one element. -/
def deserialize_elems {α : Type} (f : List Byte → Except Fault (α × List Byte)) :
    Nat → List α → List Byte → Except Fault (List α × List Byte)
  | 0, vec, ptr => .ok (vec, ptr)
  | n + 1, vec, ptr =>
    match f ptr with
    | .error e => .error e
    | .ok (x, ptr1) => deserialize_elems f n (vec ++ [x]) ptr1

/-- `deserialize_vec` for a vector type (serde_utils.hpp:179-192); the element reader is
`deserialize_value`, `deserialize_string` or `deserialize_vec` itself. The allocation
`vec.reserve(sz)` (serde_utils.hpp:186) is taken to succeed: memory is not modelled, so a
count that no allocation can serve (`std::bad_alloc`, `std::length_error`) is outside this
definition. -/
def deserialize_vec {α : Type} (f : List Byte → Except Fault (α × List Byte))
    (ptr : List Byte) : Except Fault (List α × List Byte) :=
  match deserialize_value ptr with
  | .error e => .error e
  | .ok (sz, ptr1) => deserialize_elems f sz [] ptr1

/-- The loop of `deserialize_map` for `map<string, u32>` (serde_utils.hpp:206-224). -/
def deserialize_entries : Nat → exec.IdMap → List Byte → Except Fault (exec.IdMap × List Byte)
  | 0, m, ptr => .ok (m, ptr)
  | n + 1, m, ptr =>
    match deserialize_string ptr with
    | .error e => .error e
    | .ok (k, ptr1) =>
      match deserialize_value ptr1 with
      | .error e => .error e
      | .ok (v, ptr2) => deserialize_entries n (exec.IdMap.emplace m k v).1 ptr2

/-- `deserialize_map` (serde_utils.hpp:196-226). As in `deserialize_vec`, the allocation
`m.reserve(sz)` (serde_utils.hpp:204) is taken to succeed. -/
def deserialize_map (ptr : List Byte) : Except Fault (exec.IdMap × List Byte) :=
  match deserialize_value ptr with
  | .error e => .error e
  | .ok (sz, ptr1) => deserialize_entries sz [] ptr1

/-- The bytes of a string on the wire: length, then the raw bytes. -/
def enc_string (s : Str) : List Byte := serialize_value s.length ++ s

/-- The bytes of a sequence on the wire, `enc` giving those of one element. -/
def enc_vec {α : Type} (enc : α → List Byte) (v : List α) : List Byte :=
  serialize_value v.length ++ (v.map enc).flatten

/-- The bytes of a map entry on the wire. -/
def enc_entry (kv : Str × Nat) : List Byte := enc_string kv.1 ++ serialize_value kv.2

end serde

namespace exec

/-- `Graph::serialize` (exec.cpp:60-86), up to the write of the byte stream to
`.graph_cache`: the result is the content of the file. The order in which an
`unordered_map` or `unordered_set` is traversed is implementation-defined: `map_order` and
`set_order` list `m_id_map` and `m_phony` in the order of the traversal. -/
def Graph.serialize (g : Graph) (map_order : IdMap) (set_order : List Nat) :
    Except Fault (List Byte) :=
  let bytestream := serde.serialize_value GRAPH_SERDE_VERSION
  match serde.serialize_vec (serde.serialize_vec serde.serialize_string) g.m_node_store
      bytestream with
  | .error e => .error e
  | .ok b1 =>
    match serde.serialize_vec (serde.serialize_vec serde.serialize_u32) g.m_adjgraph b1 with
    | .error e => .error e
    | .ok b2 =>
      match serde.serialize_vec (serde.serialize_vec serde.serialize_u32) g.m_reverse_adj b2 with
      | .error e => .error e
      | .ok b3 =>
        match serde.serialize_map map_order b3 with
        | .error e => .error e
        | .ok b4 =>
          match serde.serialize_vec serde.serialize_u32 set_order b4 with
          | .error e => .error e
          | .ok b5 => serde.serialize_vec serde.serialize_string g.m_names b5

/-- `std::unordered_set(phony.begin(), phony.end())` (exec.cpp:143). -/
def set_of_vec (phony : List Nat) : List Nat :=
  phony.foldl set_insert []

/-- `Graph::deserialize` (exec.cpp:88-145). `file` is the content of `.graph_cache`, `none`
when the file does not exist. -/
def Graph.deserialize (file : Option (List Byte)) : Except Fault Graph :=
  match file with
  | none => .error Fault.CacheMissing
  | some buffer =>
    if buffer.length = 0 then .error Fault.CacheEmpty
    else
      match serde.deserialize_value buffer with
      | .error e => .error e
      | .ok (version, p0) =>
        if version ≠ GRAPH_SERDE_VERSION then .error Fault.CacheVersionMismatch
        else
          match serde.deserialize_vec (serde.deserialize_vec serde.deserialize_string) p0 with
          | .error e => .error e
          | .ok (node_store, p1) =>
            match serde.deserialize_vec (serde.deserialize_vec serde.deserialize_value) p1 with
            | .error e => .error e
            | .ok (adjgraph, p2) =>
              match serde.deserialize_vec (serde.deserialize_vec serde.deserialize_value) p2 with
              | .error e => .error e
              | .ok (reverse_adj, p3) =>
                match serde.deserialize_map p3 with
                | .error e => .error e
                | .ok (id_map, p4) =>
                  match serde.deserialize_vec serde.deserialize_value p4 with
                  | .error e => .error e
                  | .ok (phony, p5) =>
                    match serde.deserialize_vec serde.deserialize_string p5 with
                    | .error e => .error e
                    | .ok (names, p6) =>
                      let n := node_store.length
                      if adjgraph.length ≠ n ∨ reverse_adj.length ≠ n ∨ names.length ≠ n ∨
                          id_map.length ≠ n then .error Fault.SizeMismatch
                      else if p6 ≠ [] then .error Fault.CacheCorrupt
                      else .ok ⟨node_store, adjgraph, reverse_adj, id_map, set_of_vec phony, names⟩

/-- Every length that the encoder writes as a `u32` fits: the vectors of the graph and the
strings in them are shorter than `2^32`. -/
def Graph.fits_u32 (g : Graph) : Prop :=
  g.m_node_store.length < 2 ^ 32 ∧
  (∀ cmds ∈ g.m_node_store, cmds.length < 2 ^ 32 ∧ ∀ c ∈ cmds, c.length < 2 ^ 32) ∧
  (∀ l ∈ g.m_adjgraph, l.length < 2 ^ 32) ∧
  (∀ l ∈ g.m_reverse_adj, l.length < 2 ^ 32) ∧
  (∀ s ∈ g.m_names, s.length < 2 ^ 32)

instance (g : Graph) : Decidable g.fits_u32 := by
  unfold Graph.fits_u32; infer_instance

/-- Scenario S2 of the specification: rules `d:`, `b: d`, `c: d`, `a: b c`, all phony
(`a` = 97, `b` = 98, `c` = 99, `d` = 100), with one command each. -/
def diamond : parse.Result :=
  { phony := [[97], [98], [99], [100]],
    rules := [⟨[100], [], [[116]]⟩, ⟨[98], [[100]], [[116]]⟩, ⟨[99], [[100]], [[116]]⟩,
      ⟨[97], [[98], [99]], [[116], [117]]⟩] }

/-- The graph that `Graph::build` returns for `diamond`. -/
def diamond_graph : Graph :=
  { m_node_store := [[[116]], [[116]], [[116]], [[116], [117]]],
    m_adjgraph := [[1, 2], [3], [3], []],
    m_reverse_adj := [[], [0], [0], [1, 2]],
    m_id_map := [([100], 0), ([98], 1), ([99], 2), ([97], 3)],
    m_phony := [3, 1, 2, 0],
    m_names := [[100], [98], [99], [97]] }

/-- The state of the file system as the staleness check sees it: the last-write time of
every existing file, `none` for a name that has no file. -/
abbrev FS := Str → Option Nat

/-- `is_newer(file, wrt)` (utils.hpp:40-57): fatal when `wrt` has no readable time, `false`
when `file` has none, else `ftime > wtime`. -/
def is_newer (fs : FS) (file wrt : Str) : Except Fault Bool :=
  match fs wrt with
  | none => .error Fault.DependencyOutputMissing
  | some wtime =>
    match fs file with
    | none => .ok false
    | some ftime => .ok (decide (ftime > wtime))

/-- The loop over the parents in `should_execute` (exec.cpp:216-221). -/
def any_newer (g : Graph) (fs : FS) (target : Str) : List Nat → Except Fault Bool
  | [] => .ok false
  | p :: ps =>
    match is_newer fs (g.get_name_ref p) target with
    | .error e => .error e
    | .ok true => .ok true
    | .ok false => any_newer g fs target ps

/-- The lambda `should_execute` of `Scheduler::run` (exec.cpp:203-224). -/
def should_execute (g : Graph) (fs : FS) (u : Nat) : Except Fault Bool :=
  if g.is_phony u then .ok true
  else if (fs (g.get_name_ref u)).isNone then .ok true
  else any_newer g fs (g.get_name_ref u) (g.get_parent_ids u)

/-- The body of the loop over the parents of a popped node in the reverse DFS
(exec.cpp:171-176). The stack is kept with its back at the head of the list. -/
def visit_parents : List Nat → List Bool → List Nat → List Bool × List Nat
  | [], needed, st => (needed, st)
  | p :: ps, needed, st =>
    if needed.getD p false = false then visit_parents ps (needed.set p true) (p :: st)
    else visit_parents ps needed st

/-- The `while (!st.empty())` loop of the reverse DFS (exec.cpp:167-177); `none` when the
fuel is used up before the stack is empty. -/
def dfs (g : Graph) : Nat → List Bool → List Nat → Option (List Bool)
  | 0, _, _ => none
  | fuel + 1, needed, st =>
    match st with
    | [] => some needed
    | u :: st1 =>
      match visit_parents (g.get_parent_ids u) needed st1 with
      | (needed1, st2) => dfs g fuel needed1 st2

/-- Step 1 of `Scheduler::run` (exec.cpp:159-178): the flags of the needed nodes. Every
pass of the loop either flags a node or shortens the stack, so `size + 1` passes are
enough for a graph whose adjacency entries are ids of the graph. -/
def compute_needed (g : Graph) (start_id : Nat) : Option (List Bool) :=
  dfs g (g.size + 1) ((List.replicate g.size false).set start_id true) [start_id]

/-- The inner loop of the indegree pass (exec.cpp:188-192); `indegree[v]++` is a `uint32_t`
increment. -/
def count_children (needed : List Bool) : List Nat → List Nat → List Nat
  | [], indegree => indegree
  | v :: vs, indegree =>
    if needed.getD v false then
      count_children needed vs (indegree.set v ((indegree.getD v 0 + 1) % 2 ^ 32))
    else count_children needed vs indegree

/-- The indegree pass (exec.cpp:184-193) over the ids `us`. -/
def compute_indegree (g : Graph) (needed : List Bool) : List Nat → List Nat → List Nat
  | [], indegree => indegree
  | u :: us, indegree =>
    if needed.getD u false then
      compute_indegree g needed us (count_children needed (g.get_child_ids u) indegree)
    else compute_indegree g needed us indegree

/-- The initial ready queue (exec.cpp:196-200). -/
def initial_ready (n : Nat) (needed : List Bool) (indegree : List Nat) : List Nat :=
  (List.range n).filter (fun i => needed.getD i false && indegree.getD i 0 == 0)

/-- Readiness propagation over the children of a finished node (exec.cpp:245-249 and
267-271): `--indegree[v]` is a `uint32_t` decrement, evaluated only for a needed `v`. -/
def propagate (needed : List Bool) : List Nat → List Nat → List Nat → List Nat × List Nat
  | [], indegree, ready => (indegree, ready)
  | v :: vs, indegree, ready =>
    if needed.getD v false then
      if (indegree.getD v 0 + 2 ^ 32 - 1) % 2 ^ 32 = 0 then
        propagate needed vs (indegree.set v ((indegree.getD v 0 + 2 ^ 32 - 1) % 2 ^ 32))
          (ready ++ [v])
      else
        propagate needed vs (indegree.set v ((indegree.getD v 0 + 2 ^ 32 - 1) % 2 ^ 32)) ready
    else propagate needed vs indegree ready

namespace ProcessPool

/-- The worker table of the pool: for every slot its `busy` flag and, when it is busy, the
node id of the task frame written to it (the worker echoes that id in its result frame,
process_pool.cpp:48). -/
abbrev Workers := List (Option Nat)

/-- `ProcessPool::can_accept` (process_pool.cpp:96-99). -/
def can_accept (workers : Workers) : Bool :=
  workers.any (fun w => w.isNone)

/-- `ProcessPool::submit` (process_pool.cpp:101-120): the first slot that is not busy takes
the task; `none` is the `std::abort()` when every slot is busy. The bytes written to the
pipe are `task_frame`; here only the table of the workers is kept. -/
def submit : Workers → Nat → Option Workers
  | [], _ => none
  | none :: ws, id => some (some id :: ws)
  | some x :: ws, id =>
    match submit ws id with
    | none => none
    | some ws1 => some (some x :: ws1)

/-- The indices of the busy slots, in the order of the table. -/
def busy_slots : Workers → Nat → List Nat
  | [], _ => []
  | none :: ws, i => busy_slots ws (i + 1)
  | some _ :: ws, i => i :: busy_slots ws (i + 1)

/-- `ProcessPool::wait_result` (process_pool.cpp:122-146), for a pool in which every task
is answered. `select` returns when some busy worker has written its frame; which one is
the environment's choice `pick`, and so is the `exit_code` of the frame. The frame carries
the node id of the task the worker was given (`worker_loop` answers a task that has
commands with `ResultMsg{msg.node_id, rc}`, process_pool.cpp:48). The slot is marked idle
and the frame returned. With no busy slot `select` waits on the empty set for ever: `none`.
A task without commands is not answered (see `worker_pass`): the worker ends, `read`
(process_pool.cpp:139) returns `0`, its result is not looked at and `res` is returned as
it was declared, without a value; and a later write to the pipe of that worker, in
`submit` or in `shutdown`, finds no reader. None of this is in the definition, which
describes the program on runs in which every submitted node has a command. -/
def wait_result (workers : Workers) (pick : Nat) (exit_code : Int) :
    Option ((Nat × Int) × Workers) :=
  match busy_slots workers 0 with
  | [] => none
  | b :: bs =>
    let slot := (b :: bs).getD (pick % (b :: bs).length) b
    match workers.getD slot none with
    | none => none
    | some node_id => some ((node_id, exit_code), workers.set slot none)

end ProcessPool

/-- What the scheduler does that an observer can see. -/
inductive Event where
  | submit (u : Nat)
  | skip (u : Nat)
  | result (u : Nat) (exit_code : Int)
  | shutdown
  deriving DecidableEq, Repr

/-- How a run of the scheduler ends. -/
inductive Outcome where
  | success
  | fatal (e : Fault)
  | abort
  | blocked
  | spin
  | out_of_fuel
  deriving DecidableEq, Repr

/-- The part of the world the scheduler does not control, indexed by the number of events
so far: the file system seen by a staleness check made at that moment, and, for a
`wait_result` at that moment, the worker that answers and the exit code it reports. -/
structure Env where
  fs : Nat → FS
  pick : Nat → Nat
  exit_code : Nat → Int

/-- The variables of the main loop of `Scheduler::run`, the pool's worker table, and the
events so far. -/
structure State where
  indegree : List Nat
  ready : List Nat
  running : Nat
  workers : ProcessPool.Workers
  trace : List Event

/-- The result of a run: the events in order and the way it ended. -/
structure RunResult where
  trace : List Event
  outcome : Outcome
  deriving DecidableEq, Repr

/-- One transition of the main loop. -/
inductive Step where
  | next (s : State)
  | done (r : RunResult)

/-- `pool.shutdown()` and the cycle check after the main loop (exec.cpp:274-281). -/
def finish (n : Nat) (needed : List Bool) (s : State) : RunResult :=
  if (List.range n).any (fun i => needed.getD i false && s.indegree.getD i 0 != 0) then
    ⟨s.trace ++ [Event.shutdown], Outcome.fatal Fault.CycleDetected⟩
  else ⟨s.trace ++ [Event.shutdown], Outcome.success⟩

/-- The part of a pass of the main loop after the dispatch loop (exec.cpp:253-271):
`wait_result`, the check of the exit code, and the propagation. -/
def wait_step (g : Graph) (needed : List Bool) (env : Env) (s : State) : Step :=
  match ProcessPool.wait_result s.workers (env.pick s.trace.length)
      (env.exit_code s.trace.length) with
  | none => .done ⟨s.trace, Outcome.blocked⟩
  | some ((node_id, exit_code), workers1) =>
    if exit_code ≠ 0 then
      .done ⟨s.trace ++ [Event.result node_id exit_code, Event.shutdown],
        Outcome.fatal Fault.CommandFailed⟩
    else
      match propagate needed (g.get_child_ids node_id) s.indegree s.ready with
      | (indegree1, ready1) =>
        .next ⟨indegree1, ready1, s.running - 1, workers1,
          s.trace ++ [Event.result node_id exit_code]⟩

/-- One transition of the main loop of `Scheduler::run` (exec.cpp:232-272), taken at the
test of the dispatch loop (line 235):

* `ready` is not empty and the pool can accept: one pass of the dispatch loop;
* otherwise the dispatch loop is left; with `running == 0` the `continue` leads to the
  test of the outer loop, which ends the loop when `ready` is empty and otherwise comes
  back to this point with nothing changed, for ever (`spin`);
* otherwise `wait_step`. -/
def step (g : Graph) (needed : List Bool) (env : Env) (s : State) : Step :=
  match s.ready with
  | u :: ready1 =>
    if ProcessPool.can_accept s.workers then
      match should_execute g (env.fs s.trace.length) u with
      | .error e => .done ⟨s.trace, Outcome.fatal e⟩
      | .ok true =>
        match ProcessPool.submit s.workers u with
        | none => .done ⟨s.trace, Outcome.abort⟩
        | some workers1 =>
          .next ⟨s.indegree, ready1, s.running + 1, workers1, s.trace ++ [Event.submit u]⟩
      | .ok false =>
        match propagate needed (g.get_child_ids u) s.indegree ready1 with
        | (indegree1, ready2) =>
          .next ⟨indegree1, ready2, s.running, s.workers, s.trace ++ [Event.skip u]⟩
    else if s.running = 0 then .done ⟨s.trace, Outcome.spin⟩
    else wait_step g needed env s
  | [] =>
    if s.running = 0 then .done (finish g.size needed s)
    else wait_step g needed env s

/-- The main loop, at most `fuel` transitions. -/
def main_loop (g : Graph) (needed : List Bool) (env : Env) : Nat → State → RunResult
  | 0, s => ⟨s.trace, Outcome.out_of_fuel⟩
  | fuel + 1, s =>
    match step g needed env s with
    | .done r => r
    | .next s1 => main_loop g needed env fuel s1

/-- `Scheduler::run` (exec.cpp:147-282) on a pool of `n_workers` idle workers (the
constructor and `start_pool`), observed for at most `fuel` transitions of the main
loop. -/
def Scheduler.run_upto (fuel : Nat) (g : Graph) (start : Str) (n_workers : Nat) (env : Env) :
    RunResult :=
  let start_id := g.get_id start
  if start_id = npos then ⟨[], Outcome.fatal Fault.UnknownTarget⟩
  else
    match compute_needed g start_id with
    | none => ⟨[], Outcome.out_of_fuel⟩
    | some needed =>
      let indegree := compute_indegree g needed (List.range g.size) (List.replicate g.size 0)
      let ready := initial_ready g.size needed indegree
      main_loop g needed env fuel ⟨indegree, ready, 0, List.replicate n_workers none, []⟩

/-- `Scheduler::run` observed to its end in a graph returned by `Graph::build`: every
transition of the main loop adds one event, and a node is popped at most once and answers
at most once, so `2 * size + 1` transitions are enough. -/
def Scheduler.run (g : Graph) (start : Str) (n_workers : Nat) (env : Env) : RunResult :=
  Scheduler.run_upto (2 * g.size + 1) g start n_workers env

/-- An environment with a fixed file system in which the `k`-th answer comes from the
busy worker number `picks k` and every command succeeds. -/
def quiet_env (fs : FS) (picks : Nat → Nat) : Env :=
  { fs := fun _ => fs, pick := picks, exit_code := fun _ => 0 }

/-- The file system with no file at all. -/
def no_files : FS := fun _ => none

/-- The parent relation of the graph: `p` is listed among the parents of `u`. -/
def Graph.parent_rel (g : Graph) (u p : Nat) : Prop :=
  p ∈ g.get_parent_ids u

/-- The needed set of the specification: `u` is `start` or is reached from it by parent
steps. -/
def Graph.ancestor (g : Graph) (start u : Nat) : Prop :=
  Relation.ReflTransGen g.parent_rel start u

/-- The node `v` lies on a directed cycle of the graph. -/
def Graph.on_cycle (g : Graph) (v : Nat) : Prop :=
  Relation.TransGen g.parent_rel v v

/-- The flag `needed[v]` is set. -/
def flagged (needed : List Bool) (v : Nat) : Prop :=
  needed.getD v false = true

instance (needed : List Bool) (v : Nat) : Decidable (flagged needed v) := by
  unfold flagged; infer_instance

/-- The nodes whose tasks are with a worker. -/
def ProcessPool.inflight (workers : ProcessPool.Workers) : List Nat :=
  workers.filterMap (fun w => w)

/-- The nodes that have finished with success according to the events: skipped, or
answered with exit code `0`. -/
def completed : List Event → List Nat
  | [] => []
  | Event.skip u :: tr => u :: completed tr
  | Event.result u c :: tr => if c = 0 then u :: completed tr else completed tr
  | _ :: tr => completed tr

/-- The number of edges into `v` that the indegree pass counts while it visits the nodes
`us`: for every needed `u` among them, the occurrences of `v` in its child list. -/
def edge_count (g : Graph) (needed : List Bool) (us : List Nat) (v : Nat) : Nat :=
  ((us.filter (fun u => needed.getD u false)).map (fun u => (g.get_child_ids u).count v)).sum

/-- What the main loop relies on: one flag per node, flags closed under the parent step,
child and parent lists that mirror each other, and parent lists short enough for a
`uint32_t` counter. -/
structure Setting (g : Graph) (needed : List Bool) : Prop where
  needed_len : needed.length = g.size
  closed : ∀ v p, flagged needed v → p ∈ g.get_parent_ids v → flagged needed p
  symm : ∀ u v, (g.get_child_ids u).count v = (g.get_parent_ids v).count u
  parents_lt : ∀ v, (g.get_parent_ids v).length < 2 ^ 32

/-- What holds in the main loop for every graph: the queue holds flagged nodes only, only
flagged nodes have been submitted, every answer so far had exit code `0`, and the pool has
not been shut down. -/
structure Weak (needed : List Bool) (s : State) : Prop where
  ready_flagged : ∀ v ∈ s.ready, flagged needed v
  submit_flagged : ∀ u, Event.submit u ∈ s.trace → flagged needed u
  results_zero : ∀ u c, Event.result u c ∈ s.trace → c = 0
  no_shutdown : Event.shutdown ∉ s.trace

/-- The node `u` is up to date in the file system `fs`: its file exists and no parent has a
file with a strictly greater last-write time. -/
def up_to_date (g : Graph) (fs : FS) (u : Nat) : Prop :=
  ∃ t, fs (g.get_name_ref u) = some t ∧
    ∀ p ∈ g.get_parent_ids u, ∀ tp, fs (g.get_name_ref p) = some tp → tp ≤ t

/-- The bookkeeping of the main loop in a graph returned by `Graph::build`, in terms of the
queue `R`, the nodes `F` with a worker and the nodes `D` that have finished: no node is in
two places or twice in one, all of them are flagged, the counter of a flagged node is the
number of its parent entries that have not finished, a flagged node has left the waiting
state exactly when its counter is zero, and no node on a cycle has left it. -/
structure Core (g : Graph) (needed : List Bool) (indegree R F D : List Nat) : Prop where
  indeg_len : indegree.length = needed.length
  nodup : (R ++ (F ++ D)).Nodup
  all_flagged : ∀ v ∈ R ++ (F ++ D), flagged needed v
  indeg_eq : ∀ v, flagged needed v →
    indegree.getD v 0 = (g.get_parent_ids v).countP (fun p => decide (p ∉ D))
  ready_iff : ∀ v, flagged needed v → (v ∈ R ++ (F ++ D) ↔ indegree.getD v 0 = 0)
  no_cycle : ∀ v ∈ R ++ (F ++ D), ¬ g.on_cycle v

/-- Dependency order of a sequence of events: whenever a node is submitted, each of its
parents has been skipped before, or has been submitted and has answered with exit code `0`
before. -/
def dep_ordered (g : Graph) (tr : List Event) : Prop :=
  ∀ pre post v, tr = pre ++ Event.submit v :: post →
    ∀ p ∈ g.get_parent_ids v,
      Event.skip p ∈ pre ∨ (Event.submit p ∈ pre ∧ Event.result p 0 ∈ pre)

/-- The invariant of the main loop in a graph returned by `Graph::build`: the bookkeeping
`Core` for the queue, the busy workers and the finished nodes, and the relation between
the state and the events so far. -/
structure Inv (g : Graph) (needed : List Bool) (n_workers : Nat) (s : State) : Prop where
  core : Core g needed s.indegree s.ready (ProcessPool.inflight s.workers) (completed s.trace)
  weak : Weak needed s
  workers_len : s.workers.length = n_workers
  running_eq : s.running = (ProcessPool.inflight s.workers).length
  trace_len : s.trace.length ≤
    (ProcessPool.inflight s.workers).length + 2 * (completed s.trace).length
  submitted : ∀ u, Event.submit u ∈ s.trace →
    u ∈ ProcessPool.inflight s.workers ∨ u ∈ completed s.trace
  answered : ∀ u c, Event.result u c ∈ s.trace → Event.submit u ∈ s.trace
  inflight_sub : ∀ u ∈ ProcessPool.inflight s.workers, Event.submit u ∈ s.trace
  dep_order : dep_ordered g s.trace

/-- A rule set with a cycle that the target `a` needs: the single rule `a: a`. -/
def self_loop : parse.Result :=
  { phony := [[97]], rules := [⟨[97], [[97]], [[116]]⟩] }

/-- The graph that `Graph::build` returns for `self_loop`. -/
def self_loop_graph : Graph :=
  { m_node_store := [[[116]]], m_adjgraph := [[0]], m_reverse_adj := [[0]],
    m_id_map := [([97], 0)], m_phony := [0], m_names := [[97]] }

/-- A rule set with a cycle that the target `a` does not need: `a:`, `x: y`, `y: x`
(`x` = 120, `y` = 121), with `a` phony. -/
def side_cycle : parse.Result :=
  { phony := [[97]],
    rules := [⟨[97], [], [[116]]⟩, ⟨[120], [[121]], [[116]]⟩, ⟨[121], [[120]], [[116]]⟩] }

/-- The graph that `Graph::build` returns for `side_cycle`. -/
def side_cycle_graph : Graph :=
  { m_node_store := [[[116]], [[116]], [[116]]], m_adjgraph := [[], [2], [1]],
    m_reverse_adj := [[], [2], [1]],
    m_id_map := [([97], 0), ([120], 1), ([121], 2)], m_phony := [0],
    m_names := [[97], [120], [121]] }

/-- Two rules that are not phony: `s:` and `o: s` (`s` = 115, `o` = 111), the second with a
command. -/
def copy_rules : parse.Result :=
  { phony := [], rules := [⟨[115], [], []⟩, ⟨[111], [[115]], [[99, 112]]⟩] }

/-- The graph that `Graph::build` returns for `copy_rules`. -/
def copy_graph : Graph :=
  { m_node_store := [[], [[99, 112]]], m_adjgraph := [[1], []], m_reverse_adj := [[], [0]],
    m_id_map := [([115], 0), ([111], 1)], m_phony := [], m_names := [[115], [111]] }

/-- A file system in which every name has a file, `s` older than all the others. -/
def old_source : FS := fun name => if name = [115] then some 1 else some 2

/-- A single phony rule `a:` with one command. -/
def one_phony : parse.Result :=
  { phony := [[97]], rules := [⟨[97], [], [[116]]⟩] }

/-- The graph that `Graph::build` returns for `one_phony`. -/
def one_phony_graph : Graph :=
  { m_node_store := [[[116]]], m_adjgraph := [[]], m_reverse_adj := [[]],
    m_id_map := [([97], 0)], m_phony := [0], m_names := [[97]] }

/-- Scenario S5 of the specification: `a:` and `b: a`, both phony, one command each. -/
def chain2 : parse.Result :=
  { phony := [[97], [98]], rules := [⟨[97], [], [[102]]⟩, ⟨[98], [[97]], [[116]]⟩] }

/-- The graph that `Graph::build` returns for `chain2`. -/
def chain2_graph : Graph :=
  { m_node_store := [[[102]], [[116]]], m_adjgraph := [[1], []], m_reverse_adj := [[], [0]],
    m_id_map := [([97], 0), ([98], 1)], m_phony := [0, 1], m_names := [[97], [98]] }

/-- An environment without files in which every command sequence fails with status `1`. -/
def failing_env : Env :=
  { fs := fun _ => no_files, pick := fun _ => 0, exit_code := fun _ => 1 }

/-- The bindings that the first loop of `Graph::build` adds for the rules `rs` when the
first of them has index `i` (used to state what `build_ids` returns). -/
def ids_from : List parse.Rule → Nat → IdMap
  | [], _ => []
  | r :: rs, i => (r.name, i) :: ids_from rs (i + 1)

/-- The wire image of a graph, the map and the set listed in traversal order. -/
def wire (g : Graph) (map_order : IdMap) (set_order : List Nat) : List Byte :=
  serde.serialize_value GRAPH_SERDE_VERSION ++
  (serde.enc_vec (serde.enc_vec serde.enc_string) g.m_node_store ++
  (serde.enc_vec (serde.enc_vec serde.serialize_value) g.m_adjgraph ++
  (serde.enc_vec (serde.enc_vec serde.serialize_value) g.m_reverse_adj ++
  (serde.enc_vec serde.enc_entry map_order ++
  (serde.enc_vec serde.serialize_value set_order ++
  (serde.enc_vec serde.enc_string g.m_names ++ []))))))

/-- The conditions under which the encoder and the decoder agree on a graph. -/
structure Encodable (g : Graph) (map_order : IdMap) (set_order : List Nat) : Prop where
  fits : g.fits_u32
  adj_len : g.m_adjgraph.length = g.m_node_store.length
  rev_len : g.m_reverse_adj.length = g.m_node_store.length
  names_len : g.m_names.length = g.m_node_store.length
  map_len : map_order.length = g.m_node_store.length
  adj_lt : ∀ l ∈ g.m_adjgraph, ∀ x ∈ l, x < 2 ^ 32
  rev_lt : ∀ l ∈ g.m_reverse_adj, ∀ x ∈ l, x < 2 ^ 32
  map_keys : (map_order.map Prod.fst).Nodup
  map_good : ∀ kv ∈ map_order, kv.1.length < 2 ^ 32 ∧ kv.2 < 2 ^ 32
  set_len : set_order.length < 2 ^ 32
  set_lt : ∀ x ∈ set_order, x < 2 ^ 32
  set_nodup : set_order.Nodup

end exec

namespace serde

/-- The decoder `d` goes past the end of the buffer on every encoding of a `good` value
that has been cut short: `k` bytes of it are there, fewer than the encoder wrote. -/
def cut_fails {α : Type} (d : List Byte → Except Fault (α × List Byte))
    (enc : α → List Byte) (good : α → Prop) : Prop :=
  ∀ x k, good x → k < (enc x).length → d ((enc x).take k) = .error Fault.ReadPastEnd

end serde

namespace exec

/-- The nodes passed to `pool.submit`, in the order of the calls. -/
def submissions : List Event → List Nat
  | [] => []
  | Event.submit u :: tr => u :: submissions tr
  | _ :: tr => submissions tr

/-- Scenario S1 of the specification: the chain `a:`, `b: a`, `c: b`, all phony, with one
command for each rule. -/
def chain3 : parse.Result :=
  { phony := [[97], [98], [99]],
    rules := [⟨[97], [], [[116]]⟩, ⟨[98], [[97]], [[116]]⟩, ⟨[99], [[98]], [[116]]⟩] }

/-- The graph that `Graph::build` returns for `chain3`. -/
def chain3_graph : Graph :=
  { m_node_store := [[[116]], [[116]], [[116]]], m_adjgraph := [[1], [2], []],
    m_reverse_adj := [[], [0], [1]], m_id_map := [([97], 0), ([98], 1), ([99], 2)],
    m_phony := [0, 1, 2], m_names := [[97], [98], [99]] }

/-- Scenario S3 of the specification as the parser returns it: the single rule
`out: src` with the command `cp src out`, not phony. -/
def s3_rules : parse.Result :=
  { phony := [],
    rules := [⟨[111, 117, 116], [[115, 114, 99]],
      [[99, 112, 32, 115, 114, 99, 32, 111, 117, 116]]⟩] }

/-- Scenario S3 with a rule for the source file: `out: src` with the command `cp src out`,
and `src:` with no command, neither phony. -/
def s3_with_source : parse.Result :=
  { phony := [],
    rules := [⟨[111, 117, 116], [[115, 114, 99]],
      [[99, 112, 32, 115, 114, 99, 32, 111, 117, 116]]⟩, ⟨[115, 114, 99], [], []⟩] }

/-- The graph that `Graph::build` returns for `s3_with_source`: `out` is node `0` and `src`
is node `1`. -/
def s3_graph : Graph :=
  { m_node_store := [[[99, 112, 32, 115, 114, 99, 32, 111, 117, 116]], []],
    m_adjgraph := [[], [0]], m_reverse_adj := [[1], []],
    m_id_map := [([111, 117, 116], 0), ([115, 114, 99], 1)], m_phony := [],
    m_names := [[111, 117, 116], [115, 114, 99]] }

/-- The files of scenario S3: `src` written at time `1`, `out` at time `2`, nothing else. -/
def s3_files : FS := fun name =>
  if name = [115, 114, 99] then some 1 else if name = [111, 117, 116] then some 2 else none

/-- A cache file of 58 bytes: version `1`; one node with no command; the child list of
node `0` holds the single entry `5`; its parent list is empty; the map sends `a` to `0`;
no phony id; the name `a`. -/
def bad_cache : List Byte :=
  [1, 0, 0, 0,
   1, 0, 0, 0, 0, 0, 0, 0,
   1, 0, 0, 0, 1, 0, 0, 0, 5, 0, 0, 0,
   1, 0, 0, 0, 0, 0, 0, 0,
   1, 0, 0, 0, 1, 0, 0, 0, 97, 0, 0, 0, 0,
   0, 0, 0, 0,
   1, 0, 0, 0, 1, 0, 0, 0, 97]

/-- The graph that `Graph::deserialize` returns for `bad_cache`. -/
def bad_graph : Graph :=
  { m_node_store := [[]], m_adjgraph := [[5]], m_reverse_adj := [[]],
    m_id_map := [([97], 0)], m_phony := [], m_names := [[97]] }

/-- A cache file of three bytes, one byte short of the version field. -/
def short_cache : List Byte := [1, 0, 0]

/-- The cache file that `Graph::serialize` writes for `one_phony_graph`, cut off before its
last byte. -/
def cut_cache : List Byte :=
  (wire one_phony_graph one_phony_graph.m_id_map one_phony_graph.m_phony).dropLast

namespace ProcessPool

/-- `ResultMsg` (process_pool.hpp:13-16). -/
structure ResultMsg where
  node_id : Nat
  exit_code : Int
  deriving DecidableEq, Repr

/-- The four bytes of a `uint32_t` as `write(fd, &x, sizeof(x))` puts them into a pipe, on
a little-endian host; the value is taken modulo `2^32`, which is the conversion of a
`size_t` to `uint32_t`. -/
def u32_bytes (x : Nat) : List Byte := serde.serialize_value x

/-- What `submit` writes for one command (process_pool.cpp:108-110): the length as a
`uint32_t`, then that many bytes of the command. -/
def command_frame (cmd : Str) : List Byte :=
  u32_bytes cmd.length ++ cmd.take (cmd.length % 2 ^ 32)

/-- The bytes that `ProcessPool::submit` writes to the pipe of the worker it has chosen
(process_pool.cpp:104-111): `TaskMsg{id, commands.size()}`, then the commands. -/
def task_frame (id : Nat) (commands : List Str) : List Byte :=
  u32_bytes id ++ u32_bytes commands.length ++ (commands.map command_frame).flatten

/-- The bytes that `ProcessPool::shutdown` writes to every worker (process_pool.cpp:155-156):
`TaskMsg{0, 0}`. -/
def shutdown_frame : List Byte := u32_bytes 0 ++ u32_bytes 0

/-- A `read` of a `uint32_t` from a pipe that holds the bytes `pipe`: the value and the
bytes that stay in the pipe; `none` when fewer than four bytes are there (the call returns
short and the source does not look at its result). -/
def read_u32 (pipe : List Byte) : Option (Nat × List Byte) :=
  match pipe with
  | b0 :: b1 :: b2 :: b3 :: rest =>
    some (b0.val + 256 * b1.val + 65536 * b2.val + 16777216 * b3.val, rest)
  | _ => none

/-- A `read` of `n` bytes from a pipe that holds `pipe`; `none` when fewer are there. -/
def read_bytes (n : Nat) (pipe : List Byte) : Option (Str × List Byte) :=
  if n ≤ pipe.length then some (pipe.take n, pipe.drop n) else none

/-- The `for` loop of `worker_loop` (process_pool.cpp:34-46) with `count` passes to go, the
next one with index `i`: each pass reads a length and a command, runs it with
`std::system`, whose status for the pass `i` and the command `cmd` is `system i cmd`, and
leaves the loop on a non-zero status. The result is the list of the commands run, the last
value of `rc`, and the bytes left in the pipe. -/
def run_commands (system : Nat → Str → Int) :
    Nat → Nat → List Byte → Option (List Str × Int × List Byte)
  | 0, _, pipe => some ([], 0, pipe)
  | count + 1, i, pipe =>
    match read_u32 pipe with
    | none => none
    | some (len, pipe1) =>
      match read_bytes len pipe1 with
      | none => none
      | some (cmd, pipe2) =>
        if system i cmd ≠ 0 then some ([cmd], system i cmd, pipe2)
        else
          match run_commands system count (i + 1) pipe2 with
          | none => none
          | some (ran, rc, pipe3) => some (cmd :: ran, rc, pipe3)

/-- What one pass of the `while (true)` of `worker_loop` does. -/
inductive Pass where
  /-- The loop is left (`break`) and the process ends with `_exit(0)`; nothing is written. -/
  | exit
  /-- The commands `ran` were run in this order, the one frame `res` was written to the
  result pipe, and the loop goes on with `pipe`. -/
  | reply (ran : List Str) (res : ResultMsg) (pipe : List Byte)
  /-- A `read` found fewer bytes than it asked for. The source does not look at the result
  of these calls (process_pool.cpp:38, 41) and goes on with what its buffers hold; that is
  not modelled. -/
  | short_read
  deriving DecidableEq, Repr

/-- One pass of the loop of `worker_loop` (process_pool.cpp:25-50) on a pipe that holds the
bytes `pipe` (an empty pipe stands for the end of the file, `r <= 0`). -/
def worker_pass (system : Nat → Str → Int) (pipe : List Byte) : Pass :=
  if pipe = [] then Pass.exit
  else
    match read_u32 pipe with
    | none => Pass.short_read
    | some (node_id, pipe1) =>
      match read_u32 pipe1 with
      | none => Pass.short_read
      | some (cmd_count, pipe2) =>
        if cmd_count = 0 then Pass.exit
        else
          match run_commands system cmd_count 0 pipe2 with
          | none => Pass.short_read
          | some (ran, rc, pipe3) => Pass.reply ran ⟨node_id, rc⟩ pipe3

end ProcessPool

/-- A single phony rule `a:` with no command. -/
def bare_phony : parse.Result :=
  { phony := [[97]], rules := [⟨[97], [], []⟩] }

/-- The graph that `Graph::build` returns for `bare_phony`. -/
def bare_phony_graph : Graph :=
  { m_node_store := [[]], m_adjgraph := [[]], m_reverse_adj := [[]],
    m_id_map := [([97], 0)], m_phony := [0], m_names := [[97]] }

end exec

/-- The longest prefix of decimal digits of `s` (`0` is the byte 48). -/
def leading_digits (s : Str) : Str :=
  s.takeWhile (fun b => decide (48 ≤ b.val ∧ b.val ≤ 57))

/-- The number written by the decimal digits `ds`. -/
def digits_value (ds : Str) : Nat :=
  ds.foldl (fun acc b => 10 * acc + (b.val - 48)) 0

/-- `std::from_chars(first, last, val)` for `int` in base 10, reduced to what
`parse_and_filter` looks at: `some val` when `ec == std::errc{}`, `none` otherwise. The
text matched is an optional minus sign (the byte 45) and the longest run of digits after
it; no digit is an error, a value outside the range of `int` is an error, and bytes after
the digits are not looked at. -/
def from_chars (s : Str) : Option Int :=
  match s with
  | [] => none
  | b :: rest =>
    if b = 45 then
      if leading_digits rest = [] then none
      else if digits_value (leading_digits rest) ≤ 2 ^ 31 then
        some (-(digits_value (leading_digits rest) : Int))
      else none
    else
      if leading_digits (b :: rest) = [] then none
      else if digits_value (leading_digits (b :: rest)) < 2 ^ 31 then
        some (digits_value (leading_digits (b :: rest)) : Int)
      else none

/-- `ArgsResult` (utils.hpp:59-61). -/
structure ArgsResult where
  thread_count : Option Int
  forwarded_args : List Str
  deriving DecidableEq, Repr

/-- `arg.starts_with("-j")` (utils.hpp:70). -/
def starts_with_j (arg : Str) : Bool :=
  match arg with
  | b0 :: b1 :: _ => decide (b0 = 45 ∧ b1 = 106)
  | _ => false

/-- The loop of `ArgsResult::parse_and_filter` (utils.hpp:67-97) on the arguments from
`argv[i]` on. -/
def ArgsResult.parse_loop : List Str → ArgsResult → ArgsResult
  | [], result => result
  | [arg], result =>
    if starts_with_j arg then
      if arg.length > 2 then
        match from_chars (arg.drop 2) with
        | some val => { result with thread_count := some val }
        | none => result
      else { result with thread_count := some 0 }
    else { result with forwarded_args := result.forwarded_args ++ [arg] }
  | arg :: next_arg :: rest, result =>
    if starts_with_j arg then
      if arg.length > 2 then
        match from_chars (arg.drop 2) with
        | some val =>
          ArgsResult.parse_loop (next_arg :: rest) { result with thread_count := some val }
        | none => ArgsResult.parse_loop (next_arg :: rest) result
      else
        match from_chars next_arg with
        | some val => ArgsResult.parse_loop rest { result with thread_count := some val }
        | none =>
          ArgsResult.parse_loop (next_arg :: rest) { result with thread_count := some 0 }
    else
      ArgsResult.parse_loop (next_arg :: rest)
        { result with forwarded_args := result.forwarded_args ++ [arg] }

/-- `ArgsResult::parse_and_filter` (utils.hpp:63-99); `argv` holds the program name and the
arguments. -/
def ArgsResult.parse_and_filter (argv : List Str) : ArgsResult :=
  ArgsResult.parse_loop argv.tail ⟨none, []⟩

/-- `exec::default_procs` (exec.hpp:19). -/
def exec.default_procs : Nat := 2

/-- The size of the pool that `main` asks for (main.cpp:14-21); `hardware_concurrency` is
the value of `std::thread::hardware_concurrency()`. -/
def njobs (thread_count : Option Int) (hardware_concurrency : Nat) : Nat :=
  match thread_count with
  | none => exec.default_procs
  | some val => if val = 0 then hardware_concurrency else (val % 2 ^ 32).toNat

namespace exec

/-- The state of the main loop of `Scheduler::run` after `k` transitions from the state
`s`; `none` when the loop has ended before. -/
def loop_state (g : Graph) (needed : List Bool) (env : Env) : Nat → State → Option State
  | 0, s => some s
  | k + 1, s =>
    match step g needed env s with
    | .next s1 => loop_state g needed env k s1
    | .done _ => none

/-- The state in which `Scheduler::run` enters its main loop (exec.cpp:180-229): the
counters of the indegree pass, the initial queue, `running = 0`, and a pool of `n_workers`
idle workers. -/
def initial_state (g : Graph) (needed : List Bool) (n_workers : Nat) : State :=
  ⟨compute_indegree g needed (List.range g.size) (List.replicate g.size 0),
    initial_ready g.size needed
      (compute_indegree g needed (List.range g.size) (List.replicate g.size 0)),
    0, List.replicate n_workers none, []⟩

/-- The nodes popped from the ready queue, in the order of the pops: the submitted ones and
the skipped ones. -/
def popped : List Event → List Nat
  | [] => []
  | Event.submit u :: tr => u :: popped tr
  | Event.skip u :: tr => u :: popped tr
  | _ :: tr => popped tr

/-- No `--indegree[v]` of a propagation over the child list `vs` (exec.cpp:245-249 and
267-271) is applied to a counter that is `0`: the condition follows the loop of
`propagate` child by child. -/
def no_underflow (needed : List Bool) : List Nat → List Nat → Prop
  | [], _ => True
  | v :: vs, indegree =>
    if needed.getD v false then
      0 < indegree.getD v 0 ∧
        no_underflow needed vs (indegree.set v ((indegree.getD v 0 + 2 ^ 32 - 1) % 2 ^ 32))
    else no_underflow needed vs indegree

end exec

namespace exec

/-- The rules `a:` and `b: a`, both phony; `a` has no command, `b` has one. -/
def bare_chain2 : parse.Result :=
  { phony := [[97], [98]], rules := [⟨[97], [], []⟩, ⟨[98], [[97]], [[116]]⟩] }

/-- The graph that `Graph::build` returns for `bare_chain2`. -/
def bare_chain2_graph : Graph :=
  { m_node_store := [[], [[116]]], m_adjgraph := [[1], []], m_reverse_adj := [[], [0]],
    m_id_map := [([97], 0), ([98], 1)], m_phony := [0, 1], m_names := [[97], [98]] }

/-- The rules `a:`, `c:` and `t: a c`, all phony; `a` has no command, `c` has the command
`f` and `t` the command `t`. -/
def bare_pair : parse.Result :=
  { phony := [[97], [99], [116]],
    rules := [⟨[97], [], []⟩, ⟨[99], [], [[102]]⟩, ⟨[116], [[97], [99]], [[116]]⟩] }

/-- The graph that `Graph::build` returns for `bare_pair`. -/
def bare_pair_graph : Graph :=
  { m_node_store := [[], [[102]], [[116]]], m_adjgraph := [[2], [2], []],
    m_reverse_adj := [[], [], [0, 1]], m_id_map := [([97], 0), ([99], 1), ([116], 2)],
    m_phony := [0, 1, 2], m_names := [[97], [99], [116]] }

/-- The rules `a:`, `x: y`, `y: x` and `t: a x`, with `a` phony and without a command; the
other three have one command each. The cycle of `x` and `y` is needed for `t`. -/
def bare_cycle : parse.Result :=
  { phony := [[97]],
    rules := [⟨[97], [], []⟩, ⟨[120], [[121]], [[116]]⟩, ⟨[121], [[120]], [[116]]⟩,
      ⟨[116], [[97], [120]], [[116]]⟩] }

/-- The graph that `Graph::build` returns for `bare_cycle`. -/
def bare_cycle_graph : Graph :=
  { m_node_store := [[], [[116]], [[116]], [[116]]], m_adjgraph := [[3], [2, 3], [1], []],
    m_reverse_adj := [[], [2], [1], [0, 1]],
    m_id_map := [([97], 0), ([120], 1), ([121], 2), ([116], 3)], m_phony := [0],
    m_names := [[97], [120], [121], [116]] }

/-- The rules `a:`, `b: a`, `x: y` and `y: x`, with `a` and `b` phony; `a` has no command.
The cycle of `x` and `y` is not needed for `b`. -/
def bare_side_cycle : parse.Result :=
  { phony := [[97], [98]],
    rules := [⟨[97], [], []⟩, ⟨[98], [[97]], [[116]]⟩, ⟨[120], [[121]], [[116]]⟩,
      ⟨[121], [[120]], [[116]]⟩] }

/-- The graph that `Graph::build` returns for `bare_side_cycle`. -/
def bare_side_cycle_graph : Graph :=
  { m_node_store := [[], [[116]], [[116]], [[116]]], m_adjgraph := [[1], [], [3], [2]],
    m_reverse_adj := [[], [0], [3], [2]],
    m_id_map := [([97], 0), ([98], 1), ([120], 2), ([121], 3)], m_phony := [0, 1],
    m_names := [[97], [98], [120], [121]] }

/-- Scenario S1 of the specification with the rules as it writes them, without command
lines: the chain `a:`, `b: a`, `c: b`, all phony. -/
def bare_chain3 : parse.Result :=
  { phony := [[97], [98], [99]],
    rules := [⟨[97], [], []⟩, ⟨[98], [[97]], []⟩, ⟨[99], [[98]], []⟩] }

/-- The graph that `Graph::build` returns for `bare_chain3`. -/
def bare_chain3_graph : Graph :=
  { m_node_store := [[], [], []], m_adjgraph := [[1], [2], []],
    m_reverse_adj := [[], [0], [1]], m_id_map := [([97], 0), ([98], 1), ([99], 2)],
    m_phony := [0, 1, 2], m_names := [[97], [98], [99]] }

end exec

/-! ## Lists -/

theorem length_le_of_nodup_lt (l : List Nat) (n : Nat) (hnd : l.Nodup) (hlt : ∀ x ∈ l, x < n) :
    l.length ≤ n := by
  have hsub : l ⊆ List.range n := fun x hx => List.mem_range.mpr (hlt x hx)
  have := (List.subperm_of_subset hnd hsub).length_le
  simpa using this


/-! ## Graph construction -/

namespace exec

theorem find_append (m m2 : IdMap) (k : Str) :
    IdMap.find (m ++ m2) k = (IdMap.find m k).orElse (fun _ => IdMap.find m2 k) := by
  induction m with
  | nil => simp [IdMap.find]
  | cons a m ih =>
    obtain ⟨k1, v⟩ := a
    simp only [List.cons_append, IdMap.find]
    split <;> simp [ih]

theorem find_eq_none_iff (m : IdMap) (k : Str) :
    IdMap.find m k = none ↔ k ∉ m.map Prod.fst := by
  induction m with
  | nil => simp [IdMap.find]
  | cons a m ih =>
    obtain ⟨k1, v⟩ := a
    simp only [IdMap.find, List.map_cons, List.mem_cons, not_or]
    split
    · rename_i h; simp [h]
    · rename_i h; rw [ih]; constructor
      · intro h2; exact ⟨fun h3 => h h3.symm, h2⟩
      · intro h2; exact h2.2

theorem find_some_mem (m : IdMap) (k : Str) (v : Nat) (h : IdMap.find m k = some v) :
    (k, v) ∈ m := by
  induction m with
  | nil => simp [IdMap.find] at h
  | cons a m ih =>
    obtain ⟨k1, v1⟩ := a
    simp only [IdMap.find] at h
    split at h
    · rename_i h1; simp at h; simp [h1, h]
    · exact List.mem_cons_of_mem _ (ih h)

theorem map_fst_ids_from (rs : List parse.Rule) (i : Nat) :
    (ids_from rs i).map Prod.fst = rs.map (fun r => r.name) := by
  induction rs generalizing i with
  | nil => rfl
  | cons r rs ih => simp [ids_from, ih]

theorem length_ids_from (rs : List parse.Rule) (i : Nat) :
    (ids_from rs i).length = rs.length := by
  induction rs generalizing i with
  | nil => rfl
  | cons r rs ih => simp [ids_from, ih]

theorem find_ids_from_some (rs : List parse.Rule) (i : Nat) (k : Str) (v : Nat)
    (h : IdMap.find (ids_from rs i) k = some v) :
    ∃ j r, v = i + j ∧ rs[j]? = some r ∧ r.name = k := by
  induction rs generalizing i with
  | nil => simp [ids_from, IdMap.find] at h
  | cons r rs ih =>
    simp only [ids_from, IdMap.find] at h
    split at h
    · rename_i h1
      simp at h
      exact ⟨0, r, by omega, by simp, h1⟩
    · obtain ⟨j, r2, h2, h3, h4⟩ := ih (i + 1) h
      exact ⟨j + 1, r2, by omega, by simpa using h3, h4⟩

theorem find_ids_from_index (rs : List parse.Rule) (i j : Nat) (r : parse.Rule)
    (hnd : (rs.map (fun r => r.name)).Nodup) (hj : rs[j]? = some r) :
    IdMap.find (ids_from rs i) r.name = some (i + j) := by
  induction rs generalizing i j with
  | nil => simp at hj
  | cons r1 rs ih =>
    simp only [List.map_cons, List.nodup_cons] at hnd
    cases j with
    | zero =>
      simp at hj
      simp [ids_from, IdMap.find, hj]
    | succ j =>
      simp only [List.getElem?_cons_succ] at hj
      have hmem : r.name ∈ rs.map (fun r => r.name) :=
        List.mem_map.mpr ⟨r, List.getElem?_mem hj, rfl⟩
      have hne : r1.name ≠ r.name := fun h => hnd.1 (h ▸ hmem)
      simp only [ids_from, IdMap.find, hne, if_false]
      rw [ih (i + 1) j hnd.2 hj]
      congr 1; omega

theorem build_ids_ok (rs : List parse.Rule) (i : Nat) (m : IdMap) (names : List Str)
    (hfresh : ∀ r ∈ rs, IdMap.find m r.name = none)
    (hnd : (rs.map (fun r => r.name)).Nodup) :
    build_ids rs i m names = .ok (m ++ ids_from rs i, names ++ rs.map (fun r => r.name)) := by
  induction rs generalizing i m names with
  | nil => simp [build_ids, ids_from]
  | cons r rs ih =>
    simp only [List.map_cons, List.nodup_cons] at hnd
    have h0 : IdMap.find m r.name = none := hfresh r (List.mem_cons_self _ _)
    simp only [build_ids, IdMap.emplace, h0]
    rw [ih (i + 1) (m ++ [(r.name, i)]) (names ++ [r.name]) _ hnd.2]
    · simp [ids_from]
    · intro r2 hr2
      rw [find_append, hfresh r2 (List.mem_cons_of_mem _ hr2)]
      have hne : r.name ≠ r2.name := fun h =>
        hnd.1 (h ▸ List.mem_map.mpr ⟨r2, hr2, rfl⟩)
      simp [IdMap.find, hne]

theorem build_ids_error (rs : List parse.Rule) (i : Nat) (m : IdMap) (names : List Str)
    (e : Fault) (h : build_ids rs i m names = .error e) : e = Fault.DuplicateRule := by
  induction rs generalizing i m names with
  | nil => simp [build_ids] at h
  | cons r rs ih =>
    simp only [build_ids, IdMap.emplace] at h
    split at h
    · rename_i h1
      split at h1
      · simp at h; exact h.symm
      · simp at h1
    · rename_i m1 h1
      exact ih _ _ _ h

theorem build_ids_ok_inv (rs : List parse.Rule) (i : Nat) (m : IdMap) (names : List Str)
    (x : IdMap × List Str) (h : build_ids rs i m names = .ok x) :
    (∀ r ∈ rs, IdMap.find m r.name = none) ∧ (rs.map (fun r => r.name)).Nodup := by
  induction rs generalizing i m names with
  | nil => simp
  | cons r rs ih =>
    simp only [build_ids, IdMap.emplace] at h
    split at h
    · simp at h
    · rename_i m1 h1
      split at h1
      · simp at h1
      · rename_i h0
        simp only [Prod.mk.injEq, and_true] at h1
        subst h1
        obtain ⟨h2, h3⟩ := ih _ _ _ h
        have key : ∀ r2 ∈ rs, IdMap.find m r2.name = none ∧ r.name ≠ r2.name := by
          intro r2 hr2
          have := h2 r2 hr2
          rw [find_append] at this
          cases hm : IdMap.find m r2.name with
          | some v => simp [hm] at this
          | none =>
            simp only [hm, Option.orElse, IdMap.find] at this
            refine ⟨rfl, ?_⟩
            intro hne
            simp [hne] at this
        refine ⟨?_, ?_⟩
        · intro r2 hr2
          rcases List.mem_cons.mp hr2 with h4 | h4
          · rw [h4]; exact h0
          · exact (key r2 h4).1
        · simp only [List.map_cons, List.nodup_cons]
          refine ⟨?_, h3⟩
          intro hmem
          obtain ⟨r2, hr2, hr2n⟩ := List.mem_map.mp hmem
          exact (key r2 hr2).2 hr2n.symm

theorem build_deps_ok (id_map : IdMap) (child : Nat) (deps : List Str)
    (adj rev : List (List Nat))
    (hres : ∀ d ∈ deps, ∃ p, IdMap.find id_map d = some p) :
    ∃ adj1, build_deps id_map child deps adj rev =
      .ok (adj1, List.modify (fun l => l ++ deps.filterMap (IdMap.find id_map)) child rev) := by
  induction deps generalizing adj rev with
  | nil =>
    refine ⟨adj, ?_⟩
    simp only [build_deps, List.filterMap_nil, List.append_nil]
    congr 2
    induction rev generalizing child with
    | nil => simp
    | cons a rev ih =>
      cases child with
      | zero => simp
      | succ n => simp only [List.modify_succ_cons]; exact congrArg _ (ih n)
  | cons d deps ih =>
    obtain ⟨p, hp⟩ := hres d (List.mem_cons_self _ _)
    obtain ⟨adj1, h1⟩ := ih (List.modify (fun l => l ++ [child]) p adj)
      (List.modify (fun l => l ++ [p]) child rev)
      (fun d2 hd2 => hres d2 (List.mem_cons_of_mem _ hd2))
    refine ⟨adj1, ?_⟩
    simp only [build_deps, hp, h1, List.filterMap_cons, List.modify_modify_eq]
    congr 3
    funext l
    simp

theorem build_deps_err (id_map : IdMap) (child : Nat) (deps : List Str)
    (adj rev : List (List Nat))
    (hbad : ∃ d ∈ deps, IdMap.find id_map d = none) :
    build_deps id_map child deps adj rev = .error Fault.UnknownDependency := by
  induction deps generalizing adj rev with
  | nil => simp at hbad
  | cons d deps ih =>
    simp only [build_deps]
    cases hd : IdMap.find id_map d with
    | none => rfl
    | some p =>
      simp only
      apply ih
      obtain ⟨d2, hd2, hd3⟩ := hbad
      rcases List.mem_cons.mp hd2 with h | h
      · rw [h, hd] at hd3; simp at hd3
      · exact ⟨d2, h, hd3⟩

theorem build_deps_inv (id_map : IdMap) (child : Nat)
    (P : List (List Nat) → List (List Nat) → Prop)
    (hstep : ∀ adj rev parent, (∃ d, IdMap.find id_map d = some parent) → P adj rev →
      P (List.modify (fun l => l ++ [child]) parent adj)
        (List.modify (fun l => l ++ [parent]) child rev))
    (deps : List Str) (adj rev adj1 rev1 : List (List Nat)) (h0 : P adj rev)
    (h : build_deps id_map child deps adj rev = .ok (adj1, rev1)) : P adj1 rev1 := by
  induction deps generalizing adj rev with
  | nil =>
    simp only [build_deps, Except.ok.injEq, Prod.mk.injEq] at h
    rw [← h.1, ← h.2]; exact h0
  | cons d deps ih =>
    simp only [build_deps] at h
    cases hd : IdMap.find id_map d with
    | none => simp [hd] at h
    | some p =>
      simp only [hd] at h
      exact ih _ _ (hstep adj rev p ⟨d, hd⟩ h0) h

theorem build_edges_inv (id_map : IdMap)
    (P : List (List Nat) → List (List Nat) → Prop)
    (hstep : ∀ adj rev child parent, (∃ k, IdMap.find id_map k = some child) →
      (∃ d, IdMap.find id_map d = some parent) → P adj rev →
      P (List.modify (fun l => l ++ [child]) parent adj)
        (List.modify (fun l => l ++ [parent]) child rev))
    (rs : List parse.Rule) (nodes nodes1 : List (List Str)) (adj rev adj1 rev1 : List (List Nat))
    (h0 : P adj rev)
    (h : build_edges id_map rs nodes adj rev = .ok (nodes1, adj1, rev1)) : P adj1 rev1 := by
  induction rs generalizing nodes adj rev with
  | nil =>
    simp only [build_edges, Except.ok.injEq, Prod.mk.injEq] at h
    rw [← h.2.1, ← h.2.2]; exact h0
  | cons r rs ih =>
    simp only [build_edges] at h
    cases hc : IdMap.find id_map r.name with
    | none => simp [hc] at h
    | some child =>
      simp only [hc] at h
      cases hd : build_deps id_map child r.deps adj rev with
      | error e => simp [hd] at h
      | ok x =>
        obtain ⟨adj2, rev2⟩ := x
        simp only [hd] at h
        refine ih _ _ _ ?_ h
        exact build_deps_inv id_map child P
          (fun a b p hp hab => hstep a b child p ⟨r.name, hc⟩ hp hab) r.deps adj rev adj2 rev2 h0 hd

theorem build_edges_ok (id_map : IdMap) (rs : List parse.Rule) (nodes : List (List Str))
    (adj rev : List (List Nat))
    (hname : ∀ r ∈ rs, ∃ c, IdMap.find id_map r.name = some c)
    (hres : ∀ r ∈ rs, ∀ d ∈ r.deps, ∃ p, IdMap.find id_map d = some p) :
    ∃ x, build_edges id_map rs nodes adj rev = .ok x := by
  induction rs generalizing nodes adj rev with
  | nil => exact ⟨_, rfl⟩
  | cons r rs ih =>
    obtain ⟨c, hc⟩ := hname r (List.mem_cons_self _ _)
    obtain ⟨adj1, h1⟩ := build_deps_ok id_map c r.deps adj rev (hres r (List.mem_cons_self _ _))
    simp only [build_edges, hc, h1]
    exact ih _ _ _ (fun r2 h2 => hname r2 (List.mem_cons_of_mem _ h2))
      (fun r2 h2 => hres r2 (List.mem_cons_of_mem _ h2))

theorem build_edges_err (id_map : IdMap) (rs : List parse.Rule) (nodes : List (List Str))
    (adj rev : List (List Nat))
    (hname : ∀ r ∈ rs, ∃ c, IdMap.find id_map r.name = some c)
    (hbad : ∃ r ∈ rs, ∃ d ∈ r.deps, IdMap.find id_map d = none) :
    build_edges id_map rs nodes adj rev = .error Fault.UnknownDependency := by
  induction rs generalizing nodes adj rev with
  | nil => simp at hbad
  | cons r rs ih =>
    obtain ⟨c, hc⟩ := hname r (List.mem_cons_self _ _)
    simp only [build_edges, hc]
    by_cases hr : ∃ d ∈ r.deps, IdMap.find id_map d = none
    · rw [build_deps_err id_map c r.deps adj rev hr]
    · have hres : ∀ d ∈ r.deps, ∃ p, IdMap.find id_map d = some p := by
        intro d hd
        cases hf : IdMap.find id_map d with
        | none => exact absurd ⟨d, hd, hf⟩ hr
        | some p => exact ⟨p, rfl⟩
      obtain ⟨adj1, h1⟩ := build_deps_ok id_map c r.deps adj rev hres
      simp only [h1]
      apply ih _ _ _ (fun r2 h2 => hname r2 (List.mem_cons_of_mem _ h2))
      obtain ⟨r2, hr2, hd2⟩ := hbad
      rcases List.mem_cons.mp hr2 with h | h
      · rw [h] at hd2; exact absurd hd2 hr
      · exact ⟨r2, h, hd2⟩

theorem getD_modify (f : List Nat → List Nat) (n m : Nat) (l : List (List Nat))
    (hf : f [] = [] ∨ n < l.length) :
    (List.modify f n l).getD m [] = if n = m then f (l.getD m []) else l.getD m [] := by
  rw [List.getD_eq_getElem?_getD, List.getD_eq_getElem?_getD, List.getElem?_modify]
  by_cases hnm : n = m
  · subst hnm
    simp only [if_true]
    cases hl : l[n]? with
    | some a => simp
    | none =>
      simp only [Option.map_eq_map, Option.map_none', Option.getD_none]
      rcases hf with hf | hf
      · exact hf.symm
      · rw [List.getElem?_eq_none_iff] at hl; omega
  · simp only [hnm, if_false]
    cases l[m]? <;> simp

/-- What the second loop leaves in `nodes` and in `rev`: the commands of the rules in order,
and in front of each rule's id its resolved deps in order. -/
theorem build_edges_rev (id_map : IdMap) (rs : List parse.Rule) (i : Nat)
    (nodes nodes1 : List (List Str)) (adj rev adj1 rev1 : List (List Nat))
    (hname : ∀ j r, rs[j]? = some r → IdMap.find id_map r.name = some (i + j))
    (hlen : i + rs.length ≤ rev.length)
    (h : build_edges id_map rs nodes adj rev = .ok (nodes1, adj1, rev1)) :
    nodes1 = nodes ++ rs.map (fun r => r.commands) ∧ rev1.length = rev.length ∧
    ∀ c, rev1.getD c [] = rev.getD c [] ++
      (if i ≤ c then
        match rs[c - i]? with
        | some r => r.deps.filterMap (IdMap.find id_map)
        | none => []
      else []) := by
  induction rs generalizing i nodes adj rev with
  | nil =>
    simp only [build_edges, Except.ok.injEq, Prod.mk.injEq] at h
    obtain ⟨h1, -, h3⟩ := h
    subst h1 h3
    simp
  | cons r rs ih =>
    have hc := hname 0 r (by simp)
    simp only [build_edges, hc, Nat.add_zero] at h
    have hall : ∀ d ∈ r.deps, ∃ p, IdMap.find id_map d = some p := by
      intro d hd
      cases hf : IdMap.find id_map d with
      | some p => exact ⟨p, rfl⟩
      | none =>
        rw [build_deps_err id_map i r.deps adj rev ⟨d, hd, hf⟩] at h
        simp at h
    obtain ⟨adj2, h2⟩ := build_deps_ok id_map i r.deps adj rev hall
    rw [h2] at h
    simp only at h
    simp only [List.length_cons] at hlen
    obtain ⟨ih1, ih2, ih3⟩ := ih (i + 1) _ _ _
      (fun j r2 hj => by
        have := hname (j + 1) r2 (by simpa using hj)
        rw [this]; congr 1; omega)
      (by rw [List.length_modify]; omega) h
    refine ⟨by simp [ih1], by rw [ih2, List.length_modify], ?_⟩
    intro c
    rw [ih3 c, getD_modify _ _ _ _ (Or.inr (by omega))]
    by_cases hci : i = c
    · subst hci
      simp
    · simp only [hci, if_false]
      by_cases hlt : i ≤ c
      · have h1 : i + 1 ≤ c := by omega
        have h2 : c - i = (c - (i + 1)) + 1 := by omega
        simp only [hlt, h1, if_true, h2, List.getElem?_cons_succ]
      · have h1 : ¬ (i + 1 ≤ c) := by omega
        simp [hlt, h1]

theorem build_phony_ok (id_map : IdMap) (ps : List Str) (s : List Nat)
    (hres : ∀ p ∈ ps, ∃ id, IdMap.find id_map p = some id) :
    ∃ s1, build_phony id_map ps s = .ok s1 := by
  induction ps generalizing s with
  | nil => exact ⟨s, rfl⟩
  | cons p ps ih =>
    obtain ⟨id, hid⟩ := hres p (List.mem_cons_self _ _)
    simp only [build_phony, hid]
    exact ih _ (fun p2 h2 => hres p2 (List.mem_cons_of_mem _ h2))

theorem build_phony_err (id_map : IdMap) (ps : List Str) (s : List Nat)
    (hbad : ∃ p ∈ ps, IdMap.find id_map p = none) :
    build_phony id_map ps s = .error Fault.UnknownPhony := by
  induction ps generalizing s with
  | nil => simp at hbad
  | cons p ps ih =>
    simp only [build_phony]
    cases hp : IdMap.find id_map p with
    | none => rfl
    | some id =>
      simp only
      apply ih
      obtain ⟨p2, h2, h3⟩ := hbad
      rcases List.mem_cons.mp h2 with h | h
      · rw [h, hp] at h3; simp at h3
      · exact ⟨p2, h, h3⟩

theorem build_phony_inv (id_map : IdMap) (P : List Nat → Prop)
    (hstep : ∀ s id, (∃ k, IdMap.find id_map k = some id) → P s → P (set_insert s id))
    (ps : List Str) (s s1 : List Nat) (h0 : P s)
    (h : build_phony id_map ps s = .ok s1) : P s1 := by
  induction ps generalizing s with
  | nil =>
    simp only [build_phony, Except.ok.injEq] at h
    rw [← h]; exact h0
  | cons p ps ih =>
    simp only [build_phony] at h
    cases hp : IdMap.find id_map p with
    | none => simp [hp] at h
    | some id =>
      simp only [hp] at h
      exact ih _ (hstep s id ⟨p, hp⟩ h0) h

theorem find_ids_from_lt (rs : List parse.Rule) (k : Str) (v : Nat)
    (h : IdMap.find (ids_from rs 0) k = some v) : v < rs.length := by
  obtain ⟨j, r, h1, h2, -⟩ := find_ids_from_some rs 0 k v h
  have := (List.getElem?_eq_some_iff.mp h2).1
  omega

theorem find_ids_from_mem (rs : List parse.Rule) (k : Str) (hk : k ∈ rs.map (fun r => r.name)) :
    ∃ v, IdMap.find (ids_from rs 0) k = some v := by
  cases h : IdMap.find (ids_from rs 0) k with
  | some v => exact ⟨v, rfl⟩
  | none =>
    rw [find_eq_none_iff, map_fst_ids_from] at h
    exact absurd hk h

theorem find_ids_from_name (rs : List parse.Rule) (k : Str) (v : Nat)
    (h : IdMap.find (ids_from rs 0) k = some v) : k ∈ rs.map (fun r => r.name) := by
  obtain ⟨j, r, -, h2, h3⟩ := find_ids_from_some rs 0 k v h
  exact List.mem_map.mpr ⟨r, List.getElem?_mem h2, h3⟩

/-- The three loops of a successful `Graph::build`, with the results of the first made
explicit. -/
theorem build_ok_unfold (parsed : parse.Result) (g : Graph) (h : Graph.build parsed = .ok g) :
    parsed.rules.length < 2 ^ 32 ∧ (parsed.rules.map (fun r => r.name)).Nodup ∧
    ∃ nodes adj rev ph,
      build_edges (ids_from parsed.rules 0) parsed.rules []
        (List.replicate parsed.rules.length []) (List.replicate parsed.rules.length []) =
        .ok (nodes, adj, rev) ∧
      build_phony (ids_from parsed.rules 0) parsed.phony [] = .ok ph ∧
      g = ⟨nodes, adj, rev, ids_from parsed.rules 0, ph, parsed.rules.map (fun r => r.name)⟩ := by
  unfold Graph.build at h
  split at h
  · simp at h
  · rename_i hlen
    cases h1 : build_ids parsed.rules 0 [] [] with
    | error e => rw [h1] at h; simp at h
    | ok x =>
      obtain ⟨hfresh, hnd⟩ := build_ids_ok_inv _ _ _ _ _ h1
      rw [build_ids_ok _ 0 [] [] hfresh hnd] at h
      simp only [List.nil_append] at h
      refine ⟨by omega, hnd, ?_⟩
      cases h2 : build_edges (ids_from parsed.rules 0) parsed.rules []
        (List.replicate parsed.rules.length []) (List.replicate parsed.rules.length []) with
      | error e => rw [h2] at h; simp at h
      | ok y =>
        obtain ⟨nodes, adj, rev⟩ := y
        rw [h2] at h
        simp only at h
        cases h3 : build_phony (ids_from parsed.rules 0) parsed.phony [] with
        | error e => rw [h3] at h; simp at h
        | ok ph =>
          rw [h3] at h
          simp only [Except.ok.injEq] at h
          exact ⟨nodes, adj, rev, ph, rfl, rfl, h.symm⟩

theorem build_names_resolve (rs : List parse.Rule)
    (hnd : (rs.map (fun r => r.name)).Nodup) :
    ∀ j r, rs[j]? = some r → IdMap.find (ids_from rs 0) r.name = some (0 + j) :=
  fun j r hj => find_ids_from_index rs 0 j r hnd hj

theorem build_deps_resolve (parsed : parse.Result) (g : Graph) (h : Graph.build parsed = .ok g) :
    ∀ r ∈ parsed.rules, ∀ d ∈ r.deps, ∃ p, IdMap.find g.m_id_map d = some p := by
  obtain ⟨-, hnd, nodes, adj, rev, ph, h1, -, hg⟩ := build_ok_unfold parsed g h
  subst hg
  intro r hr d hd
  cases hf : IdMap.find (ids_from parsed.rules 0) d with
  | some p => exact ⟨p, rfl⟩
  | none =>
    rw [build_edges_err _ _ _ _ _ ?_ ⟨r, hr, d, hd, hf⟩] at h1
    · simp at h1
    · intro r2 hr2
      exact find_ids_from_mem _ _ (List.mem_map.mpr ⟨r2, hr2, rfl⟩)

/-- Sizes of the vectors of a built graph and the range of its adjacency entries. -/
theorem build_shape (parsed : parse.Result) (g : Graph) (h : Graph.build parsed = .ok g) :
    g.size = parsed.rules.length ∧ g.m_adjgraph.length = g.size ∧
    g.m_reverse_adj.length = g.size ∧ g.m_names.length = g.size ∧
    g.m_id_map.length = g.size ∧ g.size < 2 ^ 32 ∧
    (∀ u, ∀ x ∈ g.get_child_ids u, x < g.size) ∧
    (∀ u, ∀ x ∈ g.get_parent_ids u, x < g.size) := by
  obtain ⟨hlen, hnd, nodes, adj, rev, ph, h1, -, hg⟩ := build_ok_unfold parsed g h
  subst hg
  obtain ⟨hn, -, -⟩ := build_edges_rev _ _ 0 _ _ _ _ _ _ (build_names_resolve _ hnd)
    (by simp) h1
  have hP := build_edges_inv (ids_from parsed.rules 0)
    (fun a b => a.length = parsed.rules.length ∧ b.length = parsed.rules.length ∧
      (∀ u, ∀ x ∈ a.getD u [], x < parsed.rules.length) ∧
      (∀ u, ∀ x ∈ b.getD u [], x < parsed.rules.length))
    (by
      rintro a b c p ⟨k, hk⟩ ⟨d, hd⟩ ⟨ha, hb, hA, hB⟩
      have hc := find_ids_from_lt _ _ _ hk
      have hp := find_ids_from_lt _ _ _ hd
      refine ⟨by rw [List.length_modify, ha], by rw [List.length_modify, hb], ?_, ?_⟩
      · intro u x hx
        rw [getD_modify _ _ _ _ (Or.inr (by omega))] at hx
        split at hx
        · rcases List.mem_append.mp hx with h2 | h2
          · exact hA u x h2
          · simp at h2; omega
        · exact hA u x hx
      · intro u x hx
        rw [getD_modify _ _ _ _ (Or.inr (by omega))] at hx
        split at hx
        · rcases List.mem_append.mp hx with h2 | h2
          · exact hB u x h2
          · simp at h2; omega
        · exact hB u x hx)
    parsed.rules [] nodes _ _ adj rev
    (by
      refine ⟨by simp, by simp, ?_, ?_⟩ <;>
      · intro u x hx
        rw [List.getD_eq_getElem?_getD, List.getElem?_replicate] at hx
        split at hx <;> simp at hx)
    h1
  obtain ⟨ha, hb, hA, hB⟩ := hP
  have hsz : Graph.size ⟨nodes, adj, rev, ids_from parsed.rules 0, ph,
      parsed.rules.map (fun r => r.name)⟩ = parsed.rules.length := by
    simp [Graph.size, hn]
  refine ⟨hsz, ?_, ?_, ?_, ?_, ?_, ?_, ?_⟩
  · rw [hsz]; exact ha
  · rw [hsz]; exact hb
  · rw [hsz]; simp
  · rw [hsz]; simp [length_ids_from]
  · rw [hsz]; exact hlen
  · rw [hsz]; exact hA
  · rw [hsz]; exact hB

/-- The number of times `v` is listed as a child of `u` is the number of times `u` is
listed as a parent of `v`. -/
theorem build_count_symm (parsed : parse.Result) (g : Graph) (h : Graph.build parsed = .ok g)
    (u v : Nat) : (g.get_child_ids u).count v = (g.get_parent_ids v).count u := by
  obtain ⟨-, hnd, nodes, adj, rev, ph, h1, -, hg⟩ := build_ok_unfold parsed g h
  subst hg
  have hP := build_edges_inv (ids_from parsed.rules 0)
    (fun a b => a.length = parsed.rules.length ∧ b.length = parsed.rules.length ∧
      ∀ u v, (a.getD u []).count v = (b.getD v []).count u)
    (by
      rintro a b c p ⟨k, hk⟩ ⟨d, hd⟩ ⟨ha, hb, hS⟩
      have hc := find_ids_from_lt _ _ _ hk
      have hp := find_ids_from_lt _ _ _ hd
      refine ⟨by rw [List.length_modify, ha], by rw [List.length_modify, hb], ?_⟩
      intro u v
      rw [getD_modify _ _ _ _ (Or.inr (by omega)), getD_modify _ _ _ _ (Or.inr (by omega))]
      have := hS u v
      by_cases hpu : p = u <;> by_cases hcv : c = v <;>
        simp only [hpu, hcv, if_true, if_false, List.count_append, List.count_singleton,
          beq_self_eq_true, beq_iff_eq, this] <;>
        omega)
    parsed.rules [] nodes _ _ adj rev
    (by
      refine ⟨by simp, by simp, ?_⟩
      intro u v
      rw [List.getD_eq_getElem?_getD, List.getElem?_replicate,
        List.getD_eq_getElem?_getD, List.getElem?_replicate]
      split <;> split <;> simp)
    h1
  exact hP.2.2 u v

theorem build_of_nodup (parsed : parse.Result) (hlen : parsed.rules.length < 2 ^ 32)
    (hnd : (parsed.rules.map (fun r => r.name)).Nodup) :
    Graph.build parsed =
      match build_edges (ids_from parsed.rules 0) parsed.rules []
          (List.replicate parsed.rules.length []) (List.replicate parsed.rules.length []) with
      | .error e => .error e
      | .ok (nodes, adj, rev) =>
        match build_phony (ids_from parsed.rules 0) parsed.phony [] with
        | .error e => .error e
        | .ok phoneyset =>
          .ok ⟨nodes, adj, rev, ids_from parsed.rules 0, phoneyset,
            parsed.rules.map (fun r => r.name)⟩ := by
  unfold Graph.build
  rw [if_neg (by omega), build_ids_ok _ 0 [] [] (fun _ _ => rfl) hnd]
  rfl

theorem build_dup (parsed : parse.Result)
    (hnd : ¬ (parsed.rules.map (fun r => r.name)).Nodup) :
    Graph.build parsed = .error Fault.DuplicateRule := by
  unfold Graph.build
  split
  · rfl
  · cases h1 : build_ids parsed.rules 0 [] [] with
    | error e => rw [build_ids_error _ _ _ _ e h1]
    | ok x => exact absurd (build_ids_ok_inv _ _ _ _ _ h1).2 hnd

theorem find_none_of_not_mem (rs : List parse.Rule) (k : Str)
    (hk : k ∉ rs.map (fun r => r.name)) : IdMap.find (ids_from rs 0) k = none := by
  rw [find_eq_none_iff, map_fst_ids_from]; exact hk

theorem filterMap_find_eq_map (g : Graph) (deps : List Str)
    (hres : ∀ d ∈ deps, ∃ p, IdMap.find g.m_id_map d = some p) :
    deps.filterMap (IdMap.find g.m_id_map) = deps.map g.get_id := by
  induction deps with
  | nil => rfl
  | cons d deps ih =>
    obtain ⟨p, hp⟩ := hres d (List.mem_cons_self _ _)
    simp only [List.filterMap_cons, hp, List.map_cons, Graph.get_id]
    rw [ih (fun d2 h2 => hres d2 (List.mem_cons_of_mem _ h2))]

/-- C2. Adjacency symmetry: in a graph returned by `Graph::build`, `v` is among the children
of `u` exactly when `u` is among the parents of `v`, and it is listed the same number of
times on both sides. -/
theorem build_adjacency_symmetry (parsed : parse.Result) (g : Graph)
    (h : Graph.build parsed = .ok g) (u v : Nat) :
    (v ∈ g.get_child_ids u ↔ u ∈ g.get_parent_ids v) ∧
    (g.get_child_ids u).count v = (g.get_parent_ids v).count u := by
  have hc := build_count_symm parsed g h u v
  refine ⟨?_, hc⟩
  rw [← List.count_pos_iff, ← List.count_pos_iff, hc]

/-- C3. Positional ids and order preservation: in a graph returned by `Graph::build` the
`i`-th rule `r` has id `i` (`get_id r.name = i`, `get_name_ref i = r.name`), its commands are
`r.commands` in order, and its parents are the ids of `r.deps` in the order listed. -/
theorem build_positional_ids (parsed : parse.Result) (g : Graph)
    (h : Graph.build parsed = .ok g) (i : Nat) (r : parse.Rule)
    (hi : parsed.rules[i]? = some r) :
    g.get_id r.name = i ∧ g.get_name_ref i = r.name ∧ g.get_command_ref i = r.commands ∧
    g.get_parent_ids i = r.deps.map g.get_id := by
  have hres := build_deps_resolve parsed g h r (List.getElem?_mem hi)
  obtain ⟨-, hnd, nodes, adj, rev, ph, h1, -, hg⟩ := build_ok_unfold parsed g h
  obtain ⟨hn, -, hrev⟩ := build_edges_rev _ _ 0 _ _ _ _ _ _ (build_names_resolve _ hnd)
    (by simp) h1
  have hfm := filterMap_find_eq_map g r.deps hres
  subst hg
  refine ⟨?_, ?_, ?_, ?_⟩
  · simp only [Graph.get_id, find_ids_from_index _ 0 i r hnd hi, Nat.zero_add]
  · simp [Graph.get_name_ref, List.getD_eq_getElem?_getD, List.getElem?_map, hi]
  · simp [Graph.get_command_ref, hn, List.getD_eq_getElem?_getD, List.getElem?_map, hi]
  · simp only [Graph.get_parent_ids] at hfm ⊢
    rw [hrev i, ← hfm]
    have : (List.replicate parsed.rules.length ([] : List Nat)).getD i [] = [] := by
      rw [List.getD_eq_getElem?_getD, List.getElem?_replicate]
      split <;> rfl
    simp [this, hi]

/-- C4. `Graph::build` fails exactly on invalid input. For a rule list within the range of
`NodeId` (fewer than `2^32` rules): a repeated rule name gives `DuplicateRule`; otherwise a
dep that is not a rule name gives `UnknownDependency`; otherwise a phony name that is not a
rule name gives `UnknownPhony`; and a graph is returned exactly when none of the three
holds. -/
theorem build_fails_exactly_on_invalid_input (parsed : parse.Result)
    (hlen : parsed.rules.length < 2 ^ 32) :
    (¬ (parsed.rules.map (fun r => r.name)).Nodup →
      Graph.build parsed = .error Fault.DuplicateRule) ∧
    ((parsed.rules.map (fun r => r.name)).Nodup →
      (∃ r ∈ parsed.rules, ∃ d ∈ r.deps, d ∉ parsed.rules.map (fun r => r.name)) →
      Graph.build parsed = .error Fault.UnknownDependency) ∧
    ((parsed.rules.map (fun r => r.name)).Nodup →
      (∀ r ∈ parsed.rules, ∀ d ∈ r.deps, d ∈ parsed.rules.map (fun r => r.name)) →
      (∃ p ∈ parsed.phony, p ∉ parsed.rules.map (fun r => r.name)) →
      Graph.build parsed = .error Fault.UnknownPhony) ∧
    ((∃ g, Graph.build parsed = .ok g) ↔
      ((parsed.rules.map (fun r => r.name)).Nodup ∧
       (∀ r ∈ parsed.rules, ∀ d ∈ r.deps, d ∈ parsed.rules.map (fun r => r.name)) ∧
       (∀ p ∈ parsed.phony, p ∈ parsed.rules.map (fun r => r.name)))) := by
  have hname : ∀ r ∈ parsed.rules, ∃ c, IdMap.find (ids_from parsed.rules 0) r.name = some c :=
    fun r hr => find_ids_from_mem _ _ (List.mem_map.mpr ⟨r, hr, rfl⟩)
  have hdep : (parsed.rules.map (fun r => r.name)).Nodup →
      (∃ r ∈ parsed.rules, ∃ d ∈ r.deps, d ∉ parsed.rules.map (fun r => r.name)) →
      Graph.build parsed = .error Fault.UnknownDependency := by
    rintro hnd ⟨r, hr, d, hd, hdn⟩
    rw [build_of_nodup parsed hlen hnd,
      build_edges_err _ _ _ _ _ hname ⟨r, hr, d, hd, find_none_of_not_mem _ _ hdn⟩]
  have hph : (parsed.rules.map (fun r => r.name)).Nodup →
      (∀ r ∈ parsed.rules, ∀ d ∈ r.deps, d ∈ parsed.rules.map (fun r => r.name)) →
      (∃ p ∈ parsed.phony, p ∉ parsed.rules.map (fun r => r.name)) →
      Graph.build parsed = .error Fault.UnknownPhony := by
    rintro hnd hall ⟨p, hp, hpn⟩
    obtain ⟨x, hx⟩ := build_edges_ok (ids_from parsed.rules 0) parsed.rules []
      (List.replicate parsed.rules.length []) (List.replicate parsed.rules.length []) hname
      (fun r hr d hd => find_ids_from_mem _ _ (hall r hr d hd))
    rw [build_of_nodup parsed hlen hnd, hx,
      build_phony_err _ _ _ ⟨p, hp, find_none_of_not_mem _ _ hpn⟩]
  refine ⟨build_dup parsed, hdep, hph, ?_⟩
  constructor
  · rintro ⟨g, hg⟩
    by_cases hnd : (parsed.rules.map (fun r => r.name)).Nodup
    · by_cases hall : ∀ r ∈ parsed.rules, ∀ d ∈ r.deps, d ∈ parsed.rules.map (fun r => r.name)
      · refine ⟨hnd, hall, ?_⟩
        intro p hp
        by_contra hpn
        rw [hph hnd hall ⟨p, hp, hpn⟩] at hg
        simp at hg
      · exfalso
        push_neg at hall
        rw [hdep hnd hall] at hg
        simp at hg
    · rw [build_dup parsed hnd] at hg
      simp at hg
  · rintro ⟨hnd, hall, hphony⟩
    obtain ⟨x, hx⟩ := build_edges_ok (ids_from parsed.rules 0) parsed.rules []
      (List.replicate parsed.rules.length []) (List.replicate parsed.rules.length []) hname
      (fun r hr d hd => find_ids_from_mem _ _ (hall r hr d hd))
    obtain ⟨s1, hs1⟩ := build_phony_ok (ids_from parsed.rules 0) parsed.phony []
      (fun p hp => find_ids_from_mem _ _ (hphony p hp))
    rw [build_of_nodup parsed hlen hnd, hx, hs1]
    exact ⟨_, rfl⟩

end exec

/-! ## The cache codec -/

namespace serde

theorem deserialize_value_serialize (n : Nat) (hn : n < 2 ^ 32) (rest : List Byte) :
    deserialize_value (serialize_value n ++ rest) = .ok (n, rest) := by
  simp only [serialize_value, deserialize_value, byte, List.cons_append, List.nil_append,
    Except.ok.injEq, Prod.mk.injEq, and_true]
  omega

theorem length_serialize_value (n : Nat) : (serialize_value n).length = 4 := rfl

theorem serialize_string_ok (s : Str) (dest : List Byte) (hs : s.length < 2 ^ 32) :
    serialize_string s dest = .ok (dest ++ enc_string s) := by
  unfold serialize_string enc_string
  rw [if_neg (by omega), List.append_assoc]

theorem deserialize_string_enc (s : Str) (rest : List Byte) (hs : s.length < 2 ^ 32) :
    deserialize_string (enc_string s ++ rest) = .ok (s, rest) := by
  unfold deserialize_string enc_string
  rw [List.append_assoc, deserialize_value_serialize _ hs]
  simp

theorem serialize_elems_ok {α : Type} (f : α → List Byte → Except Fault (List Byte))
    (enc : α → List Byte) (good : α → Prop)
    (hf : ∀ x dest, good x → f x dest = .ok (dest ++ enc x))
    (v : List α) (hv : ∀ x ∈ v, good x) (dest : List Byte) :
    serialize_elems f v dest = .ok (dest ++ (v.map enc).flatten) := by
  induction v generalizing dest with
  | nil => simp [serialize_elems]
  | cons x xs ih =>
    simp only [serialize_elems, hf x dest (hv x (List.mem_cons_self _ _))]
    rw [ih (fun y hy => hv y (List.mem_cons_of_mem _ hy))]
    simp

theorem serialize_vec_ok {α : Type} (f : α → List Byte → Except Fault (List Byte))
    (enc : α → List Byte) (good : α → Prop)
    (hf : ∀ x dest, good x → f x dest = .ok (dest ++ enc x))
    (v : List α) (hlen : v.length < 2 ^ 32) (hv : ∀ x ∈ v, good x) (dest : List Byte) :
    serialize_vec f v dest = .ok (dest ++ enc_vec enc v) := by
  unfold serialize_vec enc_vec
  rw [if_neg (by omega), serialize_elems_ok f enc good hf v hv, List.append_assoc]

theorem deserialize_elems_enc {α : Type} (d : List Byte → Except Fault (α × List Byte))
    (enc : α → List Byte) (good : α → Prop)
    (hd : ∀ x rest, good x → d (enc x ++ rest) = .ok (x, rest))
    (v : List α) (hv : ∀ x ∈ v, good x) (acc : List α) (rest : List Byte) :
    deserialize_elems d v.length acc ((v.map enc).flatten ++ rest) = .ok (acc ++ v, rest) := by
  induction v generalizing acc with
  | nil => simp [deserialize_elems]
  | cons x xs ih =>
    simp only [List.length_cons, deserialize_elems, List.map_cons, List.flatten_cons,
      List.append_assoc, hd x _ (hv x (List.mem_cons_self _ _))]
    rw [ih (fun y hy => hv y (List.mem_cons_of_mem _ hy))]
    simp

theorem deserialize_vec_enc {α : Type} (d : List Byte → Except Fault (α × List Byte))
    (enc : α → List Byte) (good : α → Prop)
    (hd : ∀ x rest, good x → d (enc x ++ rest) = .ok (x, rest))
    (v : List α) (hlen : v.length < 2 ^ 32) (hv : ∀ x ∈ v, good x) (rest : List Byte) :
    deserialize_vec d (enc_vec enc v ++ rest) = .ok (v, rest) := by
  unfold deserialize_vec enc_vec
  rw [List.append_assoc, deserialize_value_serialize _ hlen]
  simp only
  rw [deserialize_elems_enc d enc good hd v hv]
  simp

theorem serialize_u32_ok (x : Nat) (dest : List Byte) :
    serialize_u32 x dest = .ok (dest ++ serialize_value x) := rfl

theorem serialize_entry_ok (kv : Str × Nat) (dest : List Byte) (hk : kv.1.length < 2 ^ 32) :
    serialize_entry kv dest = .ok (dest ++ enc_entry kv) := by
  unfold serialize_entry enc_entry
  rw [serialize_string_ok _ _ hk]
  simp

theorem serialize_map_ok (m : List (Str × Nat)) (dest : List Byte) (hlen : m.length < 2 ^ 32)
    (hk : ∀ kv ∈ m, kv.1.length < 2 ^ 32) :
    serialize_map m dest = .ok (dest ++ enc_vec enc_entry m) := by
  unfold serialize_map enc_vec
  rw [if_neg (by omega), serialize_elems_ok serialize_entry enc_entry
    (fun kv => kv.1.length < 2 ^ 32) (fun kv d h => serialize_entry_ok kv d h) m hk,
    List.append_assoc]

theorem deserialize_entries_enc (es : exec.IdMap) (m : exec.IdMap) (rest : List Byte)
    (hgood : ∀ kv ∈ es, kv.1.length < 2 ^ 32 ∧ kv.2 < 2 ^ 32)
    (hnd : ((m ++ es).map Prod.fst).Nodup) :
    deserialize_entries es.length m ((es.map enc_entry).flatten ++ rest) =
      .ok (m ++ es, rest) := by
  induction es generalizing m with
  | nil => simp [deserialize_entries]
  | cons kv es ih =>
    obtain ⟨k, v⟩ := kv
    obtain ⟨hk, hv⟩ := hgood (k, v) (List.mem_cons_self _ _)
    have hfresh : exec.IdMap.find m k = none := by
      rw [exec.find_eq_none_iff]
      intro hmem
      rw [List.map_append, List.nodup_append] at hnd
      exact hnd.2.2 hmem (by simp)
    simp only [List.length_cons, deserialize_entries, List.map_cons, List.flatten_cons,
      enc_entry, List.append_assoc]
    rw [deserialize_string_enc k _ hk]
    simp only
    rw [deserialize_value_serialize v hv]
    simp only [exec.IdMap.emplace, hfresh]
    rw [ih (m ++ [(k, v)]) (fun kv2 h2 => hgood kv2 (List.mem_cons_of_mem _ h2))
      (by simpa using hnd)]
    simp

theorem deserialize_map_enc (es : exec.IdMap) (rest : List Byte) (hlen : es.length < 2 ^ 32)
    (hgood : ∀ kv ∈ es, kv.1.length < 2 ^ 32 ∧ kv.2 < 2 ^ 32)
    (hnd : (es.map Prod.fst).Nodup) :
    deserialize_map (enc_vec enc_entry es ++ rest) = .ok (es, rest) := by
  unfold deserialize_map enc_vec
  rw [List.append_assoc, deserialize_value_serialize _ hlen]
  simp only
  rw [deserialize_entries_enc es [] rest hgood (by simpa using hnd)]
  simp

end serde

namespace exec

theorem foldl_set_insert (l acc : List Nat) (hnd : (acc ++ l).Nodup) :
    l.foldl set_insert acc = acc ++ l := by
  induction l generalizing acc with
  | nil => simp
  | cons x xs ih =>
    have hx : x ∉ acc := by
      intro hmem
      rw [List.nodup_append] at hnd
      exact hnd.2.2 hmem (List.mem_cons_self _ _)
    simp only [List.foldl_cons, set_insert, hx, if_false]
    rw [ih (acc ++ [x]) (by simpa using hnd)]
    simp

theorem set_of_vec_nodup (l : List Nat) (hnd : l.Nodup) : set_of_vec l = l := by
  unfold set_of_vec
  rw [foldl_set_insert l [] (by simpa using hnd)]
  simp

theorem find_eq_some_iff (m : IdMap) (hnd : (m.map Prod.fst).Nodup) (k : Str) (v : Nat) :
    IdMap.find m k = some v ↔ (k, v) ∈ m := by
  constructor
  · exact find_some_mem m k v
  · intro hmem
    induction m with
    | nil => simp at hmem
    | cons a m ih =>
      obtain ⟨k1, v1⟩ := a
      simp only [List.map_cons, List.nodup_cons] at hnd
      simp only [IdMap.find]
      rcases List.mem_cons.mp hmem with h | h
      · simp only [Prod.mk.injEq] at h
        simp [h.1, h.2]
      · have hne : k1 ≠ k := by
          intro h2
          exact hnd.1 (h2 ▸ List.mem_map.mpr ⟨(k, v), h, rfl⟩)
        simp only [hne, if_false]
        exact ih hnd.2 h

theorem find_perm (m m2 : IdMap) (hp : m2.Perm m) (hnd : (m.map Prod.fst).Nodup) (k : Str) :
    IdMap.find m2 k = IdMap.find m k := by
  have hnd2 : (m2.map Prod.fst).Nodup := ((hp.map Prod.fst).nodup_iff).mpr hnd
  cases h : IdMap.find m k with
  | some v =>
    rw [find_eq_some_iff m hnd] at h
    rw [find_eq_some_iff m2 hnd2]
    exact hp.mem_iff.mpr h
  | none =>
    rw [find_eq_none_iff] at h ⊢
    intro hmem
    exact h ((hp.map Prod.fst).mem_iff.mp hmem)

theorem set_insert_nodup (s : List Nat) (x : Nat) (hnd : s.Nodup) : (set_insert s x).Nodup := by
  unfold set_insert
  split
  · exact hnd
  · rename_i hx
    rw [List.nodup_append]
    exact ⟨hnd, by simp, by simpa using hx⟩

/-- The phony set of a built graph has no repetition and holds ids of rules only. -/
theorem build_phony_set (parsed : parse.Result) (g : Graph) (h : Graph.build parsed = .ok g) :
    g.m_phony.Nodup ∧ ∀ x ∈ g.m_phony, x < g.size := by
  have hsz := (build_shape parsed g h).1
  obtain ⟨-, -, nodes, adj, rev, ph, -, h2, hg⟩ := build_ok_unfold parsed g h
  rw [hsz]
  subst hg
  exact build_phony_inv (ids_from parsed.rules 0)
    (fun s => s.Nodup ∧ ∀ x ∈ s, x < parsed.rules.length)
    (by
      rintro s id ⟨k, hk⟩ ⟨hs1, hs2⟩
      refine ⟨set_insert_nodup s id hs1, ?_⟩
      intro x hx
      unfold set_insert at hx
      split at hx
      · exact hs2 x hx
      · rcases List.mem_append.mp hx with h3 | h3
        · exact hs2 x h3
        · simp at h3; rw [h3]; exact find_ids_from_lt _ _ _ hk)
    parsed.phony [] ph ⟨List.nodup_nil, by simp⟩ h2

/-- The id map of a built graph: distinct keys, which are the names, and ids below the
size. -/
theorem build_id_map (parsed : parse.Result) (g : Graph) (h : Graph.build parsed = .ok g) :
    (g.m_id_map.map Prod.fst).Nodup ∧ g.m_id_map.map Prod.fst = g.m_names ∧
    ∀ kv ∈ g.m_id_map, kv.2 < g.size := by
  have hsz := (build_shape parsed g h).1
  obtain ⟨-, hnd, nodes, adj, rev, ph, -, -, hg⟩ := build_ok_unfold parsed g h
  rw [hsz]
  subst hg
  simp only [map_fst_ids_from]
  refine ⟨hnd, trivial, ?_⟩
  rintro ⟨k, v⟩ hkv
  have := (find_eq_some_iff (ids_from parsed.rules 0)
    (by rw [map_fst_ids_from]; exact hnd) k v).mpr hkv
  exact find_ids_from_lt _ _ _ this

theorem serialize_strings_ok (cmds : List Str) (dest : List Byte)
    (h : cmds.length < 2 ^ 32 ∧ ∀ c ∈ cmds, c.length < 2 ^ 32) :
    serde.serialize_vec serde.serialize_string cmds dest =
      .ok (dest ++ serde.enc_vec serde.enc_string cmds) :=
  serde.serialize_vec_ok serde.serialize_string serde.enc_string (fun c => c.length < 2 ^ 32)
    (fun c d hc => serde.serialize_string_ok c d hc) cmds h.1 h.2 dest

theorem deserialize_strings_enc (cmds : List Str) (rest : List Byte)
    (h : cmds.length < 2 ^ 32 ∧ ∀ c ∈ cmds, c.length < 2 ^ 32) :
    serde.deserialize_vec serde.deserialize_string (serde.enc_vec serde.enc_string cmds ++ rest) =
      .ok (cmds, rest) :=
  serde.deserialize_vec_enc serde.deserialize_string serde.enc_string
    (fun c => c.length < 2 ^ 32) (fun c r hc => serde.deserialize_string_enc c r hc)
    cmds h.1 h.2 rest

theorem serialize_ids_ok (l : List Nat) (dest : List Byte) (h : l.length < 2 ^ 32) :
    serde.serialize_vec serde.serialize_u32 l dest =
      .ok (dest ++ serde.enc_vec serde.serialize_value l) :=
  serde.serialize_vec_ok serde.serialize_u32 serde.serialize_value (fun _ => True)
    (fun x d _ => serde.serialize_u32_ok x d) l h (fun _ _ => trivial) dest

theorem deserialize_ids_enc (l : List Nat) (rest : List Byte)
    (h : l.length < 2 ^ 32 ∧ ∀ x ∈ l, x < 2 ^ 32) :
    serde.deserialize_vec serde.deserialize_value (serde.enc_vec serde.serialize_value l ++ rest) =
      .ok (l, rest) :=
  serde.deserialize_vec_enc serde.deserialize_value serde.serialize_value
    (fun x => x < 2 ^ 32) (fun x r hx => serde.deserialize_value_serialize x hx r)
    l h.1 h.2 rest

theorem serialize_eq_wire (g : Graph) (mo : IdMap) (so : List Nat) (he : Encodable g mo so) :
    g.serialize mo so = .ok (wire g mo so) := by
  obtain ⟨hn, hcmds, hadj, hrev, hnames⟩ := he.fits
  unfold Graph.serialize
  simp only
  rw [serde.serialize_vec_ok (serde.serialize_vec serde.serialize_string)
    (serde.enc_vec serde.enc_string) (fun c => c.length < 2 ^ 32 ∧ ∀ x ∈ c, x.length < 2 ^ 32)
    (fun c d hc => serialize_strings_ok c d hc) g.m_node_store hn hcmds]
  simp only
  rw [serde.serialize_vec_ok (serde.serialize_vec serde.serialize_u32)
    (serde.enc_vec serde.serialize_value) (fun l => l.length < 2 ^ 32)
    (fun l d hl => serialize_ids_ok l d hl) g.m_adjgraph (by rw [he.adj_len]; exact hn) hadj]
  simp only
  rw [serde.serialize_vec_ok (serde.serialize_vec serde.serialize_u32)
    (serde.enc_vec serde.serialize_value) (fun l => l.length < 2 ^ 32)
    (fun l d hl => serialize_ids_ok l d hl) g.m_reverse_adj (by rw [he.rev_len]; exact hn) hrev]
  simp only
  rw [serde.serialize_map_ok mo _ (by rw [he.map_len]; exact hn) (fun kv h => (he.map_good kv h).1)]
  simp only
  rw [serialize_ids_ok so _ he.set_len]
  simp only
  rw [serialize_strings_ok g.m_names _ ⟨by rw [he.names_len]; exact hn, hnames⟩]
  simp [wire]

theorem deserialize_wire (g : Graph) (mo : IdMap) (so : List Nat) (he : Encodable g mo so) :
    Graph.deserialize (some (wire g mo so)) =
      .ok ⟨g.m_node_store, g.m_adjgraph, g.m_reverse_adj, mo, so, g.m_names⟩ := by
  obtain ⟨hn, hcmds, hadj, hrev, hnames⟩ := he.fits
  unfold Graph.deserialize wire
  simp only
  rw [if_neg (by simp [serde.length_serialize_value]),
    serde.deserialize_value_serialize _ (by decide)]
  simp only
  rw [if_neg (by simp)]
  rw [serde.deserialize_vec_enc (serde.deserialize_vec serde.deserialize_string)
    (serde.enc_vec serde.enc_string) (fun c => c.length < 2 ^ 32 ∧ ∀ x ∈ c, x.length < 2 ^ 32)
    (fun c r hc => deserialize_strings_enc c r hc) g.m_node_store hn hcmds]
  simp only
  rw [serde.deserialize_vec_enc (serde.deserialize_vec serde.deserialize_value)
    (serde.enc_vec serde.serialize_value) (fun l => l.length < 2 ^ 32 ∧ ∀ x ∈ l, x < 2 ^ 32)
    (fun l r hl => deserialize_ids_enc l r hl) g.m_adjgraph (by rw [he.adj_len]; exact hn)
    (fun l hl => ⟨hadj l hl, he.adj_lt l hl⟩)]
  simp only
  rw [serde.deserialize_vec_enc (serde.deserialize_vec serde.deserialize_value)
    (serde.enc_vec serde.serialize_value) (fun l => l.length < 2 ^ 32 ∧ ∀ x ∈ l, x < 2 ^ 32)
    (fun l r hl => deserialize_ids_enc l r hl) g.m_reverse_adj (by rw [he.rev_len]; exact hn)
    (fun l hl => ⟨hrev l hl, he.rev_lt l hl⟩)]
  simp only
  rw [serde.deserialize_map_enc mo _ (by rw [he.map_len]; exact hn) he.map_good he.map_keys]
  simp only
  rw [deserialize_ids_enc so _ ⟨he.set_len, he.set_lt⟩]
  simp only
  rw [deserialize_strings_enc g.m_names _ ⟨by rw [he.names_len]; exact hn, hnames⟩]
  simp only [he.adj_len, he.rev_len, he.names_len, he.map_len, ne_eq, not_true_eq_false,
    or_self, if_false, set_of_vec_nodup so he.set_nodup]

theorem build_encodable (parsed : parse.Result) (g : Graph) (h : Graph.build parsed = .ok g)
    (hfit : g.fits_u32) (mo : IdMap) (so : List Nat)
    (hmo : mo.Perm g.m_id_map) (hso : so.Perm g.m_phony) : Encodable g mo so := by
  obtain ⟨-, hadj, hrev, hnames, hmap, hlt, hA, hB⟩ := build_shape parsed g h
  obtain ⟨hpn, hpl⟩ := build_phony_set parsed g h
  obtain ⟨hk, hkn, hv⟩ := build_id_map parsed g h
  have hson : so.Nodup := hso.nodup_iff.mpr hpn
  have hsol : ∀ x ∈ so, x < g.size := fun x hx => hpl x (hso.mem_iff.mp hx)
  have hgetD : ∀ (L : List (List Nat)) (l : List Nat), l ∈ L → ∃ u, L.getD u [] = l := by
    intro L l hl
    obtain ⟨u, hu, rfl⟩ := List.mem_iff_getElem.mp hl
    exact ⟨u, by simp [List.getD_eq_getElem?_getD, hu]⟩
  refine ⟨hfit, hadj, hrev, hnames, by rw [hmo.length_eq]; exact hmap, ?_, ?_, ?_, ?_, ?_, ?_, hson⟩
  · intro l hl x hx
    obtain ⟨u, rfl⟩ := hgetD _ l hl
    exact lt_trans (hA u x hx) hlt
  · intro l hl x hx
    obtain ⟨u, rfl⟩ := hgetD _ l hl
    exact lt_trans (hB u x hx) hlt
  · exact ((hmo.map Prod.fst).nodup_iff).mpr hk
  · intro kv hkv
    have hkv2 := hmo.mem_iff.mp hkv
    refine ⟨?_, lt_trans (hv kv hkv2) hlt⟩
    have : kv.1 ∈ g.m_names := by
      rw [← hkn]; exact List.mem_map.mpr ⟨kv, hkv2, rfl⟩
    exact hfit.2.2.2.2 kv.1 this
  · exact lt_of_le_of_lt (length_le_of_nodup_lt so g.size hson hsol) hlt
  · exact fun x hx => lt_trans (hsol x hx) hlt

/-- C1. Cache round trip: for a graph `g` returned by `Graph::build` in which every length
is below `2^32`, and for any order in which the id map and the phony set are traversed,
`Graph::serialize` produces a byte sequence, `Graph::deserialize` accepts it, and the decoded
graph has the same commands, children, parents and names sequences, the same name to id
mapping and the same phony set as `g`. -/
theorem cache_round_trip (parsed : parse.Result) (g : Graph) (h : Graph.build parsed = .ok g)
    (hfit : g.fits_u32) (map_order : IdMap) (set_order : List Nat)
    (hmo : map_order.Perm g.m_id_map) (hso : set_order.Perm g.m_phony) :
    ∃ bytes g2, g.serialize map_order set_order = .ok bytes ∧
      Graph.deserialize (some bytes) = .ok g2 ∧
      g2.m_node_store = g.m_node_store ∧ g2.m_adjgraph = g.m_adjgraph ∧
      g2.m_reverse_adj = g.m_reverse_adj ∧ g2.m_names = g.m_names ∧
      g2.m_id_map.Perm g.m_id_map ∧ (∀ name, g2.get_id name = g.get_id name) ∧
      g2.m_phony.Perm g.m_phony ∧ (∀ id, g2.is_phony id = g.is_phony id) := by
  have he := build_encodable parsed g h hfit map_order set_order hmo hso
  refine ⟨wire g map_order set_order, _, serialize_eq_wire g _ _ he, deserialize_wire g _ _ he,
    rfl, rfl, rfl, rfl, hmo, ?_, hso, ?_⟩
  · intro name
    simp only [Graph.get_id]
    rw [find_perm g.m_id_map map_order hmo (build_id_map parsed g h).1 name]
  · intro id
    simp only [Graph.is_phony, hso.mem_iff]

end exec


/-! ## The needed set -/

namespace exec

theorem flagged_lt (needed : List Bool) (v : Nat) (h : flagged needed v) : v < needed.length := by
  unfold flagged at h
  by_contra hlt
  rw [List.getD_eq_getElem?_getD, List.getElem?_eq_none (by omega)] at h
  simp at h

theorem flagged_set (needed : List Bool) (p v : Nat) :
    flagged (needed.set p true) v ↔ flagged needed v ∨ (v = p ∧ p < needed.length) := by
  unfold flagged
  rw [List.getD_eq_getElem?_getD, List.getD_eq_getElem?_getD, List.getElem?_set]
  by_cases hpv : p = v
  · subst hpv
    by_cases hlt : p < needed.length
    · simp [hlt]
    · simp [hlt, List.getElem?_eq_none (not_lt.mp hlt)]
  · simp only [hpv, if_false]
    constructor
    · exact Or.inl
    · rintro (h | ⟨h, -⟩)
      · exact h
      · exact absurd h.symm hpv

theorem count_false_set (l : List Bool) (p : Nat) (hp : p < l.length)
    (hf : l.getD p false = false) : (l.set p true).count false + 1 = l.count false := by
  induction l generalizing p with
  | nil => simp at hp
  | cons a l ih =>
    cases p with
    | zero =>
      simp only [List.getD_cons_zero] at hf
      subst hf
      simp
    | succ p =>
      simp only [List.getD_cons_succ] at hf
      simp only [List.length_cons] at hp
      have := ih p (by omega) hf
      simp only [List.set_cons_succ, List.count_cons]
      omega

theorem visit_parents_spec (ps : List Nat) (needed : List Bool) (st : List Nat) :
    (visit_parents ps needed st).1.length = needed.length ∧
    (∀ v, flagged (visit_parents ps needed st).1 v ↔
      flagged needed v ∨ (v ∈ ps ∧ v < needed.length)) ∧
    (∀ x, x ∈ (visit_parents ps needed st).2 ↔ x ∈ st ∨ (x ∈ ps ∧ ¬ flagged needed x)) ∧
    ((∀ p ∈ ps, p < needed.length) →
      (visit_parents ps needed st).1.count false + (visit_parents ps needed st).2.length =
        needed.count false + st.length) := by
  induction ps generalizing needed st with
  | nil => simp [visit_parents]
  | cons p ps ih =>
    simp only [visit_parents]
    split
    · rename_i hf
      obtain ⟨h1, h2, h3, h4⟩ := ih (needed.set p true) (p :: st)
      have hnf : ¬ flagged needed p := by unfold flagged; rw [hf]; simp
      refine ⟨by rw [h1, List.length_set], ?_, ?_, ?_⟩
      · intro v
        rw [h2 v, flagged_set, List.length_set]
        simp only [List.mem_cons]
        constructor
        · rintro ((h | ⟨h, hl⟩) | ⟨h, hl⟩)
          · exact Or.inl h
          · exact Or.inr ⟨Or.inl h, h ▸ hl⟩
          · exact Or.inr ⟨Or.inr h, hl⟩
        · rintro (h | ⟨h | h, hl⟩)
          · exact Or.inl (Or.inl h)
          · exact Or.inl (Or.inr ⟨h, h ▸ hl⟩)
          · exact Or.inr ⟨h, hl⟩
      · intro x
        rw [h3 x, flagged_set]
        simp only [List.mem_cons]
        constructor
        · rintro ((h | h) | ⟨h, hn⟩)
          · exact Or.inr ⟨Or.inl h, h ▸ hnf⟩
          · exact Or.inl h
          · exact Or.inr ⟨Or.inr h, fun hx => hn (Or.inl hx)⟩
        · rintro (h | ⟨h | h, hn⟩)
          · exact Or.inl (Or.inr h)
          · exact Or.inl (Or.inl h)
          · by_cases hxp : x = p
            · exact Or.inl (Or.inl hxp)
            · refine Or.inr ⟨h, ?_⟩
              rintro (hx | ⟨hx, -⟩)
              · exact hn hx
              · exact hxp hx
      · intro hlt
        have hp := hlt p (List.mem_cons_self _ _)
        rw [h4 (fun q hq => by rw [List.length_set]; exact hlt q (List.mem_cons_of_mem _ hq))]
        have := count_false_set needed p hp hf
        simp only [List.length_cons]
        omega
    · rename_i hf
      have hfl : flagged needed p := by
        unfold flagged
        cases h : needed.getD p false with
        | true => rfl
        | false => exact absurd h hf
      obtain ⟨h1, h2, h3, h4⟩ := ih needed st
      refine ⟨h1, ?_, ?_, ?_⟩
      · intro v
        rw [h2 v]
        simp only [List.mem_cons]
        constructor
        · rintro (h | ⟨h, hl⟩)
          · exact Or.inl h
          · exact Or.inr ⟨Or.inr h, hl⟩
        · rintro (h | ⟨h | h, hl⟩)
          · exact Or.inl h
          · exact Or.inl (h ▸ hfl)
          · exact Or.inr ⟨h, hl⟩
      · intro x
        rw [h3 x]
        simp only [List.mem_cons]
        constructor
        · rintro (h | ⟨h, hn⟩)
          · exact Or.inl h
          · exact Or.inr ⟨Or.inr h, hn⟩
        · rintro (h | ⟨h | h, hn⟩)
          · exact Or.inl h
          · exact absurd (h ▸ hfl) hn
          · exact Or.inr ⟨h, hn⟩
      · intro hlt
        exact h4 (fun q hq => hlt q (List.mem_cons_of_mem _ hq))

/-- The flags only ever mark nodes of a set that holds the stack and is closed under the
parent step. This needs nothing of the graph. -/
theorem dfs_sound (g : Graph) (A : Nat → Prop)
    (hA : ∀ u p, A u → p ∈ g.get_parent_ids u → A p) (fuel : Nat) (needed : List Bool)
    (st : List Nat) (r : List Bool) (h1 : ∀ v, flagged needed v → A v) (h2 : ∀ v ∈ st, A v)
    (h : dfs g fuel needed st = some r) : ∀ v, flagged r v → A v := by
  induction fuel generalizing needed st with
  | zero => simp [dfs] at h
  | succ fuel ih =>
    cases st with
    | nil =>
      simp only [dfs, Option.some.injEq] at h
      subst h; exact h1
    | cons u st1 =>
      simp only [dfs] at h
      obtain ⟨-, s2, s3, -⟩ := visit_parents_spec (g.get_parent_ids u) needed st1
      have hu : A u := h2 u (List.mem_cons_self _ _)
      refine ih _ _ ?_ ?_ h
      · intro v hv
        rcases (s2 v).mp hv with h3 | ⟨h3, -⟩
        · exact h1 v h3
        · exact hA u v hu h3
      · intro v hv
        rcases (s3 v).mp hv with h3 | ⟨h3, -⟩
        · exact h2 v (List.mem_cons_of_mem _ h3)
        · exact hA u v hu h3

/-- With parent entries that are ids of the graph, the loop ends before the fuel does, and
the flagged nodes are the ancestors of `start`. -/
theorem dfs_complete (g : Graph) (start n : Nat)
    (hpar : ∀ u, ∀ p ∈ g.get_parent_ids u, p < n) (fuel : Nat) (needed : List Bool)
    (st : List Nat) (hlen : needed.length = n)
    (hb : ∀ v, flagged needed v → g.ancestor start v)
    (hc : flagged needed start)
    (hd : ∀ v, flagged needed v → v ∈ st ∨ ∀ p ∈ g.get_parent_ids v, flagged needed p)
    (he : ∀ v ∈ st, flagged needed v)
    (hfuel : needed.count false + st.length < fuel) :
    ∃ r, dfs g fuel needed st = some r ∧ r.length = n ∧
      ∀ v, flagged r v ↔ g.ancestor start v := by
  induction fuel generalizing needed st with
  | zero => omega
  | succ fuel ih =>
    cases st with
    | nil =>
      refine ⟨needed, rfl, hlen, fun v => ⟨hb v, ?_⟩⟩
      intro hv
      induction hv with
      | refl => exact hc
      | tail _ hstep ih2 =>
        rcases hd _ ih2 with h | h
        · simp at h
        · exact h _ hstep
    | cons u st1 =>
      simp only [dfs]
      obtain ⟨s1, s2, s3, s4⟩ := visit_parents_spec (g.get_parent_ids u) needed st1
      have hu : flagged needed u := he u (List.mem_cons_self _ _)
      have hplt : ∀ p ∈ g.get_parent_ids u, p < needed.length := by
        rw [hlen]; exact hpar u
      apply ih
      · rw [s1, hlen]
      · intro v hv
        rcases (s2 v).mp hv with h3 | ⟨h3, -⟩
        · exact hb v h3
        · exact Relation.ReflTransGen.tail (hb u hu) h3
      · exact (s2 start).mpr (Or.inl hc)
      · intro v hv
        by_cases hvf : flagged needed v
        · rcases hd v hvf with h | h
          · rcases List.mem_cons.mp h with h2 | h2
            · right
              intro p hp
              rw [h2] at hp
              exact (s2 p).mpr (Or.inr ⟨hp, hplt p hp⟩)
            · exact Or.inl ((s3 v).mpr (Or.inl h2))
          · exact Or.inr (fun p hp => (s2 p).mpr (Or.inl (h p hp)))
        · rcases (s2 v).mp hv with h3 | ⟨h3, -⟩
          · exact absurd h3 hvf
          · exact Or.inl ((s3 v).mpr (Or.inr ⟨h3, hvf⟩))
      · intro x hx
        rcases (s3 x).mp hx with h | ⟨h, -⟩
        · exact (s2 x).mpr (Or.inl (he x (List.mem_cons_of_mem _ h)))
        · exact (s2 x).mpr (Or.inr ⟨h, hplt x h⟩)
      · have := s4 hplt
        simp only [List.length_cons] at hfuel
        omega

theorem flagged_replicate_false (n v : Nat) : ¬ flagged (List.replicate n false) v := by
  unfold flagged
  rw [List.getD_eq_getElem?_getD, List.getElem?_replicate]
  split <;> simp

theorem count_false_replicate (n : Nat) : (List.replicate n false).count false = n := by
  simp [List.count_replicate]

/-- Every flag that `compute_needed` sets belongs to an ancestor of the start node, for any
graph. -/
theorem compute_needed_sound (g : Graph) (start_id : Nat) (needed : List Bool)
    (h : compute_needed g start_id = some needed) (v : Nat) (hv : flagged needed v) :
    g.ancestor start_id v := by
  unfold compute_needed at h
  refine dfs_sound g (g.ancestor start_id)
    (fun u p hu hp => Relation.ReflTransGen.tail hu hp) _ _ _ _ ?_ ?_ h v hv
  · intro w hw
    rcases (flagged_set _ _ _).mp hw with h1 | ⟨h1, -⟩
    · exact absurd h1 (flagged_replicate_false _ _)
    · rw [h1]; exact Relation.ReflTransGen.refl
  · intro w hw
    simp only [List.mem_singleton] at hw
    rw [hw]; exact Relation.ReflTransGen.refl

/-- For a graph whose parent entries are ids of the graph and a start id of the graph,
`compute_needed` returns, and it flags exactly the ancestors of the start node. -/
theorem compute_needed_spec (g : Graph) (start_id : Nat)
    (hpar : ∀ u, ∀ p ∈ g.get_parent_ids u, p < g.size) (hs : start_id < g.size) :
    ∃ needed, compute_needed g start_id = some needed ∧ needed.length = g.size ∧
      ∀ v, flagged needed v ↔ g.ancestor start_id v := by
  unfold compute_needed
  have hset : ∀ w, flagged ((List.replicate g.size false).set start_id true) w ↔ w = start_id := by
    intro w
    rw [flagged_set]
    constructor
    · rintro (h1 | ⟨h1, -⟩)
      · exact absurd h1 (flagged_replicate_false _ _)
      · exact h1
    · intro h1; exact Or.inr ⟨h1, by simpa using hs⟩
  apply dfs_complete g start_id g.size hpar
  · simp
  · intro w hw
    rw [(hset w).mp hw]; exact Relation.ReflTransGen.refl
  · exact (hset _).mpr rfl
  · intro w hw
    left; rw [(hset w).mp hw]; exact List.mem_singleton_self _
  · intro w hw
    simp only [List.mem_singleton] at hw
    exact (hset w).mpr hw
  · have h1 := count_false_set (List.replicate g.size false) start_id (by simpa using hs)
      (by rw [List.getD_eq_getElem?_getD, List.getElem?_replicate]; simp [hs])
    rw [count_false_replicate] at h1
    simp only [List.length_singleton]
    omega

end exec

/-! ## The indegree pass -/

namespace exec

theorem getD_set (l : List Nat) (i j a : Nat) :
    (l.set i a).getD j 0 = if i = j ∧ i < l.length then a else l.getD j 0 := by
  rw [List.getD_eq_getElem?_getD, List.getD_eq_getElem?_getD, List.getElem?_set]
  by_cases hij : i = j
  · subst hij
    by_cases hlt : i < l.length
    · simp [hlt]
    · simp [hlt, List.getElem?_eq_none (not_lt.mp hlt)]
  · simp [hij]

theorem flagged_iff (needed : List Bool) (v : Nat) :
    needed.getD v false = true ↔ flagged needed v := Iff.rfl

theorem count_children_spec (needed : List Bool) (vs : List Nat) (indegree : List Nat)
    (hlen : indegree.length = needed.length) (hlt : ∀ v, indegree.getD v 0 < 2 ^ 32) :
    (count_children needed vs indegree).length = indegree.length ∧
    ∀ v, (count_children needed vs indegree).getD v 0 =
      if flagged needed v then (indegree.getD v 0 + vs.count v) % 2 ^ 32
      else indegree.getD v 0 := by
  induction vs generalizing indegree with
  | nil =>
    refine ⟨rfl, fun v => ?_⟩
    have := hlt v
    simp only [count_children, List.count_nil, Nat.add_zero]
    split
    · rw [Nat.mod_eq_of_lt this]
    · rfl
  | cons x xs ih =>
    simp only [count_children]
    split
    · rename_i hx
      have hxl : x < indegree.length := by rw [hlen]; exact flagged_lt needed x hx
      obtain ⟨h1, h2⟩ := ih (indegree.set x ((indegree.getD x 0 + 1) % 2 ^ 32))
        (by rw [List.length_set]; exact hlen)
        (by
          intro v
          rw [getD_set]
          split
          · exact Nat.mod_lt _ (by norm_num)
          · exact hlt v)
      refine ⟨by rw [h1, List.length_set], fun v => ?_⟩
      rw [h2 v, getD_set, List.count_cons]
      by_cases hv : flagged needed v
      · simp only [hv, if_true]
        by_cases hxv : x = v
        · subst hxv
          simp only [hxl, and_self, if_true, beq_self_eq_true]
          omega
        · have : (x == v) = false := by simpa using hxv
          simp [hxv, this]
      · simp only [hv, if_false]
        have hxv : x ≠ v := fun h => hv (h ▸ hx)
        simp [hxv]
    · rename_i hx
      obtain ⟨h1, h2⟩ := ih indegree hlen hlt
      refine ⟨h1, fun v => ?_⟩
      rw [h2 v, List.count_cons]
      by_cases hv : flagged needed v
      · have hxv : x ≠ v := fun h => hx (h ▸ hv)
        have : (x == v) = false := by simpa using hxv
        simp [hv, this]
      · simp [hv]

theorem compute_indegree_spec (g : Graph) (needed : List Bool) (us : List Nat)
    (indegree : List Nat) (hlen : indegree.length = needed.length)
    (hlt : ∀ v, indegree.getD v 0 < 2 ^ 32) :
    (compute_indegree g needed us indegree).length = indegree.length ∧
    ∀ v, (compute_indegree g needed us indegree).getD v 0 =
      if flagged needed v then (indegree.getD v 0 + edge_count g needed us v) % 2 ^ 32
      else indegree.getD v 0 := by
  induction us generalizing indegree with
  | nil =>
    refine ⟨rfl, fun v => ?_⟩
    have := hlt v
    simp only [compute_indegree, edge_count, List.filter_nil, List.map_nil, List.sum_nil,
      Nat.add_zero]
    split
    · rw [Nat.mod_eq_of_lt this]
    · rfl
  | cons u us ih =>
    simp only [compute_indegree]
    split
    · rename_i hu
      obtain ⟨c1, c2⟩ := count_children_spec needed (g.get_child_ids u) indegree hlen hlt
      obtain ⟨h1, h2⟩ := ih (count_children needed (g.get_child_ids u) indegree)
        (by rw [c1]; exact hlen)
        (by
          intro v
          rw [c2 v]
          split
          · exact Nat.mod_lt _ (by norm_num)
          · exact hlt v)
      refine ⟨by rw [h1, c1], fun v => ?_⟩
      rw [h2 v, c2 v]
      by_cases hv : flagged needed v
      · simp only [hv, if_true, edge_count, List.filter_cons, hu, List.map_cons, List.sum_cons]
        omega
      · simp only [hv, if_false]
    · rename_i hu
      obtain ⟨h1, h2⟩ := ih indegree hlen hlt
      refine ⟨h1, fun v => ?_⟩
      rw [h2 v]
      simp only [edge_count, List.filter_cons, hu]
      rfl

theorem sum_map_count (L l : List Nat) (hnd : L.Nodup) (hsub : ∀ x ∈ l, x ∈ L) :
    (L.map (fun u => l.count u)).sum = l.length := by
  induction l with
  | nil => simp
  | cons x l ih =>
    have hx : x ∈ L := hsub x (List.mem_cons_self _ _)
    have h1 : (L.map (fun u => (x :: l).count u)).sum =
        (L.map (fun u => l.count u)).sum + (L.map (fun u => if x = u then 1 else 0)).sum := by
      rw [← List.sum_map_add]
      congr 1
      apply List.map_congr_left
      intro u _
      rw [List.count_cons]
      by_cases hxu : x = u
      · simp [hxu]
      · have : (x == u) = false := by simpa using hxu
        simp [hxu, this]
    have h2 : (L.map (fun u => if x = u then 1 else 0)).sum = L.count x := by
      clear h1 ih hsub hx hnd
      induction L with
      | nil => simp
      | cons a L ih2 =>
        simp only [List.map_cons, List.sum_cons, ih2, List.count_cons]
        by_cases hxa : x = a
        · simp [hxa]; omega
        · have : (a == x) = false := by simpa using fun h => hxa h.symm
          simp [hxa, this]
    rw [h1, h2, ih (fun y hy => hsub y (List.mem_cons_of_mem _ hy)),
      List.count_eq_one_of_mem hnd hx, List.length_cons]

/-- In a graph whose child and parent lists mirror each other, the edges into a needed
node that the pass counts are its parent entries. -/
theorem edge_count_eq (g : Graph) (needed : List Bool) (hs : Setting g needed) (v : Nat)
    (hv : flagged needed v) :
    edge_count g needed (List.range g.size) v = (g.get_parent_ids v).length := by
  unfold edge_count
  have h1 : ((List.range g.size).filter (fun u => needed.getD u false)).map
      (fun u => (g.get_child_ids u).count v) =
      ((List.range g.size).filter (fun u => needed.getD u false)).map
      (fun u => (g.get_parent_ids v).count u) :=
    List.map_congr_left (fun u _ => hs.symm u v)
  rw [h1]
  apply sum_map_count
  · exact (List.nodup_range _).filter _
  · intro p hp
    have hfp := hs.closed v p hv hp
    have hlt := flagged_lt needed p hfp
    rw [hs.needed_len] at hlt
    exact List.mem_filter.mpr ⟨List.mem_range.mpr hlt, hfp⟩

theorem getD_replicate_zero (n v : Nat) : (List.replicate n 0).getD v 0 = 0 := by
  rw [List.getD_eq_getElem?_getD, List.getElem?_replicate]
  split <;> rfl

/-- After the indegree pass the counter of a needed node is the length of its parent
list. -/
theorem initial_indegree (g : Graph) (needed : List Bool) (hs : Setting g needed) :
    (compute_indegree g needed (List.range g.size) (List.replicate g.size 0)).length = g.size ∧
    ∀ v, flagged needed v →
      (compute_indegree g needed (List.range g.size) (List.replicate g.size 0)).getD v 0 =
        (g.get_parent_ids v).length := by
  obtain ⟨h1, h2⟩ := compute_indegree_spec g needed (List.range g.size)
    (List.replicate g.size 0) (by simp [hs.needed_len])
    (by intro v; rw [getD_replicate_zero]; norm_num)
  refine ⟨by simpa using h1, fun v hv => ?_⟩
  rw [h2 v, if_pos hv, getD_replicate_zero, edge_count_eq g needed hs v hv, Nat.zero_add]
  exact Nat.mod_eq_of_lt (hs.parents_lt v)

end exec

/-! ## Readiness propagation and the worker table -/

namespace exec

theorem count_cons_nat (x v : Nat) (l : List Nat) :
    (x :: l).count v = l.count v + if x = v then 1 else 0 := by
  rw [List.count_cons]
  by_cases h : x = v
  · simp [h]
  · have : (x == v) = false := by simpa using h
    simp [h, this]

/-- One propagation over the child list `vs`: every needed child loses as many units as it
has entries in `vs`, no counter wraps, and exactly the needed children whose counter
reaches zero are appended to the queue, once each. -/
theorem propagate_spec (needed : List Bool) (vs : List Nat) (indegree ready : List Nat)
    (hlen : indegree.length = needed.length)
    (hcnt : ∀ v, flagged needed v →
      vs.count v ≤ indegree.getD v 0 ∧ indegree.getD v 0 < 2 ^ 32) :
    (propagate needed vs indegree ready).1.length = indegree.length ∧
    (∀ v, (propagate needed vs indegree ready).1.getD v 0 =
      if flagged needed v then indegree.getD v 0 - vs.count v else indegree.getD v 0) ∧
    ∃ new, (propagate needed vs indegree ready).2 = ready ++ new ∧ new.Nodup ∧
      ∀ v, v ∈ new ↔
        (flagged needed v ∧ 0 < vs.count v ∧ indegree.getD v 0 = vs.count v) := by
  induction vs generalizing indegree ready with
  | nil =>
    refine ⟨rfl, fun v => ?_, [], by simp [propagate], List.nodup_nil, fun v => ?_⟩
    · simp [propagate]
    · simp
  | cons x xs ih =>
    by_cases hx : flagged needed x
    · have hxl : x < indegree.length := by rw [hlen]; exact flagged_lt needed x hx
      obtain ⟨hx1, hx2⟩ := hcnt x hx
      rw [count_cons_nat, if_pos rfl] at hx1
      have hd : (indegree.getD x 0 + 2 ^ 32 - 1) % 2 ^ 32 = indegree.getD x 0 - 1 := by omega
      have hcnt1 : ∀ v, flagged needed v →
          xs.count v ≤ (indegree.set x (indegree.getD x 0 - 1)).getD v 0 ∧
          (indegree.set x (indegree.getD x 0 - 1)).getD v 0 < 2 ^ 32 := by
        intro v hv
        obtain ⟨h1, h2⟩ := hcnt v hv
        rw [count_cons_nat] at h1
        rw [getD_set]
        by_cases hxv : x = v
        · subst hxv
          simp only [hxl, and_self, if_true] at h1 ⊢
          omega
        · simp only [hxv, false_and, if_false] at h1 ⊢
          omega
      have hget : ∀ v, (indegree.set x (indegree.getD x 0 - 1)).getD v 0 =
          if x = v then indegree.getD x 0 - 1 else indegree.getD v 0 := by
        intro v
        rw [getD_set]
        by_cases hxv : x = v
        · simp [hxv, hxv ▸ hxl]
        · simp [hxv]
      have hprop : propagate needed (x :: xs) indegree ready =
          if indegree.getD x 0 - 1 = 0 then
            propagate needed xs (indegree.set x (indegree.getD x 0 - 1)) (ready ++ [x])
          else propagate needed xs (indegree.set x (indegree.getD x 0 - 1)) ready := by
        have hx' : needed.getD x false = true := hx
        simp only [propagate, hx', if_true, hd]
      rw [hprop]
      by_cases hz : indegree.getD x 0 - 1 = 0
      · rw [if_pos hz]
        obtain ⟨i1, i2, new, i3, i4, i5⟩ :=
          ih (indegree.set x (indegree.getD x 0 - 1)) (ready ++ [x])
            (by rw [List.length_set]; exact hlen) hcnt1
        refine ⟨by rw [i1, List.length_set], ?_, x :: new, by rw [i3]; simp, ?_, ?_⟩
        · intro v
          rw [i2 v, hget v, count_cons_nat]
          by_cases hv : flagged needed v
          · by_cases hxv : x = v
            · subst hxv; simp only [hv, if_true]; omega
            · simp only [hv, hxv, if_true, if_false]; omega
          · have hxv : x ≠ v := fun h => hv (h ▸ hx)
            simp only [hv, hxv, if_false]
        · rw [List.nodup_cons]
          refine ⟨?_, i4⟩
          intro hmem
          obtain ⟨-, h1, h2⟩ := (i5 x).mp hmem
          rw [hget x, if_pos rfl] at h2
          omega
        · intro v
          rw [List.mem_cons, i5 v, hget v, count_cons_nat]
          by_cases hxv : x = v
          · subst hxv
            simp only [true_or, if_true, true_iff]
            exact ⟨hx, by omega, by omega⟩
          · have hvx : v ≠ x := fun h => hxv h.symm
            simp only [hvx, false_or, hxv, if_false, Nat.add_zero]
      · rw [if_neg hz]
        obtain ⟨i1, i2, new, i3, i4, i5⟩ :=
          ih (indegree.set x (indegree.getD x 0 - 1)) ready
            (by rw [List.length_set]; exact hlen) hcnt1
        refine ⟨by rw [i1, List.length_set], ?_, new, i3, i4, ?_⟩
        · intro v
          rw [i2 v, hget v, count_cons_nat]
          by_cases hv : flagged needed v
          · by_cases hxv : x = v
            · subst hxv; simp only [hv, if_true]; omega
            · simp only [hv, hxv, if_true, if_false]; omega
          · have hxv : x ≠ v := fun h => hv (h ▸ hx)
            simp only [hv, hxv, if_false]
        · intro v
          rw [i5 v, hget v, count_cons_nat]
          by_cases hxv : x = v
          · subst hxv
            simp only [if_true]
            constructor
            · rintro ⟨h1, h2, h3⟩; exact ⟨h1, by omega, by omega⟩
            · rintro ⟨h1, h2, h3⟩; exact ⟨h1, by omega, by omega⟩
          · simp only [hxv, if_false, Nat.add_zero]
    · have hprop : propagate needed (x :: xs) indegree ready =
          propagate needed xs indegree ready := by
        have hx' : ¬ needed.getD x false = true := hx
        simp only [propagate, hx', if_false]
        rfl
      rw [hprop]
      have hcnt1 : ∀ v, flagged needed v →
          xs.count v ≤ indegree.getD v 0 ∧ indegree.getD v 0 < 2 ^ 32 := by
        intro v hv
        obtain ⟨h1, h2⟩ := hcnt v hv
        rw [count_cons_nat] at h1
        exact ⟨by omega, h2⟩
      obtain ⟨i1, i2, new, i3, i4, i5⟩ := ih indegree ready hlen hcnt1
      refine ⟨i1, ?_, new, i3, i4, ?_⟩
      · intro v
        rw [i2 v, count_cons_nat]
        by_cases hv : flagged needed v
        · have hxv : x ≠ v := fun h => hx (h ▸ hv)
          simp only [hv, if_true, hxv, if_false, Nat.add_zero]
        · simp only [hv, if_false]
      · intro v
        rw [i5 v, count_cons_nat]
        by_cases hv : flagged needed v
        · have hxv : x ≠ v := fun h => hx (h ▸ hv)
          simp only [hxv, if_false, Nat.add_zero]
        · simp [hv]

/-- Whatever the graph and the counters, propagation only appends flagged nodes. -/
theorem propagate_ready_flagged (needed : List Bool) (vs : List Nat) (indegree ready : List Nat)
    (h : ∀ v ∈ ready, flagged needed v) :
    ∀ v ∈ (propagate needed vs indegree ready).2, flagged needed v := by
  induction vs generalizing indegree ready with
  | nil => simpa [propagate] using h
  | cons x xs ih =>
    simp only [propagate]
    split
    · rename_i hx
      split
      · apply ih
        intro v hv
        rcases List.mem_append.mp hv with h1 | h1
        · exact h v h1
        · simp only [List.mem_singleton] at h1; rw [h1]; exact hx
      · exact ih _ _ h
    · exact ih _ _ h

namespace ProcessPool

theorem inflight_cons_none (ws : Workers) : inflight (none :: ws) = inflight ws := rfl

theorem inflight_cons_some (x : Nat) (ws : Workers) :
    inflight (some x :: ws) = x :: inflight ws := rfl

theorem inflight_replicate (n : Nat) : inflight (List.replicate n none) = [] := by
  induction n with
  | zero => rfl
  | succ n ih => rw [List.replicate_succ, inflight_cons_none, ih]

theorem submit_spec (ws : Workers) (u : Nat) (h : can_accept ws = true) :
    ∃ ws1, submit ws u = some ws1 ∧ (inflight ws1).Perm (u :: inflight ws) ∧
      ws1.length = ws.length := by
  induction ws with
  | nil => simp [can_accept] at h
  | cons w ws ih =>
    cases w with
    | none => exact ⟨some u :: ws, rfl, List.Perm.refl _, rfl⟩
    | some x =>
      have h1 : can_accept ws = true := by simpa [can_accept] using h
      obtain ⟨ws1, e1, e2, e3⟩ := ih h1
      refine ⟨some x :: ws1, by simp [submit, e1], ?_, by simp [e3]⟩
      rw [inflight_cons_some, inflight_cons_some]
      exact (e2.cons x).trans (List.Perm.swap u x _)

theorem can_accept_false (ws : Workers) (h : can_accept ws = false) :
    (inflight ws).length = ws.length := by
  induction ws with
  | nil => rfl
  | cons w ws ih =>
    cases w with
    | none => simp [can_accept] at h
    | some x =>
      have h1 : can_accept ws = false := by simpa [can_accept] using h
      rw [inflight_cons_some, List.length_cons, List.length_cons, ih h1]

theorem busy_slots_mem (ws : Workers) (i x : Nat) (h : x ∈ busy_slots ws i) :
    i ≤ x ∧ ∃ u, ws[x - i]? = some (some u) := by
  induction ws generalizing i with
  | nil => simp [busy_slots] at h
  | cons w ws ih =>
    cases w with
    | none =>
      obtain ⟨h1, u, h2⟩ := ih (i + 1) h
      refine ⟨by omega, u, ?_⟩
      have : x - i = (x - (i + 1)) + 1 := by omega
      rw [this, List.getElem?_cons_succ]; exact h2
    | some y =>
      simp only [busy_slots, List.mem_cons] at h
      rcases h with h | h
      · subst h
        exact ⟨le_refl _, y, by simp⟩
      · obtain ⟨h1, u, h2⟩ := ih (i + 1) h
        refine ⟨by omega, u, ?_⟩
        have : x - i = (x - (i + 1)) + 1 := by omega
        rw [this, List.getElem?_cons_succ]; exact h2

theorem busy_slots_nil (ws : Workers) (i : Nat) (h : busy_slots ws i = []) :
    inflight ws = [] := by
  induction ws generalizing i with
  | nil => rfl
  | cons w ws ih =>
    cases w with
    | none => rw [inflight_cons_none]; exact ih (i + 1) h
    | some y => simp [busy_slots] at h

theorem inflight_set_none (ws : Workers) (j u : Nat) (h : ws[j]? = some (some u)) :
    u ∈ inflight ws ∧ (inflight (ws.set j none)).Perm ((inflight ws).erase u) := by
  induction ws generalizing j with
  | nil => simp at h
  | cons w ws ih =>
    cases j with
    | zero =>
      simp only [List.getElem?_cons_zero, Option.some.injEq] at h
      subst h
      simp [inflight_cons_some, inflight_cons_none]
    | succ j =>
      simp only [List.getElem?_cons_succ] at h
      obtain ⟨h1, h2⟩ := ih j h
      cases w with
      | none => simpa [inflight_cons_none] using ⟨h1, h2⟩
      | some x =>
        simp only [List.set_cons_succ, inflight_cons_some]
        refine ⟨List.mem_cons_of_mem _ h1, ?_⟩
        by_cases hxu : x = u
        · subst hxu
          rw [List.erase_cons_head]
          exact (h2.cons x).trans (List.perm_cons_erase h1).symm
        · rw [List.erase_cons_tail (by simpa using hxu)]
          exact h2.cons x

theorem wait_result_none (ws : Workers) (pick : Nat) (code : Int)
    (h : wait_result ws pick code = none) : inflight ws = [] := by
  unfold wait_result at h
  cases hb : busy_slots ws 0 with
  | nil => exact busy_slots_nil ws 0 hb
  | cons b bs =>
    exfalso
    rw [hb] at h
    simp only at h
    have hmem : (b :: bs).getD (pick % (b :: bs).length) b ∈ busy_slots ws 0 := by
      rw [hb, List.getD_eq_getElem?_getD]
      have hlt : pick % (b :: bs).length < (b :: bs).length :=
        Nat.mod_lt _ (by simp)
      rw [List.getElem?_eq_getElem hlt]
      exact List.getElem_mem _
    obtain ⟨-, u, hu⟩ := busy_slots_mem ws 0 _ hmem
    rw [Nat.sub_zero] at hu
    rw [List.getD_eq_getElem?_getD, hu] at h
    simp at h

theorem wait_result_some (ws : Workers) (pick : Nat) (code : Int) (u : Nat) (c : Int)
    (ws1 : Workers) (h : wait_result ws pick code = some ((u, c), ws1)) :
    c = code ∧ u ∈ inflight ws ∧ (inflight ws1).Perm ((inflight ws).erase u) ∧
      ws1.length = ws.length := by
  unfold wait_result at h
  cases hb : busy_slots ws 0 with
  | nil => rw [hb] at h; simp at h
  | cons b bs =>
    rw [hb] at h
    simp only at h
    have hmem : (b :: bs).getD (pick % (b :: bs).length) b ∈ busy_slots ws 0 := by
      rw [hb, List.getD_eq_getElem?_getD]
      have hlt : pick % (b :: bs).length < (b :: bs).length :=
        Nat.mod_lt _ (by simp)
      rw [List.getElem?_eq_getElem hlt]
      exact List.getElem_mem _
    obtain ⟨-, u2, hu⟩ := busy_slots_mem ws 0 _ hmem
    rw [Nat.sub_zero] at hu
    rw [List.getD_eq_getElem?_getD, hu] at h
    simp only [Option.getD_some, Option.some.injEq, Prod.mk.injEq] at h
    obtain ⟨⟨h1, h2⟩, h3⟩ := h
    subst h1 h2 h3
    obtain ⟨i1, i2⟩ := inflight_set_none ws _ u2 hu
    exact ⟨rfl, i1, i2, by simp⟩

end ProcessPool

end exec

/-! ## The main loop: transitions -/

namespace exec

/-- The three transitions that continue the main loop: a submission, a skip, or an answer
with exit code `0`. -/
theorem step_next_cases (g : Graph) (needed : List Bool) (env : Env) (s s1 : State)
    (h : step g needed env s = .next s1) :
    (∃ u rest ws1, s.ready = u :: rest ∧ ProcessPool.can_accept s.workers = true ∧
      should_execute g (env.fs s.trace.length) u = .ok true ∧
      ProcessPool.submit s.workers u = some ws1 ∧
      s1 = ⟨s.indegree, rest, s.running + 1, ws1, s.trace ++ [Event.submit u]⟩) ∨
    (∃ u rest, s.ready = u :: rest ∧ ProcessPool.can_accept s.workers = true ∧
      should_execute g (env.fs s.trace.length) u = .ok false ∧
      s1 = ⟨(propagate needed (g.get_child_ids u) s.indegree rest).1,
        (propagate needed (g.get_child_ids u) s.indegree rest).2, s.running, s.workers,
        s.trace ++ [Event.skip u]⟩) ∨
    (∃ u ws1, s.running ≠ 0 ∧
      ProcessPool.wait_result s.workers (env.pick s.trace.length)
        (env.exit_code s.trace.length) = some ((u, 0), ws1) ∧
      s1 = ⟨(propagate needed (g.get_child_ids u) s.indegree s.ready).1,
        (propagate needed (g.get_child_ids u) s.indegree s.ready).2, s.running - 1, ws1,
        s.trace ++ [Event.result u 0]⟩) := by
  have hwait : s.running ≠ 0 → wait_step g needed env s = .next s1 →
      ∃ u ws1, s.running ≠ 0 ∧
      ProcessPool.wait_result s.workers (env.pick s.trace.length)
        (env.exit_code s.trace.length) = some ((u, 0), ws1) ∧
      s1 = ⟨(propagate needed (g.get_child_ids u) s.indegree s.ready).1,
        (propagate needed (g.get_child_ids u) s.indegree s.ready).2, s.running - 1, ws1,
        s.trace ++ [Event.result u 0]⟩ := by
    intro hr hw
    unfold wait_step at hw
    cases hres : ProcessPool.wait_result s.workers (env.pick s.trace.length)
        (env.exit_code s.trace.length) with
    | none => rw [hres] at hw; simp at hw
    | some x =>
      obtain ⟨⟨u, c⟩, ws1⟩ := x
      rw [hres] at hw
      simp only at hw
      by_cases hc : c = 0
      · subst hc
        simp only [ne_eq, not_true_eq_false, if_false, Step.next.injEq] at hw
        exact ⟨u, ws1, hr, rfl, hw.symm⟩
      · simp [hc] at hw
  unfold step at h
  cases hrd : s.ready with
  | nil =>
    rw [hrd] at h
    simp only at h
    by_cases hr : s.running = 0
    · simp [hr] at h
    · rw [if_neg hr] at h
      have := hwait hr h
      rw [hrd] at this
      exact Or.inr (Or.inr this)
  | cons u rest =>
    rw [hrd] at h
    simp only at h
    by_cases hca : ProcessPool.can_accept s.workers = true
    · rw [if_pos hca] at h
      cases hse : should_execute g (env.fs s.trace.length) u with
      | error e => rw [hse] at h; simp at h
      | ok b =>
        rw [hse] at h
        cases b with
        | true =>
          simp only at h
          cases hsub : ProcessPool.submit s.workers u with
          | none => rw [hsub] at h; simp at h
          | some ws1 =>
            rw [hsub] at h
            simp only [Step.next.injEq] at h
            exact Or.inl ⟨u, rest, ws1, rfl, hca, hse, hsub, h.symm⟩
        | false =>
          simp only [Step.next.injEq] at h
          exact Or.inr (Or.inl ⟨u, rest, rfl, hca, hse, h.symm⟩)
    · rw [if_neg hca] at h
      by_cases hr : s.running = 0
      · simp [hr] at h
      · rw [if_neg hr] at h
        have := hwait hr h
        rw [hrd] at this
        exact Or.inr (Or.inr this)

/-- The ways the main loop ends. -/
theorem step_done_cases (g : Graph) (needed : List Bool) (env : Env) (s : State)
    (r : RunResult) (h : step g needed env s = .done r) :
    (∃ u rest e, s.ready = u :: rest ∧ ProcessPool.can_accept s.workers = true ∧
      should_execute g (env.fs s.trace.length) u = .error e ∧
      r = ⟨s.trace, Outcome.fatal e⟩) ∨
    (∃ u rest, s.ready = u :: rest ∧ ProcessPool.can_accept s.workers = true ∧
      ProcessPool.submit s.workers u = none ∧ r = ⟨s.trace, Outcome.abort⟩) ∨
    (s.ready ≠ [] ∧ ProcessPool.can_accept s.workers = false ∧ s.running = 0 ∧
      r = ⟨s.trace, Outcome.spin⟩) ∨
    (s.ready = [] ∧ s.running = 0 ∧ r = finish g.size needed s) ∨
    (s.running ≠ 0 ∧ (s.ready = [] ∨ ProcessPool.can_accept s.workers = false) ∧
      ProcessPool.wait_result s.workers (env.pick s.trace.length)
        (env.exit_code s.trace.length) = none ∧ r = ⟨s.trace, Outcome.blocked⟩) ∨
    (∃ u c ws1, s.running ≠ 0 ∧ (s.ready = [] ∨ ProcessPool.can_accept s.workers = false) ∧
      ProcessPool.wait_result s.workers (env.pick s.trace.length)
        (env.exit_code s.trace.length) = some ((u, c), ws1) ∧ c ≠ 0 ∧
      r = ⟨s.trace ++ [Event.result u c, Event.shutdown],
        Outcome.fatal Fault.CommandFailed⟩) := by
  have hwait : wait_step g needed env s = .done r →
      (ProcessPool.wait_result s.workers (env.pick s.trace.length)
        (env.exit_code s.trace.length) = none ∧ r = ⟨s.trace, Outcome.blocked⟩) ∨
      (∃ u c ws1, ProcessPool.wait_result s.workers (env.pick s.trace.length)
        (env.exit_code s.trace.length) = some ((u, c), ws1) ∧ c ≠ 0 ∧
        r = ⟨s.trace ++ [Event.result u c, Event.shutdown],
          Outcome.fatal Fault.CommandFailed⟩) := by
    intro hw
    unfold wait_step at hw
    cases hres : ProcessPool.wait_result s.workers (env.pick s.trace.length)
        (env.exit_code s.trace.length) with
    | none =>
      rw [hres] at hw
      simp only [Step.done.injEq] at hw
      exact Or.inl ⟨rfl, hw.symm⟩
    | some x =>
      obtain ⟨⟨u, c⟩, ws1⟩ := x
      rw [hres] at hw
      simp only at hw
      by_cases hc : c = 0
      · simp [hc] at hw
      · rw [if_pos hc] at hw
        simp only [Step.done.injEq] at hw
        exact Or.inr ⟨u, c, ws1, rfl, hc, hw.symm⟩
  unfold step at h
  cases hrd : s.ready with
  | nil =>
    rw [hrd] at h
    simp only at h
    by_cases hr : s.running = 0
    · rw [if_pos hr] at h
      simp only [Step.done.injEq] at h
      exact Or.inr (Or.inr (Or.inr (Or.inl ⟨rfl, hr, h.symm⟩)))
    · rw [if_neg hr] at h
      rcases hwait h with h1 | ⟨u, c, ws1, h1, h2, h3⟩
      · exact Or.inr (Or.inr (Or.inr (Or.inr (Or.inl ⟨hr, Or.inl rfl, h1.1, h1.2⟩))))
      · exact Or.inr (Or.inr (Or.inr (Or.inr (Or.inr ⟨u, c, ws1, hr, Or.inl rfl, h1, h2, h3⟩))))
  | cons u rest =>
    rw [hrd] at h
    simp only at h
    by_cases hca : ProcessPool.can_accept s.workers = true
    · rw [if_pos hca] at h
      cases hse : should_execute g (env.fs s.trace.length) u with
      | error e =>
        rw [hse] at h
        simp only [Step.done.injEq] at h
        exact Or.inl ⟨u, rest, e, rfl, hca, hse, h.symm⟩
      | ok b =>
        rw [hse] at h
        cases b with
        | true =>
          simp only at h
          cases hsub : ProcessPool.submit s.workers u with
          | none =>
            rw [hsub] at h
            simp only [Step.done.injEq] at h
            exact Or.inr (Or.inl ⟨u, rest, rfl, hca, hsub, h.symm⟩)
          | some ws1 => rw [hsub] at h; simp at h
        | false => simp at h
    · rw [if_neg hca] at h
      have hca2 : ProcessPool.can_accept s.workers = false := by
        cases hb : ProcessPool.can_accept s.workers with
        | true => exact absurd hb hca
        | false => rfl
      by_cases hr : s.running = 0
      · rw [if_pos hr] at h
        simp only [Step.done.injEq] at h
        exact Or.inr (Or.inr (Or.inl ⟨by simp, hca2, hr, h.symm⟩))
      · rw [if_neg hr] at h
        rcases hwait h with h1 | ⟨u2, c, ws1, h1, h2, h3⟩
        · exact Or.inr (Or.inr (Or.inr (Or.inr (Or.inl ⟨hr, Or.inr hca2, h1.1, h1.2⟩))))
        · exact Or.inr (Or.inr (Or.inr (Or.inr (Or.inr
            ⟨u2, c, ws1, hr, Or.inr hca2, h1, h2, h3⟩))))

/-- Induction over the main loop: a property of the state that every continuing transition
keeps decides a property of the result, once it does so for every ending transition and
for the state at which the fuel ends. -/
theorem main_loop_induct (g : Graph) (needed : List Bool) (env : Env)
    (P : State → Prop) (Q : RunResult → Prop)
    (hnext : ∀ s s1, P s → step g needed env s = .next s1 → P s1)
    (hdone : ∀ s r, P s → step g needed env s = .done r → Q r)
    (hfuel : ∀ s, P s → Q ⟨s.trace, Outcome.out_of_fuel⟩)
    (fuel : Nat) (s : State) (h : P s) : Q (main_loop g needed env fuel s) := by
  induction fuel generalizing s with
  | zero => exact hfuel s h
  | succ fuel ih =>
    simp only [main_loop]
    cases hs : step g needed env s with
    | done r => exact hdone s r h hs
    | next s1 => exact ih s1 (hnext s s1 h hs)

theorem finish_trace (n : Nat) (needed : List Bool) (s : State) :
    (finish n needed s).trace = s.trace ++ [Event.shutdown] := by
  unfold finish; split <;> rfl

theorem finish_outcome (n : Nat) (needed : List Bool) (s : State) :
    (finish n needed s).outcome = Outcome.success ∨
    (finish n needed s).outcome = Outcome.fatal Fault.CycleDetected := by
  unfold finish; split
  · exact Or.inr rfl
  · exact Or.inl rfl

/-- The result of `Scheduler::run` is an early exit with no event, or the result of the main
loop started on the needed flags, the counters and the queue of the three passes. -/
theorem run_cases (fuel : Nat) (g : Graph) (start : Str) (n_workers : Nat) (env : Env) :
    (Scheduler.run_upto fuel g start n_workers env).trace = [] ∨
    ∃ needed, g.get_id start ≠ npos ∧ compute_needed g (g.get_id start) = some needed ∧
      Scheduler.run_upto fuel g start n_workers env =
        main_loop g needed env fuel
          ⟨compute_indegree g needed (List.range g.size) (List.replicate g.size 0),
           initial_ready g.size needed
             (compute_indegree g needed (List.range g.size) (List.replicate g.size 0)),
           0, List.replicate n_workers none, []⟩ := by
  unfold Scheduler.run_upto
  simp only
  split
  · exact Or.inl rfl
  · rename_i hs
    cases hn : compute_needed g (g.get_id start) with
    | none => exact Or.inl rfl
    | some needed => exact Or.inr ⟨needed, hs, rfl, rfl⟩

theorem initial_ready_flagged (n : Nat) (needed : List Bool) (indegree : List Nat) :
    ∀ v ∈ initial_ready n needed indegree, flagged needed v := by
  intro v hv
  unfold initial_ready at hv
  have := (List.mem_filter.mp hv).2
  simp only [Bool.and_eq_true] at this
  exact this.1

end exec

/-! ## The main loop: what holds for every graph -/

namespace exec

theorem any_newer_ok (g : Graph) (fs : FS) (target : Str) (ps : List Nat) (t : Nat)
    (ht : fs target = some t) : ∃ b, any_newer g fs target ps = .ok b := by
  induction ps with
  | nil => exact ⟨false, rfl⟩
  | cons p ps ih =>
    simp only [any_newer, is_newer, ht]
    cases fs (g.get_name_ref p) with
    | none => simpa using ih
    | some tp =>
      simp only
      by_cases h : tp > t
      · simp [h]
      · simpa [h] using ih

/-- The staleness check never takes the fatal branch of `is_newer`: it has looked for the
target's file first. -/
theorem should_execute_ok (g : Graph) (fs : FS) (u : Nat) :
    ∃ b, should_execute g fs u = .ok b := by
  unfold should_execute
  split
  · exact ⟨true, rfl⟩
  · split
    · exact ⟨true, rfl⟩
    · rename_i h
      cases ht : fs (g.get_name_ref u) with
      | none => simp [ht] at h
      | some t => exact any_newer_ok g fs _ _ t ht

theorem any_newer_false (g : Graph) (fs : FS) (target : Str) (ps : List Nat) (t : Nat)
    (ht : fs target = some t)
    (h : ∀ p ∈ ps, ∀ tp, fs (g.get_name_ref p) = some tp → tp ≤ t) :
    any_newer g fs target ps = .ok false := by
  induction ps with
  | nil => rfl
  | cons p ps ih =>
    have ih2 := ih (fun q hq => h q (List.mem_cons_of_mem _ hq))
    simp only [any_newer, is_newer, ht]
    cases hp : fs (g.get_name_ref p) with
    | none => simpa using ih2
    | some tp =>
      have := h p (List.mem_cons_self _ _) tp hp
      have hn : ¬ tp > t := by omega
      simpa [hn] using ih2

theorem should_execute_up_to_date (g : Graph) (fs : FS) (u : Nat)
    (hph : g.is_phony u = false) (hu : up_to_date g fs u) :
    should_execute g fs u = .ok false := by
  obtain ⟨t, ht, hp⟩ := hu
  unfold should_execute
  rw [hph, ht]
  simp only [Bool.false_eq_true, if_false, Option.isNone_some]
  exact any_newer_false g fs _ _ t ht hp

theorem should_execute_phony (g : Graph) (fs : FS) (u : Nat) (hph : g.is_phony u = true) :
    should_execute g fs u = .ok true := by
  unfold should_execute
  rw [hph]; rfl

theorem weak_next (g : Graph) (needed : List Bool) (env : Env) (s s1 : State)
    (hw : Weak needed s) (h : step g needed env s = .next s1) : Weak needed s1 := by
  rcases step_next_cases g needed env s s1 h with
    ⟨u, rest, ws1, h1, -, -, -, rfl⟩ | ⟨u, rest, h1, -, -, rfl⟩ | ⟨u, ws1, -, -, rfl⟩
  · have hu : flagged needed u := hw.ready_flagged u (by rw [h1]; exact List.mem_cons_self _ _)
    refine ⟨?_, ?_, ?_, ?_⟩
    · intro v hv
      exact hw.ready_flagged v (by rw [h1]; exact List.mem_cons_of_mem _ hv)
    · intro v hv
      rcases List.mem_append.mp hv with h2 | h2
      · exact hw.submit_flagged v h2
      · simp only [List.mem_singleton, Event.submit.injEq] at h2
        rw [h2]; exact hu
    · intro v c hv
      rcases List.mem_append.mp hv with h2 | h2
      · exact hw.results_zero v c h2
      · simp at h2
    · intro hv
      rcases List.mem_append.mp hv with h2 | h2
      · exact hw.no_shutdown h2
      · simp at h2
  · refine ⟨?_, ?_, ?_, ?_⟩
    · apply propagate_ready_flagged
      intro v hv
      exact hw.ready_flagged v (by rw [h1]; exact List.mem_cons_of_mem _ hv)
    · intro v hv
      rcases List.mem_append.mp hv with h2 | h2
      · exact hw.submit_flagged v h2
      · simp at h2
    · intro v c hv
      rcases List.mem_append.mp hv with h2 | h2
      · exact hw.results_zero v c h2
      · simp at h2
    · intro hv
      rcases List.mem_append.mp hv with h2 | h2
      · exact hw.no_shutdown h2
      · simp at h2
  · refine ⟨?_, ?_, ?_, ?_⟩
    · exact propagate_ready_flagged _ _ _ _ hw.ready_flagged
    · intro v hv
      rcases List.mem_append.mp hv with h2 | h2
      · exact hw.submit_flagged v h2
      · simp at h2
    · intro v c hv
      rcases List.mem_append.mp hv with h2 | h2
      · exact hw.results_zero v c h2
      · simp only [List.mem_singleton, Event.result.injEq] at h2
        exact h2.2
    · intro hv
      rcases List.mem_append.mp hv with h2 | h2
      · exact hw.no_shutdown h2
      · simp at h2

/-- The events of an ending transition: none, the shutdown, or a failed answer and the
shutdown. -/
theorem done_trace (g : Graph) (needed : List Bool) (env : Env) (s : State) (r : RunResult)
    (h : step g needed env s = .done r) :
    r.trace = s.trace ∨ r.trace = s.trace ++ [Event.shutdown] ∨
    ∃ u c, c ≠ 0 ∧ r = ⟨s.trace ++ [Event.result u c, Event.shutdown],
      Outcome.fatal Fault.CommandFailed⟩ := by
  rcases step_done_cases g needed env s r h with
    ⟨_, _, _, -, -, -, rfl⟩ | ⟨_, _, -, -, -, rfl⟩ | ⟨-, -, -, rfl⟩ | ⟨-, -, rfl⟩ |
    ⟨-, -, -, rfl⟩ | ⟨u, c, _, -, -, -, hc, rfl⟩
  · exact Or.inl rfl
  · exact Or.inl rfl
  · exact Or.inl rfl
  · exact Or.inr (Or.inl (finish_trace _ _ _))
  · exact Or.inl rfl
  · exact Or.inr (Or.inr ⟨u, c, hc, rfl⟩)

theorem weak_initial (needed : List Bool) (n n_workers : Nat) (indegree : List Nat) :
    Weak needed ⟨indegree, initial_ready n needed indegree, 0,
      List.replicate n_workers none, []⟩ :=
  ⟨initial_ready_flagged n needed indegree, by simp, by simp, by simp⟩

/-- Only flagged nodes are ever submitted by the main loop. -/
theorem main_loop_submit_flagged (g : Graph) (needed : List Bool) (env : Env) (fuel : Nat)
    (s : State) (hw : Weak needed s) :
    ∀ u, Event.submit u ∈ (main_loop g needed env fuel s).trace → flagged needed u := by
  refine main_loop_induct g needed env (Weak needed)
    (fun r => ∀ u, Event.submit u ∈ r.trace → flagged needed u)
    (fun s s1 h1 h2 => weak_next g needed env s s1 h1 h2) ?_
    (fun s h1 => h1.submit_flagged) fuel s hw
  intro s r h1 h2 u hu
  rcases done_trace g needed env s r h2 with h3 | h3 | ⟨v, c, -, rfl⟩
  · rw [h3] at hu; exact h1.submit_flagged u hu
  · rw [h3] at hu
    rcases List.mem_append.mp hu with h4 | h4
    · exact h1.submit_flagged u h4
    · simp at h4
  · rcases List.mem_append.mp hu with h4 | h4
    · exact h1.submit_flagged u h4
    · simp at h4

theorem failed_result_last (tr pre post : List Event) (u v : Nat) (c d : Int)
    (hz : ∀ w e, Event.result w e ∈ tr → e = 0) (hd : d ≠ 0)
    (h : tr ++ [Event.result u c, Event.shutdown] = pre ++ Event.result v d :: post) :
    post = [Event.shutdown] ∧ pre = tr ∧ v = u := by
  rcases List.append_eq_append_iff.mp h with ⟨a, h1, h2⟩ | ⟨b, h1, h2⟩
  · cases a with
    | nil =>
      simp only [List.nil_append, List.cons.injEq, Event.result.injEq] at h2
      exact ⟨h2.2.symm, by simpa using h1, h2.1.1.symm⟩
    | cons y a =>
      cases a with
      | nil => simp at h2
      | cons z a => simp at h2
  · cases b with
    | nil =>
      simp only [List.nil_append, List.cons.injEq, Event.result.injEq] at h2
      exact ⟨h2.2, by simpa using h1.symm, h2.1.1⟩
    | cons y b =>
      simp only [List.cons_append, List.cons.injEq] at h2
      exfalso
      apply hd
      apply hz v d
      rw [h1, h2.1]
      simp

/-- A failed answer ends the run: nothing follows it but the shutdown, and the outcome is
`CommandFailed`. -/
theorem main_loop_failure_last (g : Graph) (needed : List Bool) (env : Env) (fuel : Nat)
    (s : State) (hw : Weak needed s) :
    ∀ pre u c post, (main_loop g needed env fuel s).trace = pre ++ Event.result u c :: post →
      c ≠ 0 → post = [Event.shutdown] ∧
        (main_loop g needed env fuel s).outcome = Outcome.fatal Fault.CommandFailed := by
  have hvac : ∀ (tr : List Event), (∀ w e, Event.result w e ∈ tr → e = 0) →
      ∀ pre u c post, tr = pre ++ Event.result u c :: post → c ≠ 0 → False := by
    intro tr hz pre u c post h hc
    exact hc (hz u c (by rw [h]; simp))
  refine main_loop_induct g needed env (Weak needed)
    (fun r => ∀ pre u c post, r.trace = pre ++ Event.result u c :: post →
      c ≠ 0 → post = [Event.shutdown] ∧ r.outcome = Outcome.fatal Fault.CommandFailed)
    (fun s s1 h1 h2 => weak_next g needed env s s1 h1 h2) ?_ ?_ fuel s hw
  · intro s r h1 h2 pre u c post h3 hc
    rcases done_trace g needed env s r h2 with h4 | h4 | ⟨v, d, -, rfl⟩
    · rw [h4] at h3
      exact (hvac s.trace h1.results_zero pre u c post h3 hc).elim
    · rw [h4] at h3
      refine (hvac (s.trace ++ [Event.shutdown]) ?_ pre u c post h3 hc).elim
      intro w e hw2
      rcases List.mem_append.mp hw2 with h5 | h5
      · exact h1.results_zero w e h5
      · simp at h5
    · exact ⟨(failed_result_last s.trace pre post v u d c h1.results_zero hc h3).1, rfl⟩
  · intro s h1 pre u c post h3 hc
    exact (hvac s.trace h1.results_zero pre u c post h3 hc).elim

/-- When the staleness check answers "up to date" for every flagged node at every moment,
the main loop submits nothing. -/
theorem main_loop_no_submit (g : Graph) (needed : List Bool) (env : Env) (fuel : Nat)
    (s : State) (hr : ∀ v ∈ s.ready, flagged needed v)
    (hs : ∀ u, Event.submit u ∉ s.trace)
    (hup : ∀ t u, flagged needed u → should_execute g (env.fs t) u = .ok false) :
    ∀ u, Event.submit u ∉ (main_loop g needed env fuel s).trace := by
  refine main_loop_induct g needed env
    (fun s => (∀ v ∈ s.ready, flagged needed v) ∧ ∀ u, Event.submit u ∉ s.trace)
    (fun r => ∀ u, Event.submit u ∉ r.trace) ?_ ?_ (fun s h1 => h1.2) fuel s ⟨hr, hs⟩
  · intro s s1 ⟨h1, h2⟩ h3
    rcases step_next_cases g needed env s s1 h3 with
      ⟨u, rest, ws1, e1, -, e2, -, rfl⟩ | ⟨u, rest, e1, -, -, rfl⟩ | ⟨u, ws1, -, -, rfl⟩
    · rw [hup _ u (h1 u (by rw [e1]; exact List.mem_cons_self _ _))] at e2
      simp at e2
    · refine ⟨?_, ?_⟩
      · apply propagate_ready_flagged
        intro v hv
        exact h1 v (by rw [e1]; exact List.mem_cons_of_mem _ hv)
      · intro v hv
        rcases List.mem_append.mp hv with h4 | h4
        · exact h2 v h4
        · simp at h4
    · refine ⟨propagate_ready_flagged _ _ _ _ h1, ?_⟩
      intro v hv
      rcases List.mem_append.mp hv with h4 | h4
      · exact h2 v h4
      · simp at h4
  · intro s r ⟨h1, h2⟩ h3 u hu
    rcases done_trace g needed env s r h3 with h4 | h4 | ⟨v, c, -, rfl⟩
    · rw [h4] at hu; exact h2 u hu
    · rw [h4] at hu
      rcases List.mem_append.mp hu with h5 | h5
      · exact h2 u h5
      · simp at h5
    · rcases List.mem_append.mp hu with h5 | h5
      · exact h2 u h5
      · simp at h5

end exec

/-! ## The main loop: bookkeeping in a built graph -/

namespace exec

theorem countP_not_mem_append (l D : List Nat) (u : Nat) (hu : u ∉ D) :
    l.countP (fun p => decide (p ∉ D)) =
      l.countP (fun p => decide (p ∉ D ++ [u])) + l.count u := by
  induction l with
  | nil => simp
  | cons x l ih =>
    rw [List.countP_cons, List.countP_cons, count_cons_nat, ih]
    by_cases hxu : x = u
    · subst hxu
      simp [hu]; omega
    · by_cases hxd : x ∈ D
      · simp [hxd, hxu]
      · simp [hxd, hxu]; omega

theorem countP_eq_zero_mem (l D : List Nat)
    (h : l.countP (fun p => decide (p ∉ D)) = 0) : ∀ p ∈ l, p ∈ D := by
  intro p hp
  rw [List.countP_eq_zero] at h
  have := h p hp
  simpa using this

theorem on_cycle_parent (g : Graph) (v : Nat) (h : g.on_cycle v) :
    ∃ p ∈ g.get_parent_ids v, g.on_cycle p := by
  unfold Graph.on_cycle at h
  obtain ⟨p, h1, h2⟩ := Relation.TransGen.head'_iff.mp h
  exact ⟨p, h1, Relation.TransGen.tail' h2 h1⟩

theorem core_perm (g : Graph) (needed : List Bool) (indegree R F D R1 F1 : List Nat)
    (hc : Core g needed indegree R F D) (hp : (R1 ++ (F1 ++ D)).Perm (R ++ (F ++ D))) :
    Core g needed indegree R1 F1 D :=
  ⟨hc.indeg_len, hp.nodup_iff.mpr hc.nodup,
    fun v hv => hc.all_flagged v (hp.mem_iff.mp hv), hc.indeg_eq,
    fun v hv => by rw [hp.mem_iff]; exact hc.ready_iff v hv,
    fun v hv => hc.no_cycle v (hp.mem_iff.mp hv)⟩

/-- A node in the queue or with a worker has all its parents finished. -/
theorem core_parents_done (g : Graph) (needed : List Bool) (indegree R F D : List Nat)
    (hc : Core g needed indegree R F D) (v : Nat) (hv : v ∈ R ++ (F ++ D)) :
    ∀ p ∈ g.get_parent_ids v, p ∈ D := by
  have hf := hc.all_flagged v hv
  have h0 := (hc.ready_iff v hf).mp hv
  rw [hc.indeg_eq v hf] at h0
  exact countP_eq_zero_mem _ _ h0

/-- The node `u` leaves the queue or its worker and finishes with success; its children
are propagated onto the queue `R0`. -/
theorem core_complete (g : Graph) (needed : List Bool) (hs : Setting g needed)
    (indegree R F D R0 F1 : List Nat) (u : Nat) (hc : Core g needed indegree R F D)
    (hp : (u :: (R0 ++ (F1 ++ D))).Perm (R ++ (F ++ D))) :
    Core g needed (propagate needed (g.get_child_ids u) indegree R0).1
      (propagate needed (g.get_child_ids u) indegree R0).2 F1 (D ++ [u]) := by
  have hnd0 : (u :: (R0 ++ (F1 ++ D))).Nodup := hp.nodup_iff.mpr hc.nodup
  have huL : u ∈ R ++ (F ++ D) := hp.mem_iff.mp (List.mem_cons_self _ _)
  have huD : u ∉ D := by
    intro h
    exact (List.nodup_cons.mp hnd0).1 (by simp [h])
  have hcnt : ∀ v, flagged needed v →
      (g.get_child_ids u).count v ≤ indegree.getD v 0 ∧ indegree.getD v 0 < 2 ^ 32 := by
    intro v hv
    rw [hc.indeg_eq v hv, hs.symm u v,
      countP_not_mem_append (g.get_parent_ids v) D u huD]
    refine ⟨by omega, ?_⟩
    have h1 := hs.parents_lt v
    have h2 := countP_not_mem_append (g.get_parent_ids v) D u huD
    have h3 : (g.get_parent_ids v).countP (fun p => decide (p ∉ D)) ≤
        (g.get_parent_ids v).length := List.countP_le_length _
    omega
  obtain ⟨p1, p2, new, p3, p4, p5⟩ :=
    propagate_spec needed (g.get_child_ids u) indegree R0 hc.indeg_len hcnt
  have hnewL : ∀ v, v ∈ new → v ∉ R ++ (F ++ D) := by
    intro v hv hvL
    obtain ⟨h1, h2, h3⟩ := (p5 v).mp hv
    have := (hc.ready_iff v h1).mp hvL
    omega
  have hperm : ((propagate needed (g.get_child_ids u) indegree R0).2 ++
      (F1 ++ (D ++ [u]))).Perm (new ++ (R ++ (F ++ D))) := by
    rw [p3]
    refine List.Perm.trans ?_ (List.Perm.append_left new hp)
    rw [List.perm_iff_count]
    intro a
    simp only [List.count_append, List.count_cons, List.count_nil]
    omega
  have hmem : ∀ v, v ∈ (propagate needed (g.get_child_ids u) indegree R0).2 ++
      (F1 ++ (D ++ [u])) ↔ v ∈ new ∨ v ∈ R ++ (F ++ D) := by
    intro v
    rw [hperm.mem_iff, List.mem_append]
  have hval : ∀ v, flagged needed v →
      (propagate needed (g.get_child_ids u) indegree R0).1.getD v 0 =
        (g.get_parent_ids v).countP (fun p => decide (p ∉ D ++ [u])) := by
    intro v hv
    rw [p2 v, if_pos hv, hc.indeg_eq v hv, hs.symm u v,
      countP_not_mem_append (g.get_parent_ids v) D u huD]
    omega
  refine ⟨by rw [p1]; exact hc.indeg_len, ?_, ?_, hval, ?_, ?_⟩
  · rw [hperm.nodup_iff, List.nodup_append]
    exact ⟨p4, hc.nodup, fun v h1 h2 => hnewL v h1 h2⟩
  · intro v hv
    rcases (hmem v).mp hv with h | h
    · exact ((p5 v).mp h).1
    · exact hc.all_flagged v h
  · intro v hv
    rw [hmem v, p2 v, if_pos hv]
    obtain ⟨h1, -⟩ := hcnt v hv
    constructor
    · rintro (h | h)
      · have := ((p5 v).mp h).2.2
        omega
      · have := (hc.ready_iff v hv).mp h
        omega
    · intro h
      by_cases hz : (g.get_child_ids u).count v = 0
      · right
        exact (hc.ready_iff v hv).mpr (by omega)
      · left
        exact (p5 v).mpr ⟨hv, by omega, by omega⟩
  · intro v hv hcyc
    rcases (hmem v).mp hv with h | h
    · obtain ⟨h1, h2, h3⟩ := (p5 v).mp h
      obtain ⟨p, hp1, hp2⟩ := on_cycle_parent g v hcyc
      have hz : (propagate needed (g.get_child_ids u) indegree R0).1.getD v 0 = 0 := by
        rw [p2 v, if_pos h1]; omega
      rw [hval v h1] at hz
      have hpD := countP_eq_zero_mem _ _ hz p hp1
      rcases List.mem_append.mp hpD with h4 | h4
      · exact hc.no_cycle p (by simp [h4]) hp2
      · simp only [List.mem_singleton] at h4
        exact hc.no_cycle u huL (h4 ▸ hp2)
    · exact hc.no_cycle v h hcyc

/-- The bookkeeping holds when the main loop starts. -/
theorem core_initial (g : Graph) (needed : List Bool) (hs : Setting g needed) :
    Core g needed (compute_indegree g needed (List.range g.size) (List.replicate g.size 0))
      (initial_ready g.size needed
        (compute_indegree g needed (List.range g.size) (List.replicate g.size 0))) [] [] := by
  obtain ⟨h1, h2⟩ := initial_indegree g needed hs
  have hmem : ∀ v, v ∈ initial_ready g.size needed
      (compute_indegree g needed (List.range g.size) (List.replicate g.size 0)) ↔
      flagged needed v ∧
      (compute_indegree g needed (List.range g.size) (List.replicate g.size 0)).getD v 0 = 0 := by
    intro v
    unfold initial_ready
    rw [List.mem_filter, List.mem_range]
    simp only [Bool.and_eq_true, beq_iff_eq]
    constructor
    · rintro ⟨-, h3, h4⟩; exact ⟨h3, h4⟩
    · rintro ⟨h3, h4⟩
      have := flagged_lt needed v h3
      rw [hs.needed_len] at this
      exact ⟨this, h3, h4⟩
  refine ⟨by rw [h1, hs.needed_len], ?_, ?_, ?_, ?_, ?_⟩
  · simp only [List.append_nil]
    exact (List.nodup_range _).filter _
  · intro v hv
    simp only [List.append_nil] at hv
    exact ((hmem v).mp hv).1
  · intro v hv
    rw [h2 v hv]
    simp
  · intro v hv
    simp only [List.append_nil]
    rw [hmem v]
    exact ⟨fun h => h.2, fun h => ⟨hv, h⟩⟩
  · intro v hv hcyc
    simp only [List.append_nil] at hv
    obtain ⟨h3, h4⟩ := (hmem v).mp hv
    rw [h2 v h3] at h4
    obtain ⟨p, hp, -⟩ := on_cycle_parent g v hcyc
    rw [List.length_eq_zero] at h4
    rw [h4] at hp
    simp at hp

end exec

/-! ## The main loop: the invariant -/

namespace exec

theorem completed_append (tr tr2 : List Event) :
    completed (tr ++ tr2) = completed tr ++ completed tr2 := by
  induction tr with
  | nil => rfl
  | cons e tr ih =>
    cases e with
    | submit u => simpa [completed] using ih
    | skip u => simp [completed, ih]
    | result u c =>
      by_cases hc : c = 0
      · simp [completed, hc, ih]
      · simp [completed, hc, ih]
    | shutdown => simpa [completed] using ih

theorem mem_completed (tr : List Event) (u : Nat) :
    u ∈ completed tr ↔ Event.skip u ∈ tr ∨ Event.result u 0 ∈ tr := by
  induction tr with
  | nil => simp [completed]
  | cons e tr ih =>
    cases e with
    | submit v => simpa [completed] using ih
    | skip v =>
      simp only [completed, List.mem_cons, ih, Event.skip.injEq]
      simp only [reduceCtorEq, false_or]
      tauto
    | result v c =>
      by_cases hc : c = 0
      · subst hc
        simp only [completed, if_true, List.mem_cons, ih, Event.result.injEq, and_true]
        simp only [reduceCtorEq, false_or]
        tauto
      · simp only [completed, hc, if_false, ih, List.mem_cons, Event.result.injEq]
        simp only [reduceCtorEq, false_or]
        constructor
        · rintro (h | h)
          · exact Or.inl h
          · exact Or.inr (Or.inr h)
        · rintro (h | ⟨-, h⟩ | h)
          · exact Or.inl h
          · exact absurd h.symm hc
          · exact Or.inr h
    | shutdown => simpa [completed] using ih

theorem dep_ordered_snoc (g : Graph) (tr : List Event) (e : Event) (h : dep_ordered g tr)
    (he : ∀ v, e = Event.submit v → ∀ p ∈ g.get_parent_ids v,
      Event.skip p ∈ tr ∨ (Event.submit p ∈ tr ∧ Event.result p 0 ∈ tr)) :
    dep_ordered g (tr ++ [e]) := by
  intro pre post v hdec p hp
  rcases List.append_eq_append_iff.mp hdec with ⟨a, h1, h2⟩ | ⟨b, h1, h2⟩
  · cases a with
    | nil =>
      simp only [List.nil_append, List.cons.injEq] at h2
      simp only [List.append_nil] at h1
      rw [h1]
      exact he v h2.1 p hp
    | cons y a => simp at h2
  · cases b with
    | nil =>
      simp only [List.nil_append, List.cons.injEq] at h2
      simp only [List.append_nil] at h1
      rw [← h1]
      exact he v h2.1.symm p hp
    | cons y b =>
      simp only [List.cons_append, List.cons.injEq] at h2
      rw [← h2.1] at h1
      exact h pre b v h1 p hp

theorem dep_ordered_nil (g : Graph) : dep_ordered g [] := by
  intro pre post v h
  simp at h

theorem inv_parents_done (g : Graph) (needed : List Bool) (n_workers : Nat) (s : State)
    (hi : Inv g needed n_workers s) (v : Nat)
    (hv : v ∈ s.ready ++ (ProcessPool.inflight s.workers ++ completed s.trace)) :
    ∀ p ∈ g.get_parent_ids v,
      Event.skip p ∈ s.trace ∨ (Event.submit p ∈ s.trace ∧ Event.result p 0 ∈ s.trace) := by
  intro p hp
  have := core_parents_done g needed _ _ _ _ hi.core v hv p hp
  rcases (mem_completed _ _).mp this with h | h
  · exact Or.inl h
  · exact Or.inr ⟨hi.answered p 0 h, h⟩

/-- The invariant is kept by every transition that continues the main loop. -/
theorem inv_next (g : Graph) (needed : List Bool) (hs : Setting g needed) (n_workers : Nat)
    (env : Env) (s s1 : State) (hi : Inv g needed n_workers s)
    (h : step g needed env s = .next s1) : Inv g needed n_workers s1 := by
  have hw := weak_next g needed env s s1 hi.weak h
  rcases step_next_cases g needed env s s1 h with
    ⟨u, rest, ws1, e1, e2, -, e3, rfl⟩ | ⟨u, rest, e1, -, -, rfl⟩ | ⟨u, ws1, e1, e2, rfl⟩
  · obtain ⟨ws2, f1, f2, f3⟩ := ProcessPool.submit_spec s.workers u e2
    rw [e3, Option.some.injEq] at f1
    subst f1
    have hcore := hi.core
    rw [e1] at hcore
    have hcomp : completed (s.trace ++ [Event.submit u]) = completed s.trace := by
      rw [completed_append]; simp [completed]
    have huL : u ∈ s.ready ++ (ProcessPool.inflight s.workers ++ completed s.trace) := by
      rw [e1]; simp
    refine ⟨?_, hw, by rw [f3]; exact hi.workers_len, ?_, ?_, ?_, ?_, ?_, ?_⟩
    · simp only [hcomp]
      refine core_perm g needed _ _ _ _ _ _ hcore ?_
      rw [List.perm_iff_count]
      intro a
      have := List.perm_iff_count.mp f2 a
      simp only [List.count_append, List.count_cons] at this ⊢
      omega
    · simp only [f2.length_eq, List.length_cons, hi.running_eq]
    · simp only [hcomp, f2.length_eq, List.length_cons, List.length_append,
        List.length_singleton, List.length_nil]
      have := hi.trace_len
      omega
    · intro v hv
      simp only [hcomp]
      rcases List.mem_append.mp hv with h1 | h1
      · rcases hi.submitted v h1 with h2 | h2
        · exact Or.inl (f2.mem_iff.mpr (List.mem_cons_of_mem _ h2))
        · exact Or.inr h2
      · simp only [List.mem_singleton, Event.submit.injEq] at h1
        exact Or.inl (f2.mem_iff.mpr (by rw [h1]; exact List.mem_cons_self _ _))
    · intro v c hv
      rcases List.mem_append.mp hv with h1 | h1
      · exact List.mem_append_left _ (hi.answered v c h1)
      · simp at h1
    · intro v hv
      rcases List.mem_cons.mp (f2.mem_iff.mp hv) with h1 | h1
      · rw [h1]; simp
      · exact List.mem_append_left _ (hi.inflight_sub v h1)
    · refine dep_ordered_snoc g _ _ hi.dep_order ?_
      intro v hv p hp
      simp only [Event.submit.injEq] at hv
      subst hv
      exact inv_parents_done g needed n_workers s hi u huL p hp
  · have hcomp : completed (s.trace ++ [Event.skip u]) = completed s.trace ++ [u] := by
      rw [completed_append]; simp [completed]
    refine ⟨?_, hw, hi.workers_len, hi.running_eq, ?_, ?_, ?_, ?_, ?_⟩
    · simp only [hcomp]
      refine core_complete g needed hs _ _ _ _ rest _ u hi.core ?_
      rw [e1]
      exact List.Perm.refl _
    · simp only [hcomp, List.length_append, List.length_singleton, List.length_cons, List.length_nil]
      have := hi.trace_len
      omega
    · intro v hv
      simp only [hcomp]
      rcases List.mem_append.mp hv with h1 | h1
      · rcases hi.submitted v h1 with h2 | h2
        · exact Or.inl h2
        · exact Or.inr (List.mem_append_left _ h2)
      · simp at h1
    · intro v c hv
      rcases List.mem_append.mp hv with h1 | h1
      · exact List.mem_append_left _ (hi.answered v c h1)
      · simp at h1
    · intro v hv
      exact List.mem_append_left _ (hi.inflight_sub v hv)
    · refine dep_ordered_snoc g _ _ hi.dep_order ?_
      intro v hv
      simp at hv
  · obtain ⟨-, f1, f2, f3⟩ := ProcessPool.wait_result_some _ _ _ _ _ _ e2
    have hcomp : completed (s.trace ++ [Event.result u 0]) = completed s.trace ++ [u] := by
      rw [completed_append]; simp [completed]
    have hlen : (ProcessPool.inflight ws1).length + 1 =
        (ProcessPool.inflight s.workers).length := by
      rw [f2.length_eq, List.length_erase_of_mem f1]
      have := List.length_pos_of_mem f1
      omega
    refine ⟨?_, hw, by rw [f3]; exact hi.workers_len, ?_, ?_, ?_, ?_, ?_, ?_⟩
    · simp only [hcomp]
      refine core_complete g needed hs _ _ _ _ s.ready _ u hi.core ?_
      rw [List.perm_iff_count]
      intro a
      have h1 := List.perm_iff_count.mp f2 a
      have h2 := List.perm_iff_count.mp (List.perm_cons_erase f1) a
      simp only [List.count_append, List.count_cons] at h1 h2 ⊢
      omega
    · simp only
      have := hi.running_eq
      omega
    · simp only [hcomp, List.length_append, List.length_singleton, List.length_cons, List.length_nil]
      have := hi.trace_len
      omega
    · intro v hv
      simp only [hcomp]
      rcases List.mem_append.mp hv with h1 | h1
      · rcases hi.submitted v h1 with h2 | h2
        · by_cases hvu : v = u
          · right; rw [hvu]; simp
          · left
            exact f2.mem_iff.mpr ((List.mem_erase_of_ne hvu).mpr h2)
        · exact Or.inr (List.mem_append_left _ h2)
      · simp at h1
    · intro v c hv
      rcases List.mem_append.mp hv with h1 | h1
      · exact List.mem_append_left _ (hi.answered v c h1)
      · simp only [List.mem_singleton, Event.result.injEq] at h1
        rw [h1.1]
        exact List.mem_append_left _ (hi.inflight_sub u f1)
    · intro v hv
      exact List.mem_append_left _
        (hi.inflight_sub v (List.mem_of_mem_erase (f2.mem_iff.mp hv)))
    · refine dep_ordered_snoc g _ _ hi.dep_order ?_
      intro v hv
      simp at hv

theorem inv_initial (g : Graph) (needed : List Bool) (hs : Setting g needed) (n_workers : Nat) :
    Inv g needed n_workers
      ⟨compute_indegree g needed (List.range g.size) (List.replicate g.size 0),
       initial_ready g.size needed
         (compute_indegree g needed (List.range g.size) (List.replicate g.size 0)),
       0, List.replicate n_workers none, []⟩ := by
  refine ⟨?_, weak_initial _ _ _ _, by simp, ?_, ?_, ?_, ?_, ?_, dep_ordered_nil g⟩
  · simp only [ProcessPool.inflight_replicate, completed]
    exact core_initial g needed hs
  · simp [ProcessPool.inflight_replicate]
  · simp
  · intro u hu; simp at hu
  · intro u c hu; simp at hu
  · intro u hu
    simp [ProcessPool.inflight_replicate] at hu

theorem inv_trace_le (g : Graph) (needed : List Bool) (hs : Setting g needed) (n_workers : Nat)
    (s : State) (hi : Inv g needed n_workers s) : s.trace.length ≤ 2 * g.size := by
  have h1 := length_le_of_nodup_lt _ g.size hi.core.nodup
    (fun v hv => by
      have := flagged_lt needed v (hi.core.all_flagged v hv)
      rw [hs.needed_len] at this
      exact this)
  have h2 := hi.trace_len
  simp only [List.length_append] at h1
  omega

theorem next_trace_length (g : Graph) (needed : List Bool) (env : Env) (s s1 : State)
    (h : step g needed env s = .next s1) : s1.trace.length = s.trace.length + 1 := by
  rcases step_next_cases g needed env s s1 h with
    ⟨_, _, _, -, -, -, -, rfl⟩ | ⟨_, _, -, -, -, rfl⟩ | ⟨_, _, -, -, rfl⟩ <;> simp

/-- With at least one worker, the main loop started in a state that satisfies the invariant
ends within the fuel, either at the shutdown after the last pass, in a state that satisfies
the invariant, or at a failed answer received in such a state. -/
theorem main_loop_ends (g : Graph) (needed : List Bool) (hs : Setting g needed)
    (n_workers : Nat) (hw : 0 < n_workers) (env : Env) (fuel : Nat) (s : State)
    (hi : Inv g needed n_workers s) (hf : 2 * g.size < fuel + s.trace.length) :
    ∃ s1, Inv g needed n_workers s1 ∧
      ((s1.ready = [] ∧ s1.running = 0 ∧
        main_loop g needed env fuel s = finish g.size needed s1) ∨
      (∃ u c, c ≠ 0 ∧ u ∈ ProcessPool.inflight s1.workers ∧
        main_loop g needed env fuel s =
          ⟨s1.trace ++ [Event.result u c, Event.shutdown],
            Outcome.fatal Fault.CommandFailed⟩)) := by
  induction fuel generalizing s with
  | zero =>
    have := inv_trace_le g needed hs n_workers s hi
    omega
  | succ fuel ih =>
    simp only [main_loop]
    cases hstep : step g needed env s with
    | next s1 =>
      simp only
      have h1 := next_trace_length g needed env s s1 hstep
      exact ih s1 (inv_next g needed hs n_workers env s s1 hi hstep) (by omega)
    | done r =>
      simp only
      refine ⟨s, hi, ?_⟩
      rcases step_done_cases g needed env s r hstep with
        ⟨u, rest, e, -, -, h1, -⟩ | ⟨u, rest, -, h1, h2, -⟩ | ⟨-, h1, h2, -⟩ | ⟨h1, h2, h3⟩ |
        ⟨h1, -, h2, -⟩ | ⟨u, c, ws1, -, -, h1, h2, h3⟩
      · obtain ⟨b, hb⟩ := should_execute_ok g (env.fs s.trace.length) u
        rw [hb] at h1
        simp at h1
      · obtain ⟨ws1, f1, -, -⟩ := ProcessPool.submit_spec s.workers u h1
        rw [f1] at h2
        simp at h2
      · have f1 := ProcessPool.can_accept_false s.workers h1
        have f2 := hi.running_eq
        have f3 := hi.workers_len
        omega
      · exact Or.inl ⟨h1, h2, h3⟩
      · have f1 := ProcessPool.wait_result_none _ _ _ h2
        have f2 := hi.running_eq
        rw [f1] at f2
        simp only [List.length_nil] at f2
        exact absurd f2 h1
      · obtain ⟨-, f1, -, -⟩ := ProcessPool.wait_result_some _ _ _ _ _ _ h1
        exact Or.inr ⟨u, c, h2, f1, h3⟩

end exec

/-! ## The scheduler on a built graph -/

namespace exec

theorem run_eq (fuel : Nat) (g : Graph) (start : Str) (n_workers : Nat) (env : Env)
    (needed : List Bool) (hs : g.get_id start ≠ npos)
    (hn : compute_needed g (g.get_id start) = some needed) :
    Scheduler.run_upto fuel g start n_workers env =
      main_loop g needed env fuel
        ⟨compute_indegree g needed (List.range g.size) (List.replicate g.size 0),
         initial_ready g.size needed
           (compute_indegree g needed (List.range g.size) (List.replicate g.size 0)),
         0, List.replicate n_workers none, []⟩ := by
  unfold Scheduler.run_upto
  simp only [hs, if_false, hn]

theorem run_unknown (fuel : Nat) (g : Graph) (start : Str) (n_workers : Nat) (env : Env)
    (hs : g.get_id start = npos) :
    Scheduler.run_upto fuel g start n_workers env =
      ⟨[], Outcome.fatal Fault.UnknownTarget⟩ := by
  unfold Scheduler.run_upto
  simp only [hs, if_true]

theorem build_get_id_lt (parsed : parse.Result) (g : Graph) (h : Graph.build parsed = .ok g)
    (start : Str) (hs : g.get_id start ≠ npos) : g.get_id start < g.size := by
  unfold Graph.get_id at hs ⊢
  cases hf : IdMap.find g.m_id_map start with
  | none => rw [hf] at hs; exact absurd rfl hs
  | some id =>
    simp only
    exact (build_id_map parsed g h).2.2 (start, id) (find_some_mem _ _ _ hf)

theorem get_parent_ids_length (g : Graph) (hdeg : ∀ l ∈ g.m_reverse_adj, l.length < 2 ^ 32)
    (v : Nat) : (g.get_parent_ids v).length < 2 ^ 32 := by
  unfold Graph.get_parent_ids
  rw [List.getD_eq_getElem?_getD]
  cases h : g.m_reverse_adj[v]? with
  | none => simp
  | some l => exact hdeg l (List.getElem?_mem h)

/-- In a built graph with a known start target the three passes before the main loop
succeed; the flags are those of the ancestors of the target. -/
theorem build_setting (parsed : parse.Result) (g : Graph) (h : Graph.build parsed = .ok g)
    (hdeg : ∀ l ∈ g.m_reverse_adj, l.length < 2 ^ 32) (start : Str)
    (hs : g.get_id start ≠ npos) :
    ∃ needed, compute_needed g (g.get_id start) = some needed ∧ Setting g needed ∧
      ∀ v, flagged needed v ↔ g.ancestor (g.get_id start) v := by
  obtain ⟨-, -, -, -, -, -, -, hB⟩ := build_shape parsed g h
  obtain ⟨needed, h1, h2, h3⟩ := compute_needed_spec g (g.get_id start) hB
    (build_get_id_lt parsed g h start hs)
  refine ⟨needed, h1, ⟨h2, ?_, build_count_symm parsed g h, get_parent_ids_length g hdeg⟩, h3⟩
  intro v p hv hp
  exact (h3 p).mpr (Relation.ReflTransGen.tail ((h3 v).mp hv) hp)

theorem ancestor_eq_of_no_parents (g : Graph) (a w : Nat) (h : g.get_parent_ids a = [])
    (hw : g.ancestor a w) : w = a := by
  induction hw with
  | refl => rfl
  | tail _ hstep ih =>
    rw [ih] at hstep
    unfold Graph.parent_rel at hstep
    rw [h] at hstep
    simp at hstep

theorem not_on_cycle_of_no_parents (g : Graph) (v : Nat) (h : g.get_parent_ids v = []) :
    ¬ g.on_cycle v := by
  intro hc
  obtain ⟨p, hp, -⟩ := on_cycle_parent g v hc
  rw [h] at hp
  simp at hp

theorem get_parent_ids_npos (parsed : parse.Result) (g : Graph)
    (h : Graph.build parsed = .ok g) : g.get_parent_ids npos = [] := by
  obtain ⟨-, -, hrev, -, -, hlt, -, -⟩ := build_shape parsed g h
  unfold Graph.get_parent_ids
  rw [List.getD_eq_getElem?_getD, List.getElem?_eq_none (by rw [hrev]; unfold npos; omega)]
  rfl

/-- Dependency order holds for the events of the main loop started in a state that
satisfies the invariant. -/
theorem main_loop_dep_ordered (g : Graph) (needed : List Bool) (hs : Setting g needed)
    (n_workers : Nat) (env : Env) (fuel : Nat) (s : State) (hi : Inv g needed n_workers s) :
    dep_ordered g (main_loop g needed env fuel s).trace := by
  refine main_loop_induct g needed env (Inv g needed n_workers)
    (fun r => dep_ordered g r.trace)
    (fun s s1 h1 h2 => inv_next g needed hs n_workers env s s1 h1 h2) ?_
    (fun s h1 => h1.dep_order) fuel s hi
  intro s r h1 h2
  rcases done_trace g needed env s r h2 with h3 | h3 | ⟨u, c, -, rfl⟩
  · rw [h3]; exact h1.dep_order
  · rw [h3]
    exact dep_ordered_snoc g _ _ h1.dep_order (fun v hv => by simp at hv)
  · have e1 : s.trace ++ [Event.result u c, Event.shutdown] =
        (s.trace ++ [Event.result u c]) ++ [Event.shutdown] := by simp
    simp only [e1]
    exact dep_ordered_snoc g _ _
      (dep_ordered_snoc g _ _ h1.dep_order (fun v hv => by simp at hv))
      (fun v hv => by simp at hv)

/-- No child of a node whose answer is a failure has been submitted. -/
theorem main_loop_failed_children (g : Graph) (needed : List Bool) (hs : Setting g needed)
    (n_workers : Nat) (env : Env) (fuel : Nat) (s : State) (hi : Inv g needed n_workers s) :
    ∀ pre u c post, (main_loop g needed env fuel s).trace = pre ++ Event.result u c :: post →
      c ≠ 0 → ∀ v ∈ g.get_child_ids u,
        Event.submit v ∉ (main_loop g needed env fuel s).trace := by
  have hvac : ∀ (tr : List Event), (∀ w e, Event.result w e ∈ tr → e = 0) →
      ∀ pre u c post, tr = pre ++ Event.result u c :: post → c ≠ 0 → False := by
    intro tr hz pre u c post h hc
    exact hc (hz u c (by rw [h]; simp))
  refine main_loop_induct g needed env (Inv g needed n_workers)
    (fun r => ∀ pre u c post, r.trace = pre ++ Event.result u c :: post →
      c ≠ 0 → ∀ v ∈ g.get_child_ids u, Event.submit v ∉ r.trace)
    (fun s s1 h1 h2 => inv_next g needed hs n_workers env s s1 h1 h2) ?_ ?_ fuel s hi
  · intro s r h1 h2 pre u c post h3 hc v hv hsub
    rcases step_done_cases g needed env s r h2 with
      ⟨_, _, _, -, -, -, rfl⟩ | ⟨_, _, -, -, -, rfl⟩ | ⟨-, -, -, rfl⟩ | ⟨-, -, rfl⟩ |
      ⟨-, -, -, rfl⟩ | ⟨u2, c2, ws1, -, -, e1, e2, rfl⟩
    · exact hvac s.trace h1.weak.results_zero pre u c post h3 hc
    · exact hvac s.trace h1.weak.results_zero pre u c post h3 hc
    · exact hvac s.trace h1.weak.results_zero pre u c post h3 hc
    · rw [finish_trace] at h3
      refine hvac (s.trace ++ [Event.shutdown]) ?_ pre u c post h3 hc
      intro w e hw2
      rcases List.mem_append.mp hw2 with h5 | h5
      · exact h1.weak.results_zero w e h5
      · simp at h5
    · exact hvac s.trace h1.weak.results_zero pre u c post h3 hc
    · obtain ⟨-, -, huu⟩ := failed_result_last s.trace pre post u2 u c2 c
        h1.weak.results_zero hc h3
      subst huu
      obtain ⟨-, f1, -, -⟩ := ProcessPool.wait_result_some _ _ _ _ _ _ e1
      have hsub2 : Event.submit v ∈ s.trace := by
        rcases List.mem_append.mp hsub with h5 | h5
        · exact h5
        · simp at h5
      have hvL : v ∈ s.ready ++ (ProcessPool.inflight s.workers ++ completed s.trace) := by
        rcases h1.submitted v hsub2 with h5 | h5
        · simp [h5]
        · simp [h5]
      have hup : u ∈ g.get_parent_ids v := by
        rw [← List.count_pos_iff, ← hs.symm u v, List.count_pos_iff]
        exact hv
      have huD := core_parents_done g needed _ _ _ _ h1.core v hvL u hup
      have hnd := h1.core.nodup
      rw [List.nodup_append] at hnd
      have hnd2 := hnd.2.1
      rw [List.nodup_append] at hnd2
      exact hnd2.2.2 f1 huD
  · intro s h1 pre u c post h3 hc
    exact (hvac s.trace h1.weak.results_zero pre u c post h3 hc).elim

/-- In a state at which the loop has ended, a flagged node whose parents are all free of
cycles has finished. -/
theorem finished_of_acyclic (g : Graph) (needed : List Bool) (hs : Setting g needed)
    (indegree D : List Nat) (hc : Core g needed indegree [] [] D)
    (hacyc : ∀ v, flagged needed v → ¬ g.on_cycle v) :
    ∀ v, flagged needed v → v ∈ D := by
  by_contra hne
  push_neg at hne
  obtain ⟨v0, hv0, hv0D⟩ := hne
  let α := {v : Nat // flagged needed v}
  have hfin : Finite α := by
    apply Finite.of_injective (fun a : α =>
      (⟨a.1, flagged_lt needed a.1 a.2⟩ : Fin needed.length))
    intro a b hab
    simp only [Fin.mk.injEq] at hab
    exact Subtype.ext hab
  let r : α → α → Prop := fun a b => Relation.TransGen g.parent_rel b.1 a.1
  haveI : IsTrans α r := ⟨fun a b c hab hbc => Relation.TransGen.trans hbc hab⟩
  haveI : IsIrrefl α r := ⟨fun a ha => hacyc a.1 a.2 ha⟩
  have hwf : WellFounded r := Finite.wellFounded_of_trans_of_irrefl r
  obtain ⟨m, hm, hmin⟩ := hwf.has_min {a : α | a.1 ∉ D} ⟨⟨v0, hv0⟩, hv0D⟩
  have hmL : m.1 ∉ ([] : List Nat) ++ ([] ++ D) := by simpa using hm
  have hind : indegree.getD m.1 0 ≠ 0 := fun h => hmL ((hc.ready_iff m.1 m.2).mpr h)
  rw [hc.indeg_eq m.1 m.2] at hind
  have hpos : 0 < (g.get_parent_ids m.1).countP (fun p => decide (p ∉ D)) := by omega
  obtain ⟨p, hp1, hp2⟩ := List.countP_pos_iff.mp hpos
  have hpD : p ∉ D := by simpa using hp2
  exact hmin ⟨p, hs.closed m.1 p m.2 hp1⟩ hpD (Relation.TransGen.single hp1)

theorem finish_success (n : Nat) (needed : List Bool) (s : State)
    (h : ∀ v, flagged needed v → s.indegree.getD v 0 = 0) :
    finish n needed s = ⟨s.trace ++ [Event.shutdown], Outcome.success⟩ := by
  unfold finish
  rw [if_neg]
  intro hany
  rw [List.any_eq_true] at hany
  obtain ⟨i, -, hi⟩ := hany
  simp only [Bool.and_eq_true, bne_iff_ne, ne_eq] at hi
  exact hi.2 (h i hi.1)

theorem finish_cycle (n : Nat) (needed : List Bool) (s : State) (w : Nat) (hn : needed.length = n)
    (hw : flagged needed w) (hd : s.indegree.getD w 0 ≠ 0) :
    finish n needed s = ⟨s.trace ++ [Event.shutdown], Outcome.fatal Fault.CycleDetected⟩ := by
  unfold finish
  rw [if_pos]
  rw [List.any_eq_true]
  refine ⟨w, List.mem_range.mpr (hn ▸ flagged_lt needed w hw), ?_⟩
  simp only [Bool.and_eq_true, bne_iff_ne, ne_eq]
  exact ⟨hw, hd⟩

end exec

/-! ## Properties of the scheduler, and instances -/

namespace exec

/-- C1, instance: the diamond of scenario S2, its id map traversed in reverse order. -/
theorem cache_round_trip_witness :
    ∃ bytes g2, diamond_graph.serialize diamond_graph.m_id_map.reverse [0, 1, 2, 3] = .ok bytes ∧
      Graph.deserialize (some bytes) = .ok g2 ∧
      g2.m_node_store = diamond_graph.m_node_store ∧
      g2.m_adjgraph = diamond_graph.m_adjgraph ∧
      g2.m_reverse_adj = diamond_graph.m_reverse_adj ∧ g2.m_names = diamond_graph.m_names ∧
      g2.m_id_map.Perm diamond_graph.m_id_map ∧
      (∀ name, g2.get_id name = diamond_graph.get_id name) ∧
      g2.m_phony.Perm diamond_graph.m_phony ∧
      (∀ id, g2.is_phony id = diamond_graph.is_phony id) :=
  cache_round_trip diamond diamond_graph (by decide) (by decide)
    diamond_graph.m_id_map.reverse [0, 1, 2, 3] (List.reverse_perm _) (by decide)

/-- C2, instance: in the diamond, `b` is a child of `d` and `d` a parent of `b`. -/
theorem build_adjacency_symmetry_witness :
    (1 ∈ diamond_graph.get_child_ids 0 ↔ 0 ∈ diamond_graph.get_parent_ids 1) ∧
    (diamond_graph.get_child_ids 0).count 1 = (diamond_graph.get_parent_ids 1).count 0 :=
  build_adjacency_symmetry diamond diamond_graph (by decide) 0 1

/-- C3, instance: the fourth rule of the diamond, `a: b c`. -/
theorem build_positional_ids_witness :
    diamond_graph.get_id [97] = 3 ∧ diamond_graph.get_name_ref 3 = [97] ∧
    diamond_graph.get_command_ref 3 = [[116], [117]] ∧
    diamond_graph.get_parent_ids 3 = [[98], [99]].map diamond_graph.get_id :=
  build_positional_ids diamond diamond_graph (by decide) 3
    ⟨[97], [[98], [99]], [[116], [117]]⟩ (by decide)

/-- C4, instance: the diamond is valid input, so a graph is returned. -/
theorem build_fails_exactly_on_invalid_input_witness :
    diamond.rules.length < 2 ^ 32 ∧ ∃ g, Graph.build diamond = .ok g :=
  ⟨by decide, (build_fails_exactly_on_invalid_input diamond (by decide)).2.2.2.mpr
    ⟨by decide, by decide, by decide⟩⟩

/-- C5. Dispatch is restricted to the needed set: for every graph, start target, number of
workers, file system history and sequence of worker answers, and however long the run is
observed, a node id that `Scheduler::run` passes to `pool.submit` is an ancestor
(inclusive, by parent steps) of the start target. -/
theorem dispatch_within_needed (fuel : Nat) (g : Graph) (start : Str) (n_workers : Nat)
    (env : Env) (u : Nat)
    (h : Event.submit u ∈ (Scheduler.run_upto fuel g start n_workers env).trace) :
    g.ancestor (g.get_id start) u := by
  rcases run_cases fuel g start n_workers env with h1 | ⟨needed, -, hn, hrun⟩
  · rw [h1] at h; simp at h
  · rw [hrun] at h
    exact compute_needed_sound g _ needed hn u
      (main_loop_submit_flagged g needed env _ _ (weak_initial _ _ _ _) u h)

/-- C5, instance: in the diamond built for target `a`, `d` is submitted and is an ancestor
of `a`. -/
theorem dispatch_within_needed_witness :
    diamond_graph.ancestor (diamond_graph.get_id [97]) 0 :=
  dispatch_within_needed 9 diamond_graph [97] 2 (quiet_env no_files (fun _ => 0)) 0
    (by decide)

/-- Dependency order, on runs in which every submitted node has a command (its task
frame is then answered with a result frame that carries its id; a task frame without
commands is not answered at all): in a run on a graph returned by
`Graph::build` (parent lists shorter than `2^32`, the range of the indegree counters),
however long it is observed, at the moment a node `v` is passed to `pool.submit` every
parent `p` of `v` (each of them is in the needed set) has been skipped as up to date, or
has been submitted and has had its result frame received with exit code `0`. -/
theorem dependency_order (parsed : parse.Result) (g : Graph) (h : Graph.build parsed = .ok g)
    (hdeg : ∀ l ∈ g.m_reverse_adj, l.length < 2 ^ 32) (fuel : Nat) (start : Str)
    (n_workers : Nat) (env : Env)
    (_hcmd : ∀ w, Event.submit w ∈ (Scheduler.run_upto fuel g start n_workers env).trace →
      (g.get_command_ref w).length % 2 ^ 32 ≠ 0)
    (pre post : List Event) (v : Nat)
    (htr : (Scheduler.run_upto fuel g start n_workers env).trace =
      pre ++ Event.submit v :: post)
    (p : Nat) (hp : p ∈ g.get_parent_ids v) :
    Event.skip p ∈ pre ∨ (Event.submit p ∈ pre ∧ Event.result p 0 ∈ pre) := by
  by_cases hs : g.get_id start = npos
  · rw [run_unknown fuel g start n_workers env hs] at htr
    simp at htr
  · obtain ⟨needed, hn, hset, -⟩ := build_setting parsed g h hdeg start hs
    rw [run_eq fuel g start n_workers env needed hs hn] at htr
    exact main_loop_dep_ordered g needed hset n_workers env _ _
      (inv_initial g needed hset n_workers) pre post v htr p hp

/-- Dependency order in the diamond, every node of which has a command: when `b` is
submitted its parent `d` has been submitted and has answered with exit code `0`. -/
theorem dependency_order_witness :
    Event.skip 0 ∈ [Event.submit 0, Event.result 0 0] ∨
    (Event.submit 0 ∈ [Event.submit 0, Event.result 0 0] ∧
      Event.result 0 0 ∈ [Event.submit 0, Event.result 0 0]) :=
  dependency_order diamond diamond_graph (by decide) (by decide) 9 [97] 2
    (quiet_env no_files (fun _ => 0))
    (fun w hw => by
      have hrun : (Scheduler.run_upto 9 diamond_graph [97] 2
          (quiet_env no_files (fun _ => 0))).trace =
          [Event.submit 0, Event.result 0 0, Event.submit 1, Event.submit 2,
            Event.result 1 0, Event.result 2 0, Event.submit 3, Event.result 3 0,
            Event.shutdown] := by decide
      rw [hrun] at hw
      simp only [List.mem_cons, Event.submit.injEq, reduceCtorEq, false_or, or_false,
        List.mem_singleton, List.not_mem_nil] at hw
      rcases hw with rfl | rfl | rfl | rfl <;> decide)
    [Event.submit 0, Event.result 0 0]
    [Event.submit 2, Event.result 1 0, Event.result 2 0, Event.submit 3, Event.result 3 0,
      Event.shutdown] 1 (by decide) 0 (by decide)

/-- C7, as stated, fails, in two ways. In the graph of the single phony rule `a:` every
needed node is phony (so each of them "is phony or is up to date"), and yet the run for
target `a` submits node `0`. In the graph of `s:` and `o: s` with no file at all, no needed
node is phony and none has a parent with a newer file, and yet the run for `o` submits
node `0`, whose file is missing. -/
theorem phony_or_missing_is_dispatched :
    ((∀ u, one_phony_graph.ancestor (one_phony_graph.get_id [97]) u →
      one_phony_graph.is_phony u = true ∨ up_to_date one_phony_graph no_files u) ∧
    Event.submit 0 ∈
      (Scheduler.run one_phony_graph [97] 1 (quiet_env no_files (fun _ => 0))).trace) ∧
    ((∀ u, copy_graph.ancestor (copy_graph.get_id [111]) u →
      ∀ p ∈ copy_graph.get_parent_ids u, ∀ t tp,
        no_files (copy_graph.get_name_ref u) = some t →
        no_files (copy_graph.get_name_ref p) = some tp → tp ≤ t) ∧
    Event.submit 0 ∈
      (Scheduler.run copy_graph [111] 1 (quiet_env no_files (fun _ => 0))).trace) := by
  refine ⟨⟨?_, by decide⟩, ⟨?_, by decide⟩⟩
  · intro u hu
    have h0 : one_phony_graph.get_id [97] = 0 := by decide
    rw [h0] at hu
    rw [ancestor_eq_of_no_parents one_phony_graph 0 u (by decide) hu]
    exact Or.inl (by decide)
  · intro u _ p _ t tp ht
    simp [no_files] at ht

/-- C7, amended. For every graph, start target and file system history: if every needed
node is not phony, has a file, and has no parent whose file has a strictly greater
last-write time, then `Scheduler::run`, however long it is observed, dispatches no
commands (`pool.submit` is never called). -/
theorem up_to_date_dispatches_nothing (fuel : Nat) (g : Graph) (start : Str) (n_workers : Nat)
    (env : Env)
    (h : ∀ t u, g.ancestor (g.get_id start) u →
      g.is_phony u = false ∧ up_to_date g (env.fs t) u) :
    ∀ u, Event.submit u ∉ (Scheduler.run_upto fuel g start n_workers env).trace := by
  intro u hu
  rcases run_cases fuel g start n_workers env with h1 | ⟨needed, -, hn, hrun⟩
  · rw [h1] at hu; simp at hu
  · rw [hrun] at hu
    refine main_loop_no_submit g needed env _ _ (initial_ready_flagged _ _ _) (by simp) ?_ u hu
    intro t v hv
    obtain ⟨h2, h3⟩ := h t v (compute_needed_sound g _ needed hn v hv)
    exact should_execute_up_to_date g (env.fs t) v h2 h3

/-- The hypothesis of the amended C7 for `o: s` with both files present and `s` the older
one: no node is phony and every node is up to date. -/
theorem copy_graph_up_to_date (t u : Nat) :
    copy_graph.is_phony u = false ∧
    up_to_date copy_graph ((quiet_env old_source (fun _ => 0)).fs t) u := by
  refine ⟨by simp [Graph.is_phony, copy_graph], ?_⟩
  match u with
  | 0 =>
    refine ⟨1, rfl, ?_⟩
    intro p hp
    simp [Graph.get_parent_ids, copy_graph] at hp
  | 1 =>
    refine ⟨2, rfl, ?_⟩
    intro p hp tp htp
    have hp0 : p = 0 := by simpa [Graph.get_parent_ids, copy_graph] using hp
    subst hp0
    have : tp = 1 := by
      simpa [quiet_env, old_source, Graph.get_name_ref, copy_graph] using htp.symm
    omega
  | n + 2 =>
    refine ⟨2, by simp [quiet_env, old_source, Graph.get_name_ref, copy_graph], ?_⟩
    intro p hp
    simp [Graph.get_parent_ids, copy_graph] at hp

/-- C7 amended, instance: `o: s` with both files present and `s` the older one; the run for
`o` submits neither `s` nor `o`, and ends with success. -/
theorem up_to_date_dispatches_nothing_witness :
    (Event.submit 0 ∉
      (Scheduler.run_upto 5 copy_graph [111] 2 (quiet_env old_source (fun _ => 0))).trace ∧
    Event.submit 1 ∉
      (Scheduler.run_upto 5 copy_graph [111] 2 (quiet_env old_source (fun _ => 0))).trace) ∧
    (Scheduler.run_upto 5 copy_graph [111] 2 (quiet_env old_source (fun _ => 0))).outcome =
      Outcome.success :=
  ⟨⟨up_to_date_dispatches_nothing 5 copy_graph [111] 2 (quiet_env old_source (fun _ => 0))
      (fun t u _ => copy_graph_up_to_date t u) 0,
    up_to_date_dispatches_nothing 5 copy_graph [111] 2 (quiet_env old_source (fun _ => 0))
      (fun t u _ => copy_graph_up_to_date t u) 1⟩, by decide⟩

/-- Failure stops the run, on runs in which every submitted node has a command (every
worker is then still in its loop when the pool is shut down; a worker that was given a
task without commands has ended): once `pool.wait_result` has returned a frame with a
non-zero exit code, nothing follows but the shutdown of the pool (so no further `pool.submit`), and the
run fails with `CommandFailed`; and in a graph returned by `Graph::build` (parent lists
shorter than `2^32`) no child of the failed node is submitted at any time of the run. -/
theorem failure_stops_run (fuel : Nat) (g : Graph) (start : Str) (n_workers : Nat) (env : Env)
    (_hcmd : ∀ w, Event.submit w ∈ (Scheduler.run_upto fuel g start n_workers env).trace →
      (g.get_command_ref w).length % 2 ^ 32 ≠ 0)
    (pre post : List Event) (u : Nat) (c : Int)
    (htr : (Scheduler.run_upto fuel g start n_workers env).trace =
      pre ++ Event.result u c :: post)
    (hc : c ≠ 0) :
    post = [Event.shutdown] ∧
    (Scheduler.run_upto fuel g start n_workers env).outcome =
      Outcome.fatal Fault.CommandFailed ∧
    ((∃ parsed, Graph.build parsed = .ok g) → (∀ l ∈ g.m_reverse_adj, l.length < 2 ^ 32) →
      ∀ v ∈ g.get_child_ids u,
        Event.submit v ∉ (Scheduler.run_upto fuel g start n_workers env).trace) := by
  rcases run_cases fuel g start n_workers env with h1 | ⟨needed, hs, hn, hrun⟩
  · rw [h1] at htr; simp at htr
  · have hlast := main_loop_failure_last g needed env fuel _
      (weak_initial needed g.size n_workers
        (compute_indegree g needed (List.range g.size) (List.replicate g.size 0)))
    rw [← hrun] at hlast
    obtain ⟨h1, h2⟩ := hlast pre u c post htr hc
    refine ⟨h1, h2, ?_⟩
    rintro ⟨parsed, hb⟩ hdeg v hv
    obtain ⟨needed2, hn2, hset, -⟩ := build_setting parsed g hb hdeg start hs
    rw [hn, Option.some.injEq] at hn2
    subst hn2
    have := main_loop_failed_children g needed hset n_workers env fuel _
      (inv_initial g needed hset n_workers)
    rw [← hrun] at this
    exact this pre u c post htr hc v hv

/-- Failure in scenario S5, where `a` and `b` have one command each: `a` fails with status
`1` and `b` is never submitted. -/
theorem failure_stops_run_witness :
    [Event.shutdown] = [Event.shutdown] ∧
    (Scheduler.run_upto 5 chain2_graph [98] 2 failing_env).outcome =
      Outcome.fatal Fault.CommandFailed ∧
    ((∃ parsed, Graph.build parsed = .ok chain2_graph) →
      (∀ l ∈ chain2_graph.m_reverse_adj, l.length < 2 ^ 32) →
      ∀ v ∈ chain2_graph.get_child_ids 0,
        Event.submit v ∉ (Scheduler.run_upto 5 chain2_graph [98] 2 failing_env).trace) :=
  failure_stops_run 5 chain2_graph [98] 2 failing_env
    (fun w hw => by
      have hrun : (Scheduler.run_upto 5 chain2_graph [98] 2 failing_env).trace =
          [Event.submit 0, Event.result 0 1, Event.shutdown] := by decide
      rw [hrun] at hw
      simp only [List.mem_cons, Event.submit.injEq, reduceCtorEq, false_or, or_false,
        List.mem_singleton, List.not_mem_nil] at hw
      rw [hw]
      decide)
    [Event.submit 0] [Event.shutdown] 0 1 (by decide) (by decide)

/-- A cycle among needed nodes is reported, on runs in which every submitted node has a
command (every worker is then still in its loop when the pool is shut down before the test
for a cycle; a worker that was given a task without commands has ended): in a graph
returned by `Graph::build` (parent lists shorter than `2^32`) whose needed subgraph, the ancestors
of the start target, contains a directed cycle, a run with at least one worker in which no
answer has a non-zero exit code ends with `CycleDetected`, and no node that lies on a
cycle is ever submitted. -/
theorem needed_cycle_detected (parsed : parse.Result) (g : Graph)
    (h : Graph.build parsed = .ok g) (hdeg : ∀ l ∈ g.m_reverse_adj, l.length < 2 ^ 32)
    (start : Str) (n_workers : Nat) (hw : 0 < n_workers) (env : Env)
    (hcyc : ∃ w, g.ancestor (g.get_id start) w ∧ g.on_cycle w)
    (_hcmd : ∀ w, Event.submit w ∈ (Scheduler.run g start n_workers env).trace →
      (g.get_command_ref w).length % 2 ^ 32 ≠ 0)
    (hok : ∀ u c, Event.result u c ∈ (Scheduler.run g start n_workers env).trace → c = 0) :
    (Scheduler.run g start n_workers env).outcome = Outcome.fatal Fault.CycleDetected ∧
    ∀ v, g.on_cycle v → Event.submit v ∉ (Scheduler.run g start n_workers env).trace := by
  obtain ⟨w, hw1, hw2⟩ := hcyc
  have hs : g.get_id start ≠ npos := by
    intro hnp
    rw [hnp] at hw1
    have := ancestor_eq_of_no_parents g npos w (get_parent_ids_npos parsed g h) hw1
    rw [this] at hw2
    exact not_on_cycle_of_no_parents g npos (get_parent_ids_npos parsed g h) hw2
  obtain ⟨needed, hn, hset, hflag⟩ := build_setting parsed g h hdeg start hs
  have hrun : Scheduler.run g start n_workers env = _ :=
    run_eq (2 * g.size + 1) g start n_workers env needed hs hn
  obtain ⟨s1, hi, hend⟩ := main_loop_ends g needed hset n_workers hw env (2 * g.size + 1) _
    (inv_initial g needed hset n_workers) (by simp)
  rw [← hrun] at hend
  rcases hend with ⟨hr, hrun0, hfin⟩ | ⟨u, c, hc, -, hfail⟩
  · have hwf : flagged needed w := (hflag w).mpr hw1
    have hwL : w ∉ s1.ready ++ (ProcessPool.inflight s1.workers ++ completed s1.trace) :=
      fun hmem => hi.core.no_cycle w hmem hw2
    have hind : s1.indegree.getD w 0 ≠ 0 := fun h0 => hwL ((hi.core.ready_iff w hwf).mpr h0)
    rw [finish_cycle g.size needed s1 w hset.needed_len hwf hind] at hfin
    rw [hfin]
    refine ⟨rfl, ?_⟩
    intro v hv hsub
    simp only [List.mem_append, List.mem_singleton, reduceCtorEq, or_false] at hsub
    rcases hi.submitted v hsub with h1 | h1
    · exact hi.core.no_cycle v (by simp [h1]) hv
    · exact hi.core.no_cycle v (by simp [h1]) hv
  · exfalso
    apply hc
    apply hok u c
    rw [hfail]
    simp

/-- The cycle of the rule `a: a` requested as `a` with one worker; nothing is submitted. -/
theorem needed_cycle_detected_witness :
    (Scheduler.run self_loop_graph [97] 1 (quiet_env no_files (fun _ => 0))).outcome =
      Outcome.fatal Fault.CycleDetected ∧
    ∀ v, self_loop_graph.on_cycle v → Event.submit v ∉
      (Scheduler.run self_loop_graph [97] 1 (quiet_env no_files (fun _ => 0))).trace :=
  needed_cycle_detected self_loop self_loop_graph (by decide) (by decide) [97] 1 (by decide)
    (quiet_env no_files (fun _ => 0))
    ⟨0, Relation.ReflTransGen.refl,
      Relation.TransGen.single (show 0 ∈ self_loop_graph.get_parent_ids 0 by decide)⟩
    (fun w hw => by
      have hrun : (Scheduler.run self_loop_graph [97] 1
          (quiet_env no_files (fun _ => 0))).trace = [Event.shutdown] := by decide
      rw [hrun] at hw
      simp at hw)
    (fun u c hu => by
      have hrun : (Scheduler.run self_loop_graph [97] 1
          (quiet_env no_files (fun _ => 0))).trace = [Event.shutdown] := by decide
      rw [hrun] at hu
      simp at hu)

/-- Cycles outside the needed set are ignored, on runs in which every submitted node has a
command (every task is then answered; a task without commands is not): in a graph returned by `Graph::build` (parent lists shorter than `2^32`) with a
known start target whose needed subgraph has no directed cycle, a run with at least one
worker in which every answer has exit code `0` completes with success, whatever cycles
there are among the other nodes. -/
theorem unneeded_cycles_ignored (parsed : parse.Result) (g : Graph)
    (h : Graph.build parsed = .ok g) (hdeg : ∀ l ∈ g.m_reverse_adj, l.length < 2 ^ 32)
    (start : Str) (hs : g.get_id start ≠ npos) (n_workers : Nat) (hw : 0 < n_workers)
    (env : Env) (hacyc : ∀ v, g.ancestor (g.get_id start) v → ¬ g.on_cycle v)
    (_hcmd : ∀ w, Event.submit w ∈ (Scheduler.run g start n_workers env).trace →
      (g.get_command_ref w).length % 2 ^ 32 ≠ 0)
    (hok : ∀ u c, Event.result u c ∈ (Scheduler.run g start n_workers env).trace → c = 0) :
    (Scheduler.run g start n_workers env).outcome = Outcome.success := by
  obtain ⟨needed, hn, hset, hflag⟩ := build_setting parsed g h hdeg start hs
  have hrun : Scheduler.run g start n_workers env = _ :=
    run_eq (2 * g.size + 1) g start n_workers env needed hs hn
  obtain ⟨s1, hi, hend⟩ := main_loop_ends g needed hset n_workers hw env (2 * g.size + 1) _
    (inv_initial g needed hset n_workers) (by simp)
  rw [← hrun] at hend
  rcases hend with ⟨hr, hrun0, hfin⟩ | ⟨u, c, hc, -, hfail⟩
  · have hF : ProcessPool.inflight s1.workers = [] := by
      rw [← List.length_eq_zero, ← hi.running_eq]; exact hrun0
    have hcore := hi.core
    rw [hr, hF] at hcore
    have hall := finished_of_acyclic g needed hset _ _ hcore
      (fun v hv => hacyc v ((hflag v).mp hv))
    rw [finish_success g.size needed s1
      (fun v hv => (hcore.ready_iff v hv).mp (by simpa using hall v hv))] at hfin
    rw [hfin]
  · exfalso
    apply hc
    apply hok u c
    rw [hfail]
    simp

/-- The rules `a:` (one command), `x: y`, `y: x` requested as `a`: the cycle of `x` and `y`
is not needed and the run succeeds. -/
theorem unneeded_cycles_ignored_witness :
    (∃ v, side_cycle_graph.on_cycle v) ∧
    (Scheduler.run side_cycle_graph [97] 1 (quiet_env no_files (fun _ => 0))).outcome =
      Outcome.success :=
  ⟨⟨1, Relation.TransGen.tail
      (Relation.TransGen.single (show 2 ∈ side_cycle_graph.get_parent_ids 1 by decide))
      (show 1 ∈ side_cycle_graph.get_parent_ids 2 by decide)⟩,
    unneeded_cycles_ignored side_cycle side_cycle_graph (by decide) (by decide) [97]
      (by decide) 1 (by decide) (quiet_env no_files (fun _ => 0))
      (fun v hv => by
        have h0 : side_cycle_graph.get_id [97] = 0 := by decide
        rw [h0] at hv
        rw [ancestor_eq_of_no_parents side_cycle_graph 0 v (by decide) hv]
        exact not_on_cycle_of_no_parents side_cycle_graph 0 (by decide))
      (fun w hw => by
        have hrun : (Scheduler.run side_cycle_graph [97] 1
            (quiet_env no_files (fun _ => 0))).trace =
            [Event.submit 0, Event.result 0 0, Event.shutdown] := by decide
        rw [hrun] at hw
        simp only [List.mem_cons, Event.submit.injEq, reduceCtorEq, false_or, or_false,
          List.mem_singleton, List.not_mem_nil] at hw
        rw [hw]
        decide)
      (fun u c hu => by
        have hrun : (Scheduler.run side_cycle_graph [97] 1
            (quiet_env no_files (fun _ => 0))).trace =
            [Event.submit 0, Event.result 0 0, Event.shutdown] := by decide
        rw [hrun] at hu
        simp only [List.mem_cons, Event.result.injEq, reduceCtorEq, false_or, or_false,
          List.mem_singleton, List.not_mem_nil] at hu
        exact hu.2)⟩

end exec

/-! ## Every needed node is submitted once -/

namespace exec

theorem submissions_append (tr tr2 : List Event) :
    submissions (tr ++ tr2) = submissions tr ++ submissions tr2 := by
  induction tr with
  | nil => rfl
  | cons e tr ih => cases e <;> simp [submissions, ih]

theorem mem_submissions (tr : List Event) (u : Nat) :
    u ∈ submissions tr ↔ Event.submit u ∈ tr := by
  induction tr with
  | nil => simp [submissions]
  | cons e tr ih => cases e <;> simp [submissions, ih]

/-- While no node is skipped, the submitted nodes are the ones with a worker and the ones
that have finished. -/
theorem once_next (g : Graph) (needed : List Bool) (n_workers : Nat) (env : Env)
    (hph : ∀ u, flagged needed u → g.is_phony u = true) (s s1 : State)
    (hi : Inv g needed n_workers s)
    (ho : (submissions s.trace).Perm (ProcessPool.inflight s.workers ++ completed s.trace))
    (hstep : step g needed env s = .next s1) :
    (submissions s1.trace).Perm (ProcessPool.inflight s1.workers ++ completed s1.trace) := by
  rcases step_next_cases g needed env s s1 hstep with
    ⟨u, rest, ws1, -, hacc, -, hsub, rfl⟩ | ⟨u, rest, hr, -, hex, -⟩ |
    ⟨u, ws1, -, hwait, rfl⟩
  · obtain ⟨ws2, e1, e2, -⟩ := ProcessPool.submit_spec s.workers u hacc
    rw [hsub] at e1
    cases e1
    simp only [submissions_append, completed_append, submissions, completed,
      List.append_nil]
    refine List.Perm.trans (List.perm_append_comm) ?_
    refine List.Perm.trans ?_ (List.Perm.append_right _ e2.symm)
    exact List.Perm.cons u ho
  · exfalso
    have hf : flagged needed u := hi.weak.ready_flagged u (by rw [hr]; simp)
    rw [should_execute_phony g _ u (hph u hf)] at hex
    simp at hex
  · obtain ⟨-, hu, hperm, -⟩ := ProcessPool.wait_result_some _ _ _ _ _ _ hwait
    simp only [submissions_append, completed_append, submissions, completed,
      List.append_nil, if_true]
    refine List.Perm.trans ho ?_
    refine List.Perm.trans ?_
      (List.Perm.append_right _ hperm.symm)
    refine List.Perm.trans (List.Perm.append_right _ (List.perm_cons_erase hu)) ?_
    simp only [List.cons_append]
    rw [← List.append_assoc]
    exact (List.perm_append_singleton _ _).symm

end exec

namespace exec

/-- A main loop that ends with success and has skipped no node has submitted exactly the
nodes that have finished. -/
theorem main_loop_once (g : Graph) (needed : List Bool) (hs : Setting g needed)
    (n_workers : Nat) (env : Env) (hph : ∀ u, flagged needed u → g.is_phony u = true)
    (fuel : Nat) (s : State) (hi : Inv g needed n_workers s)
    (ho : (submissions s.trace).Perm (ProcessPool.inflight s.workers ++ completed s.trace)) :
    (main_loop g needed env fuel s).outcome = Outcome.success →
    (submissions (main_loop g needed env fuel s).trace).Perm
      (completed (main_loop g needed env fuel s).trace) := by
  refine main_loop_induct g needed env
    (fun s => Inv g needed n_workers s ∧
      (submissions s.trace).Perm (ProcessPool.inflight s.workers ++ completed s.trace))
    (fun r => r.outcome = Outcome.success → (submissions r.trace).Perm (completed r.trace))
    ?_ ?_ ?_ fuel s ⟨hi, ho⟩
  · intro s s1 hp hstep
    exact ⟨inv_next g needed hs n_workers env s s1 hp.1 hstep,
      once_next g needed n_workers env hph s s1 hp.1 hp.2 hstep⟩
  · intro s r hp hstep hout
    rcases step_done_cases g needed env s r hstep with
      ⟨u, rest, e, -, -, -, rfl⟩ | ⟨u, rest, -, -, -, rfl⟩ | ⟨-, -, -, rfl⟩ | ⟨-, h2, rfl⟩ |
      ⟨-, -, -, rfl⟩ | ⟨u, c, ws1, -, -, -, -, rfl⟩
    · cases hout
    · cases hout
    · cases hout
    · have hF : ProcessPool.inflight s.workers = [] := by
        rw [← List.length_eq_zero, ← hp.1.running_eq]; exact h2
      have ho1 := hp.2
      rw [hF] at ho1
      rw [finish_trace, submissions_append, completed_append]
      simpa [submissions, completed] using ho1
    · cases hout
    · cases hout
  · intro s _ hout
    cases hout

/-- Two lists without duplicates that have the same members have the same length. -/
theorem length_eq_of_same_members (l1 l2 : List Nat) (h1 : l1.Nodup) (h2 : l2.Nodup)
    (h : ∀ v, v ∈ l1 ↔ v ∈ l2) : l1.length = l2.length :=
  ((List.perm_ext_iff_of_nodup h1 h2).mpr h).length_eq

end exec

namespace exec

/-- In a graph whose parent lists hold smaller ids only, a parent step goes down. -/
theorem parent_lt_of_table (g : Graph)
    (h : ∀ i < g.m_reverse_adj.length, ∀ p ∈ g.m_reverse_adj.getD i [], p < i)
    (u p : Nat) (hp : p ∈ g.get_parent_ids u) : p < u := by
  unfold Graph.get_parent_ids at hp
  by_cases hu : u < g.m_reverse_adj.length
  · exact h u hu p hp
  · rw [List.getD_eq_getElem?_getD, List.getElem?_eq_none (by omega)] at hp
    simp at hp

theorem ancestor_le_of_table (g : Graph)
    (h : ∀ i < g.m_reverse_adj.length, ∀ p ∈ g.m_reverse_adj.getD i [], p < i)
    (a v : Nat) (hv : g.ancestor a v) : v ≤ a := by
  induction hv with
  | refl => exact Nat.le_refl _
  | tail _ hp ih => exact Nat.le_of_lt (Nat.lt_of_lt_of_le (parent_lt_of_table g h _ _ hp) ih)

theorem not_on_cycle_of_table (g : Graph)
    (h : ∀ i < g.m_reverse_adj.length, ∀ p ∈ g.m_reverse_adj.getD i [], p < i)
    (v : Nat) : ¬ g.on_cycle v := by
  have key : ∀ a b, Relation.TransGen g.parent_rel a b → b < a := by
    intro a b hab
    induction hab with
    | single hp => exact parent_lt_of_table g h _ _ hp
    | tail _ hp ih => exact Nat.lt_trans (parent_lt_of_table g h _ _ hp) ih
  intro hc
  exact Nat.lt_irrefl _ (key v v hc)

end exec

/-! ## Scenario S3 -/

namespace exec

/-- The dispatch loop on a node whose staleness check answers "up to date". -/
theorem step_skip (g : Graph) (needed : List Bool) (env : Env) (s : State) (u : Nat)
    (rest : List Nat) (hr : s.ready = u :: rest)
    (hc : ProcessPool.can_accept s.workers = true)
    (hx : should_execute g (env.fs s.trace.length) u = .ok false) :
    step g needed env s =
      .next ⟨(propagate needed (g.get_child_ids u) s.indegree rest).1,
        (propagate needed (g.get_child_ids u) s.indegree rest).2, s.running, s.workers,
        s.trace ++ [Event.skip u]⟩ := by
  unfold step
  rw [hr]
  simp only [hc, if_true, hx]

/-- The main loop ends when the queue is empty and no task is with a worker. -/
theorem step_finish (g : Graph) (needed : List Bool) (env : Env) (s : State)
    (hr : s.ready = []) (h0 : s.running = 0) :
    step g needed env s = .done (finish g.size needed s) := by
  unfold step
  rw [hr]
  simp only [h0, if_true]

theorem s3_run (n_workers : Nat) (hw : 0 < n_workers) (env : Env) (t_src t_out : Nat)
    (hsrc : ∀ k, env.fs k [115, 114, 99] = some t_src)
    (hout : ∀ k, env.fs k [111, 117, 116] = some t_out) (hle : t_src ≤ t_out) :
    Scheduler.run s3_graph [111, 117, 116] n_workers env =
      ⟨[Event.skip 1, Event.skip 0, Event.shutdown], Outcome.success⟩ := by
  have hrun := run_eq (2 * s3_graph.size + 1) s3_graph [111, 117, 116] n_workers env
    [true, true] (by decide) (by decide)
  have e1 : compute_indegree s3_graph [true, true] (List.range s3_graph.size)
      (List.replicate s3_graph.size 0) = [1, 0] := by decide
  have e2 : initial_ready s3_graph.size [true, true] [1, 0] = [1] := by decide
  have e3 : (2 * s3_graph.size + 1) = 5 := by decide
  rw [e1, e2, e3] at hrun
  obtain ⟨m, rfl⟩ : ∃ m, n_workers = m + 1 := ⟨n_workers - 1, by omega⟩
  have x1 : should_execute s3_graph (env.fs 0) 1 = .ok false :=
    should_execute_up_to_date s3_graph _ 1 (by decide)
      ⟨t_src, hsrc 0, fun p hp => by simp [Graph.get_parent_ids, s3_graph] at hp⟩
  have x0 : should_execute s3_graph (env.fs 1) 0 = .ok false :=
    should_execute_up_to_date s3_graph _ 0 (by decide)
      ⟨t_out, hout 1, fun p hp tp htp => by
        have hp1 : p = 1 := by simpa [Graph.get_parent_ids, s3_graph] using hp
        subst hp1
        have h2 := hsrc 1
        have : tp = t_src := by
          simpa [Graph.get_name_ref, s3_graph, h2] using htp.symm
        omega⟩
  have p1 : propagate [true, true] (s3_graph.get_child_ids 1) [1, 0] [] = ([0, 0], [0]) := by
    decide
  have p0 : propagate [true, true] (s3_graph.get_child_ids 0) [0, 0] [] = ([0, 0], []) := by
    decide
  have ca : ProcessPool.can_accept (List.replicate (m + 1) none) = true := by
    simp [List.replicate_succ, ProcessPool.can_accept]
  have hfin : ∀ tr, finish s3_graph.size [true, true]
      ⟨[0, 0], [], 0, List.replicate (m + 1) none, tr⟩ =
      ⟨tr ++ [Event.shutdown], Outcome.success⟩ := by
    intro tr
    refine finish_success _ _ _ ?_
    intro v _
    match v with
    | 0 => rfl
    | 1 => rfl
    | v + 2 => rfl
  have s1 := step_skip s3_graph [true, true] env
    ⟨[1, 0], [1], 0, List.replicate (m + 1) none, []⟩ 1 [] rfl ca x1
  have s2 := step_skip s3_graph [true, true] env
    ⟨[0, 0], [0], 0, List.replicate (m + 1) none, [Event.skip 1]⟩ 0 [] rfl ca x0
  have s3 := step_finish s3_graph [true, true] env
    ⟨[0, 0], [], 0, List.replicate (m + 1) none, [Event.skip 1, Event.skip 0]⟩ rfl rfl
  simp only [p1, List.nil_append] at s1
  simp only [p0, List.cons_append, List.nil_append] at s2
  rw [hfin] at s3
  rw [Scheduler.run, e3, hrun]
  show main_loop s3_graph [true, true] env (4 + 1) _ = _
  rw [main_loop, s1]
  show main_loop s3_graph [true, true] env (3 + 1) _ = _
  rw [main_loop, s2]
  show main_loop s3_graph [true, true] env (2 + 1) _ = _
  rw [main_loop, s3]
  rfl

end exec

/-! ## The bytes that the encoder writes -/

namespace serde

theorem serialize_string_inv (s : Str) (dest b : List Byte)
    (h : serialize_string s dest = .ok b) : b = dest ++ enc_string s := by
  unfold serialize_string at h
  split at h
  · cases h
  · cases h
    simp [enc_string, List.append_assoc]

theorem serialize_u32_inv (x : Nat) (dest b : List Byte)
    (h : serialize_u32 x dest = .ok b) : b = dest ++ serialize_value x := by
  unfold serialize_u32 at h
  cases h
  rfl

theorem serialize_elems_inv {α : Type} (f : α → List Byte → Except Fault (List Byte))
    (enc : α → List Byte) (hf : ∀ x dest b, f x dest = .ok b → b = dest ++ enc x)
    (v : List α) (dest b : List Byte) (h : serialize_elems f v dest = .ok b) :
    b = dest ++ (v.map enc).flatten := by
  induction v generalizing dest with
  | nil =>
    simp only [serialize_elems] at h
    cases h
    simp
  | cons x xs ih =>
    simp only [serialize_elems] at h
    cases hx : f x dest with
    | error e => rw [hx] at h; cases h
    | ok d1 =>
      rw [hx] at h
      have h1 := hf x dest d1 hx
      have h2 := ih d1 h
      rw [h2, h1]
      simp [List.append_assoc]

theorem serialize_vec_inv {α : Type} (f : α → List Byte → Except Fault (List Byte))
    (enc : α → List Byte) (hf : ∀ x dest b, f x dest = .ok b → b = dest ++ enc x)
    (v : List α) (dest b : List Byte) (h : serialize_vec f v dest = .ok b) :
    b = dest ++ enc_vec enc v := by
  unfold serialize_vec at h
  split at h
  · cases h
  · rw [serialize_elems_inv f enc hf v _ b h]
    simp [enc_vec, List.append_assoc]

theorem serialize_entry_inv (kv : Str × Nat) (dest b : List Byte)
    (h : serialize_entry kv dest = .ok b) : b = dest ++ enc_entry kv := by
  unfold serialize_entry at h
  cases hs : serialize_string kv.1 dest with
  | error e => rw [hs] at h; cases h
  | ok d1 =>
    rw [hs] at h
    cases h
    rw [serialize_string_inv _ _ _ hs]
    simp [enc_entry, List.append_assoc]

theorem serialize_map_inv (m : List (Str × Nat)) (dest b : List Byte)
    (h : serialize_map m dest = .ok b) : b = dest ++ enc_vec enc_entry m := by
  unfold serialize_map at h
  split at h
  · cases h
  · rw [serialize_elems_inv serialize_entry enc_entry serialize_entry_inv m _ b h]
    simp [enc_vec, List.append_assoc]

end serde

namespace exec

/-- Whatever `Graph::serialize` writes is the wire image of the graph. -/
theorem serialize_inv (g : Graph) (mo : IdMap) (so : List Nat) (bytes : List Byte)
    (h : g.serialize mo so = .ok bytes) : bytes = wire g mo so := by
  unfold Graph.serialize at h
  simp only at h
  cases h1 : serde.serialize_vec (serde.serialize_vec serde.serialize_string) g.m_node_store
      (serde.serialize_value GRAPH_SERDE_VERSION) with
  | error e => rw [h1] at h; cases h
  | ok b1 =>
    rw [h1] at h
    simp only at h
    cases h2 : serde.serialize_vec (serde.serialize_vec serde.serialize_u32) g.m_adjgraph b1 with
    | error e => rw [h2] at h; cases h
    | ok b2 =>
      rw [h2] at h
      simp only at h
      cases h3 : serde.serialize_vec (serde.serialize_vec serde.serialize_u32)
          g.m_reverse_adj b2 with
      | error e => rw [h3] at h; cases h
      | ok b3 =>
        rw [h3] at h
        simp only at h
        cases h4 : serde.serialize_map mo b3 with
        | error e => rw [h4] at h; cases h
        | ok b4 =>
          rw [h4] at h
          simp only at h
          cases h5 : serde.serialize_vec serde.serialize_u32 so b4 with
          | error e => rw [h5] at h; cases h
          | ok b5 =>
            rw [h5] at h
            simp only at h
            have hstr := serde.serialize_vec_inv serde.serialize_string serde.enc_string
              serde.serialize_string_inv
            have hu32 := serde.serialize_vec_inv serde.serialize_u32 serde.serialize_value
              serde.serialize_u32_inv
            have e1 := serde.serialize_vec_inv (serde.serialize_vec serde.serialize_string)
              (serde.enc_vec serde.enc_string) hstr _ _ _ h1
            have e2 := serde.serialize_vec_inv (serde.serialize_vec serde.serialize_u32)
              (serde.enc_vec serde.serialize_value) hu32 _ _ _ h2
            have e3 := serde.serialize_vec_inv (serde.serialize_vec serde.serialize_u32)
              (serde.enc_vec serde.serialize_value) hu32 _ _ _ h3
            have e4 := serde.serialize_map_inv _ _ _ h4
            have e5 := hu32 _ _ _ h5
            have e6 := hstr _ _ _ h
            rw [e6, e5, e4, e3, e2, e1]
            simp [wire, List.append_assoc]

end exec

namespace exec

/-- Bytes after the wire image of a graph are reported as a corrupt cache. -/
theorem deserialize_wire_extra (g : Graph) (mo : IdMap) (so : List Nat)
    (he : Encodable g mo so) (extra : List Byte) (hne : extra ≠ []) :
    Graph.deserialize (some (wire g mo so ++ extra)) = .error Fault.CacheCorrupt := by
  obtain ⟨hn, hcmds, hadj, hrev, hnames⟩ := he.fits
  unfold Graph.deserialize wire
  simp only [List.append_assoc, List.nil_append]
  rw [if_neg (by simp [serde.length_serialize_value]),
    serde.deserialize_value_serialize _ (by decide)]
  simp only
  rw [if_neg (by simp)]
  rw [serde.deserialize_vec_enc (serde.deserialize_vec serde.deserialize_string)
    (serde.enc_vec serde.enc_string) (fun c => c.length < 2 ^ 32 ∧ ∀ x ∈ c, x.length < 2 ^ 32)
    (fun c r hc => deserialize_strings_enc c r hc) g.m_node_store hn hcmds]
  simp only
  rw [serde.deserialize_vec_enc (serde.deserialize_vec serde.deserialize_value)
    (serde.enc_vec serde.serialize_value) (fun l => l.length < 2 ^ 32 ∧ ∀ x ∈ l, x < 2 ^ 32)
    (fun l r hl => deserialize_ids_enc l r hl) g.m_adjgraph (by rw [he.adj_len]; exact hn)
    (fun l hl => ⟨hadj l hl, he.adj_lt l hl⟩)]
  simp only
  rw [serde.deserialize_vec_enc (serde.deserialize_vec serde.deserialize_value)
    (serde.enc_vec serde.serialize_value) (fun l => l.length < 2 ^ 32 ∧ ∀ x ∈ l, x < 2 ^ 32)
    (fun l r hl => deserialize_ids_enc l r hl) g.m_reverse_adj (by rw [he.rev_len]; exact hn)
    (fun l hl => ⟨hrev l hl, he.rev_lt l hl⟩)]
  simp only
  rw [serde.deserialize_map_enc mo _ (by rw [he.map_len]; exact hn) he.map_good he.map_keys]
  simp only
  rw [deserialize_ids_enc so _ ⟨he.set_len, he.set_lt⟩]
  simp only
  rw [deserialize_strings_enc g.m_names _ ⟨by rw [he.names_len]; exact hn, hnames⟩]
  simp only [he.adj_len, he.rev_len, he.names_len, he.map_len, ne_eq, not_true_eq_false,
    or_self, if_false, hne, if_true, not_false_eq_true]

/-- A buffer that starts with a version other than `GRAPH_SERDE_VERSION` is refused. -/
theorem deserialize_other_version (n : Nat) (hn : n < 2 ^ 32) (h1 : n ≠ GRAPH_SERDE_VERSION)
    (rest : List Byte) :
    Graph.deserialize (some (serde.serialize_value n ++ rest)) =
      .error Fault.CacheVersionMismatch := by
  unfold Graph.deserialize
  simp only
  rw [if_neg (by simp [serde.length_serialize_value]),
    serde.deserialize_value_serialize _ hn]
  simp only
  rw [if_pos h1]

theorem wire_drop (g : Graph) (mo : IdMap) (so : List Nat) :
    wire g mo so = serde.serialize_value GRAPH_SERDE_VERSION ++ (wire g mo so).drop 4 := by
  simp [wire, serde.serialize_value]

end exec

namespace serde

theorem serialize_string_good (s : Str) (dest b : List Byte)
    (h : serialize_string s dest = .ok b) : s.length < 2 ^ 32 := by
  unfold serialize_string at h
  split at h
  · cases h
  · omega

theorem serialize_elems_good {α : Type} (f : α → List Byte → Except Fault (List Byte))
    (good : α → Prop) (hf : ∀ x dest b, f x dest = .ok b → good x)
    (v : List α) (dest b : List Byte) (h : serialize_elems f v dest = .ok b) :
    ∀ x ∈ v, good x := by
  induction v generalizing dest with
  | nil => simp
  | cons x xs ih =>
    simp only [serialize_elems] at h
    cases hx : f x dest with
    | error e => rw [hx] at h; cases h
    | ok d1 =>
      rw [hx] at h
      intro y hy
      rcases List.mem_cons.mp hy with rfl | hy
      · exact hf _ dest d1 hx
      · exact ih d1 h y hy

theorem serialize_vec_good {α : Type} (f : α → List Byte → Except Fault (List Byte))
    (good : α → Prop) (hf : ∀ x dest b, f x dest = .ok b → good x)
    (v : List α) (dest b : List Byte) (h : serialize_vec f v dest = .ok b) :
    v.length < 2 ^ 32 ∧ ∀ x ∈ v, good x := by
  unfold serialize_vec at h
  split at h
  · cases h
  · exact ⟨by omega, serialize_elems_good f good hf v _ b h⟩

theorem serialize_map_good (m : List (Str × Nat)) (dest b : List Byte)
    (h : serialize_map m dest = .ok b) :
    m.length < 2 ^ 32 ∧ ∀ kv ∈ m, kv.1.length < 2 ^ 32 := by
  unfold serialize_map at h
  split at h
  · cases h
  · refine ⟨by omega, serialize_elems_good serialize_entry (fun kv => kv.1.length < 2 ^ 32)
      ?_ m _ b h⟩
    intro kv dest b1 hkv
    unfold serialize_entry at hkv
    cases hs : serialize_string kv.1 dest with
    | error e => rw [hs] at hkv; cases hkv
    | ok d1 => exact serialize_string_good _ _ _ hs

end serde

namespace exec

/-- When `Graph::serialize` writes a cache file, every count and every string length fits
its `u32` field. -/
theorem serialize_counts_fit (g : Graph) (mo : IdMap) (so : List Nat) (bytes : List Byte)
    (h : g.serialize mo so = .ok bytes) :
    (g.m_node_store.length < 2 ^ 32 ∧
      ∀ cmds ∈ g.m_node_store, cmds.length < 2 ^ 32 ∧ ∀ c ∈ cmds, c.length < 2 ^ 32) ∧
    (g.m_adjgraph.length < 2 ^ 32 ∧ ∀ l ∈ g.m_adjgraph, l.length < 2 ^ 32) ∧
    (g.m_reverse_adj.length < 2 ^ 32 ∧ ∀ l ∈ g.m_reverse_adj, l.length < 2 ^ 32) ∧
    (mo.length < 2 ^ 32 ∧ ∀ kv ∈ mo, kv.1.length < 2 ^ 32) ∧
    so.length < 2 ^ 32 ∧
    (g.m_names.length < 2 ^ 32 ∧ ∀ s ∈ g.m_names, s.length < 2 ^ 32) := by
  unfold Graph.serialize at h
  simp only at h
  cases h1 : serde.serialize_vec (serde.serialize_vec serde.serialize_string) g.m_node_store
      (serde.serialize_value GRAPH_SERDE_VERSION) with
  | error e => rw [h1] at h; cases h
  | ok b1 =>
    rw [h1] at h
    simp only at h
    cases h2 : serde.serialize_vec (serde.serialize_vec serde.serialize_u32) g.m_adjgraph b1 with
    | error e => rw [h2] at h; cases h
    | ok b2 =>
      rw [h2] at h
      simp only at h
      cases h3 : serde.serialize_vec (serde.serialize_vec serde.serialize_u32)
          g.m_reverse_adj b2 with
      | error e => rw [h3] at h; cases h
      | ok b3 =>
        rw [h3] at h
        simp only at h
        cases h4 : serde.serialize_map mo b3 with
        | error e => rw [h4] at h; cases h
        | ok b4 =>
          rw [h4] at h
          simp only at h
          cases h5 : serde.serialize_vec serde.serialize_u32 so b4 with
          | error e => rw [h5] at h; cases h
          | ok b5 =>
            rw [h5] at h
            simp only at h
            have hstr := fun (v : List Str) d b =>
              serde.serialize_vec_good serde.serialize_string (fun c => c.length < 2 ^ 32)
                serde.serialize_string_good v d b
            have hu32 := fun (v : List Nat) d b =>
              serde.serialize_vec_good serde.serialize_u32 (fun _ => True)
                (fun _ _ _ _ => trivial) v d b
            refine ⟨serde.serialize_vec_good _ _ hstr _ _ _ h1, ?_, ?_,
              serde.serialize_map_good _ _ _ h4, (hu32 _ _ _ h5).1, hstr _ _ _ h⟩
            · have := serde.serialize_vec_good _ (fun l : List Nat => l.length < 2 ^ 32)
                (fun v d b hv => (hu32 v d b hv).1) _ _ _ h2
              exact this
            · have := serde.serialize_vec_good _ (fun l : List Nat => l.length < 2 ^ 32)
                (fun v d b hv => (hu32 v d b hv).1) _ _ _ h3
              exact this

end exec

/-! ## The worker loop -/

namespace exec

namespace ProcessPool

theorem read_u32_bytes (x : Nat) (hx : x < 2 ^ 32) (rest : List Byte) :
    read_u32 (u32_bytes x ++ rest) = some (x, rest) := by
  simp only [u32_bytes, serde.serialize_value, serde.byte, List.cons_append, List.nil_append,
    read_u32, Option.some.injEq, Prod.mk.injEq, and_true]
  omega

end ProcessPool

end exec

namespace exec

namespace ProcessPool

end ProcessPool

end exec

namespace exec

namespace ProcessPool

/-- A task frame without commands is the shutdown frame for the worker: the pass leaves
the loop and nothing is written. -/
theorem worker_pass_empty (system : Nat → Str → Int) (id : Nat) (hid : id < 2 ^ 32)
    (rest : List Byte) : worker_pass system (task_frame id [] ++ rest) = Pass.exit := by
  unfold worker_pass task_frame
  rw [if_neg (by simp [u32_bytes, serde.serialize_value])]
  simp only [List.map_nil, List.flatten_nil, List.append_nil, List.append_assoc,
    List.length_nil, read_u32_bytes id hid, read_u32_bytes 0 (by decide), if_true]

end ProcessPool

/-- The fatal errors after which `Scheduler::run` has called `pool.shutdown()`: a failed
command and a cycle. -/
theorem main_loop_shutdown (g : Graph) (needed : List Bool) (env : Env) (fuel : Nat)
    (s : State) :
    ((main_loop g needed env fuel s).outcome = Outcome.fatal Fault.CommandFailed ∨
      (main_loop g needed env fuel s).outcome = Outcome.fatal Fault.CycleDetected) →
    Event.shutdown ∈ (main_loop g needed env fuel s).trace := by
  refine main_loop_induct g needed env (fun _ => True)
    (fun r => (r.outcome = Outcome.fatal Fault.CommandFailed ∨
      r.outcome = Outcome.fatal Fault.CycleDetected) → Event.shutdown ∈ r.trace)
    (fun _ _ _ _ => trivial) ?_ ?_ fuel s trivial
  · intro s r _ hstep hout
    rcases step_done_cases g needed env s r hstep with
      ⟨u, rest, e, -, -, herr, rfl⟩ | ⟨u, rest, -, -, -, rfl⟩ | ⟨-, -, -, rfl⟩ | ⟨-, -, rfl⟩ |
      ⟨-, -, -, rfl⟩ | ⟨u, c, ws1, -, -, -, -, rfl⟩
    · obtain ⟨b, hb⟩ := should_execute_ok g (env.fs s.trace.length) u
      rw [hb] at herr
      cases herr
    · rcases hout with h | h <;> cases h
    · rcases hout with h | h <;> cases h
    · rw [finish_trace]
      simp
    · rcases hout with h | h <;> cases h
    · simp
  · intro s _ hout
    rcases hout with h | h <;> cases h

end exec

/-! ## What the decoder checks -/

namespace serde

theorem deserialize_value_err (p : List Byte) (e : Fault)
    (h : deserialize_value p = .error e) : e = Fault.ReadPastEnd := by
  unfold deserialize_value at h
  split at h
  · cases h
  · cases h; rfl

theorem deserialize_value_lt (p r : List Byte) (n : Nat)
    (h : deserialize_value p = .ok (n, r)) : n < 2 ^ 32 := by
  unfold deserialize_value at h
  split at h
  · rename_i b0 b1 b2 b3 rest
    simp only [Except.ok.injEq, Prod.mk.injEq] at h
    have h0 := b0.isLt
    have h1 := b1.isLt
    have h2 := b2.isLt
    have h3 := b3.isLt
    omega
  · cases h

theorem deserialize_string_err (p : List Byte) (e : Fault)
    (h : deserialize_string p = .error e) : e = Fault.ReadPastEnd := by
  unfold deserialize_string at h
  cases hv : deserialize_value p with
  | error e1 =>
    rw [hv] at h
    cases h
    exact deserialize_value_err p _ hv
  | ok r =>
    rw [hv] at h
    simp only at h
    split at h
    · cases h
    · cases h; rfl

theorem deserialize_elems_err {α : Type} (f : List Byte → Except Fault (α × List Byte))
    (hf : ∀ p e, f p = .error e → e = Fault.ReadPastEnd)
    (n : Nat) (acc : List α) (p : List Byte) (e : Fault)
    (h : deserialize_elems f n acc p = .error e) : e = Fault.ReadPastEnd := by
  induction n generalizing acc p with
  | zero => simp [deserialize_elems] at h
  | succ n ih =>
    simp only [deserialize_elems] at h
    cases hx : f p with
    | error e1 =>
      rw [hx] at h
      cases h
      exact hf p _ hx
    | ok r =>
      rw [hx] at h
      exact ih _ _ h

theorem deserialize_vec_err {α : Type} (f : List Byte → Except Fault (α × List Byte))
    (hf : ∀ p e, f p = .error e → e = Fault.ReadPastEnd)
    (p : List Byte) (e : Fault)
    (h : deserialize_vec f p = .error e) : e = Fault.ReadPastEnd := by
  unfold deserialize_vec at h
  cases hv : deserialize_value p with
  | error e1 =>
    rw [hv] at h
    cases h
    exact deserialize_value_err p _ hv
  | ok r =>
    rw [hv] at h
    exact deserialize_elems_err f hf _ _ _ e h

theorem deserialize_entries_err (n : Nat) (m : exec.IdMap) (p : List Byte) (e : Fault)
    (h : deserialize_entries n m p = .error e) : e = Fault.ReadPastEnd := by
  induction n generalizing m p with
  | zero => simp [deserialize_entries] at h
  | succ n ih =>
    simp only [deserialize_entries] at h
    cases hk : deserialize_string p with
    | error e1 =>
      rw [hk] at h
      cases h
      exact deserialize_string_err p _ hk
    | ok r =>
      rw [hk] at h
      simp only at h
      cases hv : deserialize_value r.2 with
      | error e1 =>
        rw [hv] at h
        cases h
        exact deserialize_value_err _ _ hv
      | ok r2 =>
        rw [hv] at h
        exact ih _ _ h

theorem deserialize_map_err (p : List Byte) (e : Fault)
    (h : deserialize_map p = .error e) : e = Fault.ReadPastEnd := by
  unfold deserialize_map at h
  cases hv : deserialize_value p with
  | error e1 =>
    rw [hv] at h
    cases h
    exact deserialize_value_err p _ hv
  | ok r =>
    rw [hv] at h
    exact deserialize_entries_err _ _ _ e h

theorem deserialize_elems_all {α : Type} (f : List Byte → Except Fault (α × List Byte))
    (good : α → Prop) (hf : ∀ p x r, f p = .ok (x, r) → good x)
    (n : Nat) (acc : List α) (p : List Byte) (v : List α) (r : List Byte)
    (h : deserialize_elems f n acc p = .ok (v, r)) (hacc : ∀ x ∈ acc, good x) :
    ∀ x ∈ v, good x := by
  induction n generalizing acc p with
  | zero =>
    simp only [deserialize_elems, Except.ok.injEq, Prod.mk.injEq] at h
    rw [← h.1]
    exact hacc
  | succ n ih =>
    simp only [deserialize_elems] at h
    cases hx : f p with
    | error e1 => rw [hx] at h; cases h
    | ok xr =>
      obtain ⟨x, r1⟩ := xr
      rw [hx] at h
      refine ih _ _ h ?_
      intro y hy
      rcases List.mem_append.mp hy with hy | hy
      · exact hacc y hy
      · rw [List.mem_singleton.mp hy]
        exact hf p x r1 hx

theorem deserialize_vec_all {α : Type} (f : List Byte → Except Fault (α × List Byte))
    (good : α → Prop) (hf : ∀ p x r, f p = .ok (x, r) → good x)
    (p : List Byte) (v : List α) (r : List Byte)
    (h : deserialize_vec f p = .ok (v, r)) : ∀ x ∈ v, good x := by
  unfold deserialize_vec at h
  cases hv : deserialize_value p with
  | error e1 => rw [hv] at h; cases h
  | ok nr =>
    rw [hv] at h
    exact deserialize_elems_all f good hf _ _ _ v r h (by simp)

end serde

namespace exec

/-- What a successful `Graph::deserialize` has read: the version `1`, the six fields one
after the other, the last one up to the end of the buffer, and tables of one size. -/
theorem deserialize_ok_fields (file : Option (List Byte)) (g : Graph)
    (h : Graph.deserialize file = .ok g) :
    ∃ buffer p0 p1 p2 p3 p4 p5 phony, file = some buffer ∧ buffer ≠ [] ∧
      serde.deserialize_value buffer = .ok (GRAPH_SERDE_VERSION, p0) ∧
      serde.deserialize_vec (serde.deserialize_vec serde.deserialize_string) p0 =
        .ok (g.m_node_store, p1) ∧
      serde.deserialize_vec (serde.deserialize_vec serde.deserialize_value) p1 =
        .ok (g.m_adjgraph, p2) ∧
      serde.deserialize_vec (serde.deserialize_vec serde.deserialize_value) p2 =
        .ok (g.m_reverse_adj, p3) ∧
      serde.deserialize_map p3 = .ok (g.m_id_map, p4) ∧
      serde.deserialize_vec serde.deserialize_value p4 = .ok (phony, p5) ∧
      serde.deserialize_vec serde.deserialize_string p5 = .ok (g.m_names, []) ∧
      g.m_phony = set_of_vec phony ∧
      g.m_adjgraph.length = g.size ∧ g.m_reverse_adj.length = g.size ∧
      g.m_names.length = g.size ∧ g.m_id_map.length = g.size := by
  unfold Graph.deserialize at h
  cases file with
  | none => cases h
  | some buffer =>
    simp only at h
    split at h
    · cases h
    · rename_i hlen
      cases h0 : serde.deserialize_value buffer with
      | error e => rw [h0] at h; cases h
      | ok r0 =>
        obtain ⟨version, p0⟩ := r0
        rw [h0] at h
        simp only at h
        split at h
        · cases h
        · rename_i hver
          cases h1 : serde.deserialize_vec (serde.deserialize_vec serde.deserialize_string)
              p0 with
          | error e => rw [h1] at h; cases h
          | ok r1 =>
            obtain ⟨node_store, p1⟩ := r1
            rw [h1] at h
            simp only at h
            cases h2 : serde.deserialize_vec (serde.deserialize_vec serde.deserialize_value)
                p1 with
            | error e => rw [h2] at h; cases h
            | ok r2 =>
              obtain ⟨adjgraph, p2⟩ := r2
              rw [h2] at h
              simp only at h
              cases h3 : serde.deserialize_vec
                  (serde.deserialize_vec serde.deserialize_value) p2 with
              | error e => rw [h3] at h; cases h
              | ok r3 =>
                obtain ⟨reverse_adj, p3⟩ := r3
                rw [h3] at h
                simp only at h
                cases h4 : serde.deserialize_map p3 with
                | error e => rw [h4] at h; cases h
                | ok r4 =>
                  obtain ⟨id_map, p4⟩ := r4
                  rw [h4] at h
                  simp only at h
                  cases h5 : serde.deserialize_vec serde.deserialize_value p4 with
                  | error e => rw [h5] at h; cases h
                  | ok r5 =>
                    obtain ⟨phony, p5⟩ := r5
                    rw [h5] at h
                    simp only at h
                    cases h6 : serde.deserialize_vec serde.deserialize_string p5 with
                    | error e => rw [h6] at h; cases h
                    | ok r6 =>
                      obtain ⟨names, p6⟩ := r6
                      rw [h6] at h
                      simp only at h
                      split at h
                      · cases h
                      · rename_i hsz
                        split at h
                        · cases h
                        · rename_i hp6
                          cases h
                          have hv : version = GRAPH_SERDE_VERSION := by
                            by_contra hne
                            exact hver hne
                          have hp : p6 = [] := by
                            by_contra hne
                            exact hp6 hne
                          subst hv hp
                          simp only [not_or, ne_eq, not_not] at hsz
                          exact ⟨buffer, p0, p1, p2, p3, p4, p5, phony, rfl,
                            fun hb => hlen (by rw [hb]; rfl), h0, h1, h2, h3, h4,
                            h5, h6, rfl, hsz.1, hsz.2.1, hsz.2.2.1, hsz.2.2.2⟩

/-- The only failures that `Graph::deserialize` reports for a cache file that exists are
four of its calls of `fatal`; a failure of the decoding functions is a read past the end
of the buffer. -/
theorem deserialize_error_cases (buffer : List Byte) (e : Fault)
    (h : Graph.deserialize (some buffer) = .error e) :
    e = Fault.CacheEmpty ∨ e = Fault.CacheVersionMismatch ∨
    e = Fault.SizeMismatch ∨ e = Fault.CacheCorrupt ∨ e = Fault.ReadPastEnd := by
  have hstr := serde.deserialize_vec_err serde.deserialize_string serde.deserialize_string_err
  have hu32 := serde.deserialize_vec_err serde.deserialize_value serde.deserialize_value_err
  unfold Graph.deserialize at h
  cases hfile : (some buffer : Option (List Byte)) with
  | none => cases hfile
  | some buffer1 =>
    cases hfile
    simp only at h
    split at h
    · cases h; exact Or.inl rfl
    · cases h0 : serde.deserialize_value buffer with
      | error e0 =>
        rw [h0] at h
        cases h
        simp [serde.deserialize_value_err _ _ h0]
      | ok r0 =>
        rw [h0] at h
        simp only at h
        split at h
        · cases h; simp
        · cases h1 : serde.deserialize_vec (serde.deserialize_vec serde.deserialize_string)
              r0.2 with
          | error e1 =>
            rw [h1] at h
            cases h
            simp [serde.deserialize_vec_err _ hstr _ _ h1]
          | ok r1 =>
            rw [h1] at h
            simp only at h
            cases h2 : serde.deserialize_vec (serde.deserialize_vec serde.deserialize_value)
                r1.2 with
            | error e2 =>
              rw [h2] at h
              cases h
              simp [serde.deserialize_vec_err _ hu32 _ _ h2]
            | ok r2 =>
              rw [h2] at h
              simp only at h
              cases h3 : serde.deserialize_vec
                  (serde.deserialize_vec serde.deserialize_value) r2.2 with
              | error e3 =>
                rw [h3] at h
                cases h
                simp [serde.deserialize_vec_err _ hu32 _ _ h3]
              | ok r3 =>
                rw [h3] at h
                simp only at h
                cases h4 : serde.deserialize_map r3.2 with
                | error e4 =>
                  rw [h4] at h
                  cases h
                  simp [serde.deserialize_map_err _ _ h4]
                | ok r4 =>
                  rw [h4] at h
                  simp only at h
                  cases h5 : serde.deserialize_vec serde.deserialize_value r4.2 with
                  | error e5 =>
                    rw [h5] at h
                    cases h
                    simp [hu32 _ _ h5]
                  | ok r5 =>
                    rw [h5] at h
                    simp only at h
                    cases h6 : serde.deserialize_vec serde.deserialize_string r5.2 with
                    | error e6 =>
                      rw [h6] at h
                      cases h
                      simp [hstr _ _ h6]
                    | ok r6 =>
                      rw [h6] at h
                      simp only at h
                      split at h
                      · cases h; simp
                      · split at h
                        · cases h; simp
                        · cases h

end exec

/-! ## Decoding a truncated cache file -/

namespace serde

theorem take_append_le {α : Type} (a b : List α) (k : Nat) (h : k ≤ a.length) :
    (a ++ b).take k = a.take k := by
  rw [List.take_append_eq_append_take, Nat.sub_eq_zero_of_le h]
  simp

theorem take_append_ge {α : Type} (a b : List α) (k : Nat) (h : a.length ≤ k) :
    (a ++ b).take k = a ++ b.take (k - a.length) := by
  rw [List.take_append_eq_append_take, List.take_of_length_le h]

/-- A scalar with fewer than four bytes left is read past the end. -/
theorem deserialize_value_short (p : List Byte) (h : p.length < 4) :
    deserialize_value p = .error Fault.ReadPastEnd := by
  unfold deserialize_value
  split
  · rename_i b0 b1 b2 b3 rest
    simp only [List.length_cons] at h
    omega
  · rfl

theorem cut_fails_value : cut_fails deserialize_value serialize_value (fun x => x < 2 ^ 32) := by
  intro x k _ hk
  apply deserialize_value_short
  rw [List.length_take]
  exact Nat.lt_of_le_of_lt (Nat.min_le_left _ _) (by simpa [length_serialize_value] using hk)

/-- A string whose length prefix exceeds the bytes that are left is read past the end. -/
theorem deserialize_string_short (n : Nat) (hn : n < 2 ^ 32) (rest : List Byte)
    (h : rest.length < n) :
    deserialize_string (serialize_value n ++ rest) = .error Fault.ReadPastEnd := by
  unfold deserialize_string
  rw [deserialize_value_serialize n hn]
  simp only
  rw [if_neg (by omega)]

theorem cut_fails_string :
    cut_fails deserialize_string enc_string (fun s => s.length < 2 ^ 32) := by
  intro s k hs hk
  unfold enc_string at hk ⊢
  rw [List.length_append, length_serialize_value] at hk
  by_cases h4 : k < 4
  · rw [take_append_le _ _ _ (by rw [length_serialize_value]; omega)]
    unfold deserialize_string
    rw [cut_fails_value s.length k hs (by rw [length_serialize_value]; exact h4)]
  · rw [take_append_ge _ _ _ (by rw [length_serialize_value]; omega), length_serialize_value]
    apply deserialize_string_short _ hs
    rw [List.length_take]
    omega

theorem length_enc_vec_pos {α : Type} (enc : α → List Byte) (v : List α) :
    0 < (enc_vec enc v).length := by
  simp [enc_vec, length_serialize_value]

theorem cut_fails_elems {α : Type} (d : List Byte → Except Fault (α × List Byte))
    (enc : α → List Byte) (good : α → Prop)
    (hd : ∀ x rest, good x → d (enc x ++ rest) = .ok (x, rest))
    (hc : cut_fails d enc good)
    (v : List α) (hv : ∀ x ∈ v, good x) (acc : List α) (k : Nat)
    (hk : k < ((v.map enc).flatten).length) :
    deserialize_elems d v.length acc (((v.map enc).flatten).take k) =
      .error Fault.ReadPastEnd := by
  induction v generalizing acc k with
  | nil => simp at hk
  | cons x xs ih =>
    have hx := hv x (List.mem_cons_self _ _)
    simp only [List.map_cons, List.flatten_cons, List.length_append] at hk
    simp only [List.map_cons, List.flatten_cons, List.length_cons, deserialize_elems]
    by_cases hlt : k < (enc x).length
    · rw [take_append_le _ _ _ (Nat.le_of_lt hlt), hc x k hx hlt]
    · rw [take_append_ge _ _ _ (by omega), hd x _ hx]
      simp only
      exact ih (fun y hy => hv y (List.mem_cons_of_mem _ hy)) _ _ (by omega)

theorem cut_fails_vec {α : Type} (d : List Byte → Except Fault (α × List Byte))
    (enc : α → List Byte) (good : α → Prop)
    (hd : ∀ x rest, good x → d (enc x ++ rest) = .ok (x, rest))
    (hc : cut_fails d enc good) :
    cut_fails (deserialize_vec d) (enc_vec enc)
      (fun v => v.length < 2 ^ 32 ∧ ∀ x ∈ v, good x) := by
  intro v k hv hk
  unfold enc_vec at hk ⊢
  rw [List.length_append, length_serialize_value] at hk
  unfold deserialize_vec
  by_cases h4 : k < 4
  · rw [take_append_le _ _ _ (by rw [length_serialize_value]; omega),
      cut_fails_value v.length k hv.1 (by rw [length_serialize_value]; exact h4)]
  · rw [take_append_ge _ _ _ (by rw [length_serialize_value]; omega), length_serialize_value,
      deserialize_value_serialize _ hv.1]
    simp only
    exact cut_fails_elems d enc good hd hc v hv.2 [] _ (by omega)

end serde

namespace serde

theorem length_enc_string (s : Str) : (enc_string s).length = 4 + s.length := by
  simp [enc_string, length_serialize_value]

theorem cut_fails_entries (es : exec.IdMap)
    (hgood : ∀ kv ∈ es, kv.1.length < 2 ^ 32 ∧ kv.2 < 2 ^ 32) (m : exec.IdMap) (k : Nat)
    (hk : k < ((es.map enc_entry).flatten).length) :
    deserialize_entries es.length m (((es.map enc_entry).flatten).take k) =
      .error Fault.ReadPastEnd := by
  induction es generalizing m k with
  | nil => simp at hk
  | cons kv es ih =>
    obtain ⟨key, val⟩ := kv
    obtain ⟨hkey, hval⟩ := hgood (key, val) (List.mem_cons_self _ _)
    simp only [List.map_cons, List.flatten_cons, List.length_append, enc_entry,
      length_serialize_value] at hk
    simp only [List.map_cons, List.flatten_cons, List.length_cons, deserialize_entries,
      enc_entry, List.append_assoc]
    by_cases h1 : k < (enc_string key).length
    · rw [take_append_le _ _ _ (Nat.le_of_lt h1), cut_fails_string key k hkey h1]
    · rw [take_append_ge _ _ _ (by omega), deserialize_string_enc key _ hkey]
      simp only
      by_cases h2 : k - (enc_string key).length < 4
      · rw [take_append_le _ _ _ (by rw [length_serialize_value]; omega),
          cut_fails_value val _ hval (by rw [length_serialize_value]; exact h2)]
      · rw [take_append_ge _ _ _ (by rw [length_serialize_value]; omega),
          length_serialize_value, deserialize_value_serialize _ hval]
        simp only
        exact ih (fun kv hkv => hgood kv (List.mem_cons_of_mem _ hkv)) _ _ (by omega)

theorem cut_fails_map (es : exec.IdMap) (hlen : es.length < 2 ^ 32)
    (hgood : ∀ kv ∈ es, kv.1.length < 2 ^ 32 ∧ kv.2 < 2 ^ 32) (k : Nat)
    (hk : k < (enc_vec enc_entry es).length) :
    deserialize_map ((enc_vec enc_entry es).take k) = .error Fault.ReadPastEnd := by
  unfold enc_vec at hk ⊢
  rw [List.length_append, length_serialize_value] at hk
  unfold deserialize_map
  by_cases h4 : k < 4
  · rw [take_append_le _ _ _ (by rw [length_serialize_value]; omega),
      cut_fails_value es.length k hlen (by rw [length_serialize_value]; exact h4)]
  · rw [take_append_ge _ _ _ (by rw [length_serialize_value]; omega), length_serialize_value,
      deserialize_value_serialize _ hlen]
    simp only
    exact cut_fails_entries es hgood [] _ (by omega)

end serde

namespace exec

/-- Decoding a cache file that has been cut short, at least one byte being left, goes past
the end of the buffer. -/
theorem deserialize_cut (g : Graph) (mo : IdMap) (so : List Nat) (he : Encodable g mo so)
    (k : Nat) (h0 : 0 < k) (hk : k < (wire g mo so).length) :
    Graph.deserialize (some ((wire g mo so).take k)) = .error Fault.ReadPastEnd := by
  obtain ⟨hn, hcmds, hadj, hrev, hnames⟩ := he.fits
  have rt1 := serde.deserialize_vec_enc (serde.deserialize_vec serde.deserialize_string)
    (serde.enc_vec serde.enc_string) (fun c => c.length < 2 ^ 32 ∧ ∀ x ∈ c, x.length < 2 ^ 32)
    (fun c r hc => deserialize_strings_enc c r hc) g.m_node_store hn hcmds
  have rt2 := serde.deserialize_vec_enc (serde.deserialize_vec serde.deserialize_value)
    (serde.enc_vec serde.serialize_value) (fun l => l.length < 2 ^ 32 ∧ ∀ x ∈ l, x < 2 ^ 32)
    (fun l r hl => deserialize_ids_enc l r hl) g.m_adjgraph (by rw [he.adj_len]; exact hn)
    (fun l hl => ⟨hadj l hl, he.adj_lt l hl⟩)
  have rt3 := serde.deserialize_vec_enc (serde.deserialize_vec serde.deserialize_value)
    (serde.enc_vec serde.serialize_value) (fun l => l.length < 2 ^ 32 ∧ ∀ x ∈ l, x < 2 ^ 32)
    (fun l r hl => deserialize_ids_enc l r hl) g.m_reverse_adj (by rw [he.rev_len]; exact hn)
    (fun l hl => ⟨hrev l hl, he.rev_lt l hl⟩)
  have rt4 := fun rest =>
    serde.deserialize_map_enc mo rest (by rw [he.map_len]; exact hn) he.map_good he.map_keys
  have rt5 := fun rest => deserialize_ids_enc so rest ⟨he.set_len, he.set_lt⟩
  have cstr := serde.cut_fails_vec serde.deserialize_string serde.enc_string
    (fun s => s.length < 2 ^ 32) (fun s r hs => serde.deserialize_string_enc s r hs)
    serde.cut_fails_string
  have cu32 := serde.cut_fails_vec serde.deserialize_value serde.serialize_value
    (fun x => x < 2 ^ 32) (fun x r hx => serde.deserialize_value_serialize x hx r)
    serde.cut_fails_value
  have c1 := serde.cut_fails_vec (serde.deserialize_vec serde.deserialize_string)
    (serde.enc_vec serde.enc_string) (fun c => c.length < 2 ^ 32 ∧ ∀ x ∈ c, x.length < 2 ^ 32)
    (fun c r hc => deserialize_strings_enc c r hc) cstr g.m_node_store
  have c2 := serde.cut_fails_vec (serde.deserialize_vec serde.deserialize_value)
    (serde.enc_vec serde.serialize_value) (fun l => l.length < 2 ^ 32 ∧ ∀ x ∈ l, x < 2 ^ 32)
    (fun l r hl => deserialize_ids_enc l r hl) cu32
  unfold wire at hk ⊢
  unfold Graph.deserialize
  simp only [List.append_nil] at hk ⊢
  simp only [List.length_append, serde.length_serialize_value] at hk
  rw [if_neg (by
    rw [List.length_take, List.length_append, serde.length_serialize_value]
    omega)]
  by_cases h4 : k < 4
  · rw [serde.take_append_le _ _ _ (by rw [serde.length_serialize_value]; omega),
      serde.cut_fails_value GRAPH_SERDE_VERSION k (by decide)
        (by rw [serde.length_serialize_value]; exact h4)]
  rw [serde.take_append_ge _ _ _ (by rw [serde.length_serialize_value]; omega),
    serde.length_serialize_value, serde.deserialize_value_serialize _ (by decide)]
  simp only
  rw [if_neg (by simp)]
  by_cases h1 : k - 4 < (serde.enc_vec (serde.enc_vec serde.enc_string) g.m_node_store).length
  · rw [serde.take_append_le _ _ _ (Nat.le_of_lt h1), c1 (k - 4) ⟨hn, hcmds⟩ h1]
  rw [serde.take_append_ge _ _ _ (by omega), rt1]
  simp only
  by_cases h2 : k - 4 - (serde.enc_vec (serde.enc_vec serde.enc_string) g.m_node_store).length <
      (serde.enc_vec (serde.enc_vec serde.serialize_value) g.m_adjgraph).length
  · rw [serde.take_append_le _ _ _ (Nat.le_of_lt h2),
      c2 g.m_adjgraph _ ⟨by rw [he.adj_len]; exact hn, fun l hl => ⟨hadj l hl, he.adj_lt l hl⟩⟩
        h2]
  rw [serde.take_append_ge _ _ _ (by omega), rt2]
  simp only
  by_cases h3 : k - 4 - (serde.enc_vec (serde.enc_vec serde.enc_string) g.m_node_store).length -
      (serde.enc_vec (serde.enc_vec serde.serialize_value) g.m_adjgraph).length <
      (serde.enc_vec (serde.enc_vec serde.serialize_value) g.m_reverse_adj).length
  · rw [serde.take_append_le _ _ _ (Nat.le_of_lt h3),
      c2 g.m_reverse_adj _
        ⟨by rw [he.rev_len]; exact hn, fun l hl => ⟨hrev l hl, he.rev_lt l hl⟩⟩ h3]
  rw [serde.take_append_ge _ _ _ (by omega), rt3]
  simp only
  by_cases h5 : k - 4 - (serde.enc_vec (serde.enc_vec serde.enc_string) g.m_node_store).length -
      (serde.enc_vec (serde.enc_vec serde.serialize_value) g.m_adjgraph).length -
      (serde.enc_vec (serde.enc_vec serde.serialize_value) g.m_reverse_adj).length <
      (serde.enc_vec serde.enc_entry mo).length
  · rw [serde.take_append_le _ _ _ (Nat.le_of_lt h5),
      serde.cut_fails_map mo (by rw [he.map_len]; exact hn) he.map_good _ h5]
  rw [serde.take_append_ge _ _ _ (by omega), rt4]
  simp only
  by_cases h6 : k - 4 - (serde.enc_vec (serde.enc_vec serde.enc_string) g.m_node_store).length -
      (serde.enc_vec (serde.enc_vec serde.serialize_value) g.m_adjgraph).length -
      (serde.enc_vec (serde.enc_vec serde.serialize_value) g.m_reverse_adj).length -
      (serde.enc_vec serde.enc_entry mo).length <
      (serde.enc_vec serde.serialize_value so).length
  · rw [serde.take_append_le _ _ _ (Nat.le_of_lt h6),
      cu32 so _ ⟨he.set_len, he.set_lt⟩ h6]
  rw [serde.take_append_ge _ _ _ (by omega), rt5]
  simp only
  rw [cstr g.m_names _ ⟨by rw [he.names_len]; exact hn, hnames⟩ (by omega)]

end exec

/-! ## Properties of the run, the cache file, the worker loop and the command line -/

namespace exec

/-- Every needed node is built exactly once, on runs in which every submitted node has a
command (every task is then answered; a task without commands is not). In a graph returned by `Graph::build` (parent lists shorter than `2^32`) with a known
start target whose needed subgraph has no directed cycle and holds phony nodes only, a run
with at least one worker in which every answer has exit code `0` ends with success, the
list of submitted nodes has no duplicate and holds exactly the needed nodes (every needed
node occurs once in it, no other node occurs), and its length is the size of the needed
set, counted by any enumeration without duplicates. -/
theorem every_needed_node_built_once (parsed : parse.Result) (g : Graph)
    (h : Graph.build parsed = .ok g) (hdeg : ∀ l ∈ g.m_reverse_adj, l.length < 2 ^ 32)
    (start : Str) (hs : g.get_id start ≠ npos) (n_workers : Nat) (hw : 0 < n_workers)
    (env : Env) (hacyc : ∀ v, g.ancestor (g.get_id start) v → ¬ g.on_cycle v)
    (hph : ∀ v, g.ancestor (g.get_id start) v → g.is_phony v = true)
    (_hcmd : ∀ w, Event.submit w ∈ (Scheduler.run g start n_workers env).trace →
      (g.get_command_ref w).length % 2 ^ 32 ≠ 0)
    (hok : ∀ u c, Event.result u c ∈ (Scheduler.run g start n_workers env).trace → c = 0) :
    (Scheduler.run g start n_workers env).outcome = Outcome.success ∧
    (submissions (Scheduler.run g start n_workers env).trace).Nodup ∧
    (∀ v, v ∈ submissions (Scheduler.run g start n_workers env).trace ↔
      g.ancestor (g.get_id start) v) ∧
    (∀ v, g.ancestor (g.get_id start) v →
      (submissions (Scheduler.run g start n_workers env).trace).count v = 1) ∧
    (∀ needed_set : List Nat, needed_set.Nodup →
      (∀ v, v ∈ needed_set ↔ g.ancestor (g.get_id start) v) →
      (submissions (Scheduler.run g start n_workers env).trace).length =
        needed_set.length) := by
  obtain ⟨needed, hn, hset, hflag⟩ := build_setting parsed g h hdeg start hs
  have hrun : Scheduler.run g start n_workers env = _ :=
    run_eq (2 * g.size + 1) g start n_workers env needed hs hn
  obtain ⟨s1, hi, hend⟩ := main_loop_ends g needed hset n_workers hw env (2 * g.size + 1) _
    (inv_initial g needed hset n_workers) (by simp)
  have honce := main_loop_once g needed hset n_workers env
    (fun u hu => hph u ((hflag u).mp hu)) (2 * g.size + 1) _
    (inv_initial g needed hset n_workers)
    (by simp [submissions, completed, ProcessPool.inflight])
  rw [← hrun] at hend honce
  rcases hend with ⟨hr, hrun0, hfin⟩ | ⟨u, c, hc, -, hfail⟩
  · have hF : ProcessPool.inflight s1.workers = [] := by
      rw [← List.length_eq_zero, ← hi.running_eq]; exact hrun0
    have hcore := hi.core
    rw [hr, hF] at hcore
    have hall := finished_of_acyclic g needed hset _ _ hcore
      (fun v hv => hacyc v ((hflag v).mp hv))
    rw [finish_success g.size needed s1
      (fun v hv => (hcore.ready_iff v hv).mp (by simpa using hall v hv))] at hfin
    have hperm := honce (by rw [hfin])
    have hcomp :
        completed (Scheduler.run g start n_workers env).trace = completed s1.trace := by
      rw [hfin, completed_append]; simp [completed]
    rw [hcomp] at hperm
    have hnd : (submissions (Scheduler.run g start n_workers env).trace).Nodup := by
      rw [hperm.nodup_iff]
      simpa using hcore.nodup
    have hmem : ∀ v, v ∈ submissions (Scheduler.run g start n_workers env).trace ↔
        g.ancestor (g.get_id start) v := by
      intro v
      rw [hperm.mem_iff, ← hflag v]
      exact ⟨fun hv => hcore.all_flagged v (by simpa using hv), hall v⟩
    refine ⟨by rw [hfin], hnd, hmem, ?_, ?_⟩
    · intro v hv
      exact List.count_eq_one_of_mem hnd ((hmem v).mpr hv)
    · intro needed_set hnd2 hmem2
      exact length_eq_of_same_members _ _ hnd hnd2 (fun v => by rw [hmem v, hmem2 v])
  · exfalso
    apply hc
    apply hok u c
    rw [hfail]
    simp

end exec

namespace exec

/-- With one command for every rule, the chain `a:`, `b: a`, `c: b` requested as `c` with
one worker submits `a`, `b`, `c` in this order; the diamond `d:`, `b: d`, `c: d`,
`a: b c` requested as `a` with two workers makes four submissions, `d` first and `a`
last. -/
theorem every_needed_node_built_once_witness :
    ((Scheduler.run chain3_graph [99] 1 (quiet_env no_files (fun _ => 0))).outcome =
        Outcome.success ∧
      (submissions
        (Scheduler.run chain3_graph [99] 1 (quiet_env no_files (fun _ => 0))).trace).Nodup ∧
      (∀ v, v ∈ submissions
          (Scheduler.run chain3_graph [99] 1 (quiet_env no_files (fun _ => 0))).trace ↔
        chain3_graph.ancestor (chain3_graph.get_id [99]) v) ∧
      (∀ v, chain3_graph.ancestor (chain3_graph.get_id [99]) v →
        (submissions
          (Scheduler.run chain3_graph [99] 1 (quiet_env no_files (fun _ => 0))).trace).count v
          = 1) ∧
      (∀ needed_set : List Nat, needed_set.Nodup →
        (∀ v, v ∈ needed_set ↔ chain3_graph.ancestor (chain3_graph.get_id [99]) v) →
        (submissions
          (Scheduler.run chain3_graph [99] 1 (quiet_env no_files (fun _ => 0))).trace).length =
          needed_set.length)) ∧
    submissions (Scheduler.run chain3_graph [99] 1 (quiet_env no_files (fun _ => 0))).trace =
      [0, 1, 2] ∧
    submissions (Scheduler.run diamond_graph [97] 2 (quiet_env no_files (fun _ => 0))).trace =
      [0, 1, 2, 3] ∧
    (Scheduler.run diamond_graph [97] 2 (quiet_env no_files (fun _ => 0))).outcome =
      Outcome.success :=
  ⟨every_needed_node_built_once chain3 chain3_graph (by decide) (by decide) [99] (by decide) 1
      (by decide) (quiet_env no_files (fun _ => 0))
      (fun v _ => not_on_cycle_of_table chain3_graph (by decide) v)
      (fun v hv => by
        have hle := ancestor_le_of_table chain3_graph (by decide) _ v hv
        have h2 : chain3_graph.get_id [99] = 2 := by decide
        rw [h2] at hle
        interval_cases v <;> decide)
      (fun w hw => by
        have hrun : (Scheduler.run chain3_graph [99] 1
            (quiet_env no_files (fun _ => 0))).trace =
            [Event.submit 0, Event.result 0 0, Event.submit 1, Event.result 1 0,
              Event.submit 2, Event.result 2 0, Event.shutdown] := by decide
        rw [hrun] at hw
        simp only [List.mem_cons, Event.submit.injEq, reduceCtorEq, false_or, or_false,
          List.mem_singleton, List.not_mem_nil] at hw
        rcases hw with rfl | rfl | rfl <;> decide)
      (fun u c hu => by
        have hrun : (Scheduler.run chain3_graph [99] 1
            (quiet_env no_files (fun _ => 0))).trace =
            [Event.submit 0, Event.result 0 0, Event.submit 1, Event.result 1 0,
              Event.submit 2, Event.result 2 0, Event.shutdown] := by decide
        rw [hrun] at hu
        simp only [List.mem_cons, Event.result.injEq, reduceCtorEq, false_or, or_false,
          List.mem_singleton, List.not_mem_nil] at hu
        rcases hu with hu | hu | hu <;> exact hu.2),
    by decide, by decide, by decide⟩

end exec

namespace exec

/-- C12, as stated: for the rule set of scenario S3, the single rule `out: src`, no graph
is built: `src` names no rule and `Graph::build` ends with the fatal error for an unknown
dependency, so there is no run that could end with success. -/
theorem s3_build_rejected : Graph.build s3_rules = .error Fault.UnknownDependency := by
  decide

/-- C12, amended. For the rule set `out: src` with the command `cp src out` and `src:` with
no command, neither phony, with the files `src` and `out` both present at every moment and
`src` not newer than `out`: `Graph::build` returns a graph, and the run for the target
`out` with at least one worker makes no submission and ends with success. -/
theorem s3_with_source_rule_runs_nothing (n_workers : Nat) (hw : 0 < n_workers) (env : Env)
    (t_src t_out : Nat) (hsrc : ∀ k, env.fs k [115, 114, 99] = some t_src)
    (hout : ∀ k, env.fs k [111, 117, 116] = some t_out) (hle : t_src ≤ t_out) :
    Graph.build s3_with_source = .ok s3_graph ∧
    submissions (Scheduler.run s3_graph [111, 117, 116] n_workers env).trace = [] ∧
    (Scheduler.run s3_graph [111, 117, 116] n_workers env).outcome = Outcome.success := by
  rw [s3_run n_workers hw env t_src t_out hsrc hout hle]
  exact ⟨by decide, rfl, rfl⟩

/-- C12 amended, instance: `src` written at time `1`, `out` at time `2`, two workers. -/
theorem s3_with_source_rule_runs_nothing_witness :
    Graph.build s3_with_source = .ok s3_graph ∧
    submissions (Scheduler.run s3_graph [111, 117, 116] 2
      (quiet_env s3_files (fun _ => 0))).trace = [] ∧
    (Scheduler.run s3_graph [111, 117, 116] 2 (quiet_env s3_files (fun _ => 0))).outcome =
      Outcome.success :=
  s3_with_source_rule_runs_nothing 2 (by decide) (quiet_env s3_files (fun _ => 0)) 1 2
    (fun _ => rfl) (fun _ => rfl) (by decide)

/-- C13, as stated, fails at the input `bad_cache`: `Graph::deserialize` returns a graph
of one node whose child list for node `0` holds the entry `5`, which is not below
`size()`. -/
theorem deserialize_keeps_invalid_ids :
    Graph.deserialize (some bad_cache) = .ok bad_graph ∧ bad_graph.size = 1 ∧
    5 ∈ bad_graph.get_child_ids 0 ∧ ¬ (5 < bad_graph.size) := by
  decide

/-- C13, amended. For every content of the cache file on which `Graph::deserialize` returns
a graph, the child table, the parent table, the name table and the id map of that graph
have `size()` entries each, and every entry of every child list and parent list is a
`u32` value, below `2^32`; it need not be below `size()`. -/
theorem deserialize_checks_table_sizes (file : Option (List Byte)) (g : Graph)
    (h : Graph.deserialize file = .ok g) :
    g.m_adjgraph.length = g.size ∧ g.m_reverse_adj.length = g.size ∧
    g.m_names.length = g.size ∧ g.m_id_map.length = g.size ∧
    (∀ u, ∀ x ∈ g.get_child_ids u, x < 2 ^ 32) ∧
    (∀ u, ∀ x ∈ g.get_parent_ids u, x < 2 ^ 32) := by
  obtain ⟨buffer, p0, p1, p2, p3, p4, p5, phony, -, -, -, -, h2, h3, -, -, -, -, s1, s2, s3,
    s4⟩ := deserialize_ok_fields file g h
  have hrow : ∀ (p : List Byte) (l : List Nat) (r : List Byte),
      serde.deserialize_vec serde.deserialize_value p = .ok (l, r) → ∀ x ∈ l, x < 2 ^ 32 :=
    fun p l r hp => serde.deserialize_vec_all serde.deserialize_value (fun x => x < 2 ^ 32)
      (fun q x r1 hq => serde.deserialize_value_lt q r1 x hq) p l r hp
  have htab : ∀ (p : List Byte) (t : List (List Nat)) (r : List Byte),
      serde.deserialize_vec (serde.deserialize_vec serde.deserialize_value) p = .ok (t, r) →
      ∀ u, ∀ x ∈ t.getD u [], x < 2 ^ 32 := by
    intro p t r hp u x hx
    have hall := serde.deserialize_vec_all (serde.deserialize_vec serde.deserialize_value)
      (fun l => ∀ x ∈ l, x < 2 ^ 32) hrow p t r hp
    rw [List.getD_eq_getElem?_getD] at hx
    cases hu : t[u]? with
    | none => rw [hu] at hx; simp at hx
    | some l =>
      rw [hu] at hx
      exact hall l (List.getElem?_mem hu) x hx
  exact ⟨s1, s2, s3, s4, htab p1 _ p2 h2, htab p2 _ p3 h3⟩

/-- C13 amended, instance: the graph read from `bad_cache` has one row in every table, and
the entry `5` of its child list is a `u32` value. -/
theorem deserialize_checks_table_sizes_witness :
    bad_graph.m_adjgraph.length = bad_graph.size ∧
    bad_graph.m_reverse_adj.length = bad_graph.size ∧
    bad_graph.m_names.length = bad_graph.size ∧ bad_graph.m_id_map.length = bad_graph.size ∧
    (∀ u, ∀ x ∈ bad_graph.get_child_ids u, x < 2 ^ 32) ∧
    (∀ u, ∀ x ∈ bad_graph.get_parent_ids u, x < 2 ^ 32) :=
  deserialize_checks_table_sizes (some bad_cache) bad_graph (by decide)

/-- C14, as stated, fails at the inputs `short_cache` and `cut_cache`: the buffer is not
rejected before it is left. On a file of three bytes the read of the version, and on a
cache file cut before its last byte the copy of the last name, go past the end of the
buffer (`ReadPastEnd` marks the read that the source performs without a test; what the
program does with the bytes it finds there is outside the buffer and is not modelled). -/
theorem deserialize_reads_past_end :
    Graph.deserialize (some short_cache) = .error Fault.ReadPastEnd ∧
    Graph.deserialize (some cut_cache) = .error Fault.ReadPastEnd := by
  decide

/-- C14, amended. A truncated cache file is not caught by a test of a read against the end
of the buffer: for a graph returned by `Graph::build` whose lengths fit the `u32` fields,
and any traversal order of the id map and the phony set, every cache file written by
`Graph::serialize` that is cut to `k` bytes, at least one and fewer than were written, is
decoded up to a read that goes past the end of the buffer. -/
theorem truncated_cache_is_read_past_end (parsed : parse.Result) (g : Graph)
    (h : Graph.build parsed = .ok g) (hfit : g.fits_u32) (map_order : IdMap)
    (set_order : List Nat) (hmo : map_order.Perm g.m_id_map)
    (hso : set_order.Perm g.m_phony) :
    ∃ bytes, g.serialize map_order set_order = .ok bytes ∧
      ∀ k, 0 < k → k < bytes.length →
        Graph.deserialize (some (bytes.take k)) = .error Fault.ReadPastEnd := by
  have he := build_encodable parsed g h hfit map_order set_order hmo hso
  exact ⟨wire g map_order set_order, serialize_eq_wire g _ _ he,
    fun k h0 hk => deserialize_cut g _ _ he k h0 hk⟩

/-- C14 amended, instance: the cache file of the single phony rule `a:` with one command,
cut to any length from `1` to `62`. -/
theorem truncated_cache_is_read_past_end_witness :
    ∃ bytes, one_phony_graph.serialize one_phony_graph.m_id_map one_phony_graph.m_phony =
        .ok bytes ∧
      ∀ k, 0 < k → k < bytes.length →
        Graph.deserialize (some (bytes.take k)) = .error Fault.ReadPastEnd :=
  truncated_cache_is_read_past_end one_phony one_phony_graph (by decide) (by decide)
    one_phony_graph.m_id_map one_phony_graph.m_phony (List.Perm.refl _) (List.Perm.refl _)

/-- C15. Corruption of a cache file is detected: for a graph returned by `Graph::build`
whose lengths fit the `u32` fields, and any traversal order of the id map and the phony
set, the bytes written by `Graph::serialize` start with the version field, and
(a) with the version field replaced by the encoding of any other value `Graph::deserialize`
fails with `CacheVersionMismatch`, (b) with any bytes appended, at least one, it fails with
`CacheCorrupt`. -/
theorem cache_corruption_detected (parsed : parse.Result) (g : Graph)
    (h : Graph.build parsed = .ok g) (hfit : g.fits_u32) (map_order : IdMap)
    (set_order : List Nat) (hmo : map_order.Perm g.m_id_map)
    (hso : set_order.Perm g.m_phony) :
    ∃ bytes, g.serialize map_order set_order = .ok bytes ∧
      bytes = serde.serialize_value GRAPH_SERDE_VERSION ++ bytes.drop 4 ∧
      (∀ n, n < 2 ^ 32 → n ≠ GRAPH_SERDE_VERSION →
        Graph.deserialize (some (serde.serialize_value n ++ bytes.drop 4)) =
          .error Fault.CacheVersionMismatch) ∧
      (∀ extra, extra ≠ [] →
        Graph.deserialize (some (bytes ++ extra)) = .error Fault.CacheCorrupt) := by
  have he := build_encodable parsed g h hfit map_order set_order hmo hso
  exact ⟨wire g map_order set_order, serialize_eq_wire g _ _ he, wire_drop g _ _,
    fun n hn h1 => deserialize_other_version n hn h1 _,
    fun extra hne => deserialize_wire_extra g _ _ he extra hne⟩

/-- C15, instance: the cache file of the diamond of scenario S2. -/
theorem cache_corruption_detected_witness :
    ∃ bytes, diamond_graph.serialize diamond_graph.m_id_map [0, 1, 2, 3] = .ok bytes ∧
      bytes = serde.serialize_value GRAPH_SERDE_VERSION ++ bytes.drop 4 ∧
      (∀ n, n < 2 ^ 32 → n ≠ GRAPH_SERDE_VERSION →
        Graph.deserialize (some (serde.serialize_value n ++ bytes.drop 4)) =
          .error Fault.CacheVersionMismatch) ∧
      (∀ extra, extra ≠ [] →
        Graph.deserialize (some (bytes ++ extra)) = .error Fault.CacheCorrupt) :=
  cache_corruption_detected diamond diamond_graph (by decide) (by decide)
    diamond_graph.m_id_map [0, 1, 2, 3] (List.Perm.refl _) (by decide)

end exec

namespace exec

/-- C16. Layout of the cache file: whenever `Graph::serialize` writes a byte sequence, it
is the concatenation, in this order, of the `u32` version `1`, the commands as a sequence
of sequences of strings, the child lists and the parent lists as sequences of sequences of
`u32`, the id map as a sequence of entries (key string, then `u32` value) in traversal
order, the phony ids as a sequence of `u32` in traversal order, and the names as a
sequence of strings; a `u32` is four bytes, least significant first; a string is its
length as a `u32` and then its bytes; a sequence is its element count as a `u32` and then
its elements in order; and every count and length written is below `2^32`, so that no
field is truncated. -/
theorem serialize_wire_layout (g : Graph) (map_order : IdMap) (set_order : List Nat)
    (bytes : List Byte) (h : g.serialize map_order set_order = .ok bytes) :
    bytes =
      serde.serialize_value 1 ++
      serde.enc_vec (serde.enc_vec serde.enc_string) g.m_node_store ++
      serde.enc_vec (serde.enc_vec serde.serialize_value) g.m_adjgraph ++
      serde.enc_vec (serde.enc_vec serde.serialize_value) g.m_reverse_adj ++
      serde.enc_vec serde.enc_entry map_order ++
      serde.enc_vec serde.serialize_value set_order ++
      serde.enc_vec serde.enc_string g.m_names ∧
    (∀ n, serde.serialize_value n =
      [serde.byte n, serde.byte (n / 256), serde.byte (n / 65536),
        serde.byte (n / 16777216)]) ∧
    (∀ n, (serde.byte n).val = n % 256) ∧
    (∀ s, serde.enc_string s = serde.serialize_value s.length ++ s) ∧
    (∀ kv, serde.enc_entry kv = serde.enc_string kv.1 ++ serde.serialize_value kv.2) ∧
    (∀ (α : Type) (enc : α → List Byte) (v : List α),
      serde.enc_vec enc v = serde.serialize_value v.length ++ (v.map enc).flatten) ∧
    ((g.m_node_store.length < 2 ^ 32 ∧
      ∀ cmds ∈ g.m_node_store, cmds.length < 2 ^ 32 ∧ ∀ c ∈ cmds, c.length < 2 ^ 32) ∧
    (g.m_adjgraph.length < 2 ^ 32 ∧ ∀ l ∈ g.m_adjgraph, l.length < 2 ^ 32) ∧
    (g.m_reverse_adj.length < 2 ^ 32 ∧ ∀ l ∈ g.m_reverse_adj, l.length < 2 ^ 32) ∧
    (map_order.length < 2 ^ 32 ∧ ∀ kv ∈ map_order, kv.1.length < 2 ^ 32) ∧
    set_order.length < 2 ^ 32 ∧
    (g.m_names.length < 2 ^ 32 ∧ ∀ s ∈ g.m_names, s.length < 2 ^ 32)) := by
  refine ⟨?_, fun _ => rfl, fun _ => rfl, fun _ => rfl, fun _ => rfl, fun _ _ _ => rfl,
    serialize_counts_fit g map_order set_order bytes h⟩
  rw [serialize_inv g map_order set_order bytes h]
  simp [wire, GRAPH_SERDE_VERSION, List.append_assoc]

/-- C16, instance: the cache file of the single phony rule `a:` with the command `t`, 63
bytes. -/
theorem serialize_wire_layout_witness :
    one_phony_graph.serialize [([97], 0)] [0] = .ok
      [1, 0, 0, 0,
       1, 0, 0, 0, 1, 0, 0, 0, 1, 0, 0, 0, 116,
       1, 0, 0, 0, 0, 0, 0, 0,
       1, 0, 0, 0, 0, 0, 0, 0,
       1, 0, 0, 0, 1, 0, 0, 0, 97, 0, 0, 0, 0,
       1, 0, 0, 0, 0, 0, 0, 0,
       1, 0, 0, 0, 1, 0, 0, 0, 97] ∧
    ([1, 0, 0, 0,
       1, 0, 0, 0, 1, 0, 0, 0, 1, 0, 0, 0, 116,
       1, 0, 0, 0, 0, 0, 0, 0,
       1, 0, 0, 0, 0, 0, 0, 0,
       1, 0, 0, 0, 1, 0, 0, 0, 97, 0, 0, 0, 0,
       1, 0, 0, 0, 0, 0, 0, 0,
       1, 0, 0, 0, 1, 0, 0, 0, 97] : List Byte) =
      serde.serialize_value 1 ++
      serde.enc_vec (serde.enc_vec serde.enc_string) one_phony_graph.m_node_store ++
      serde.enc_vec (serde.enc_vec serde.serialize_value) one_phony_graph.m_adjgraph ++
      serde.enc_vec (serde.enc_vec serde.serialize_value) one_phony_graph.m_reverse_adj ++
      serde.enc_vec serde.enc_entry [([97], 0)] ++
      serde.enc_vec serde.serialize_value [0] ++
      serde.enc_vec serde.enc_string one_phony_graph.m_names :=
  ⟨by decide,
    (serialize_wire_layout one_phony_graph [([97], 0)] [0] _ (by decide)).1⟩

end exec

namespace exec

/-- C18, at the input `a:` (phony, no command) requested as `a`: the scheduler submits node
`0`; the frame that `ProcessPool::submit` writes for it has the command count `0` and is
byte for byte the frame that `ProcessPool::shutdown` writes; the worker loop takes it as
the request to stop, whatever follows in the pipe and whatever the commands would
return: it leaves the loop and writes no result frame. -/
theorem empty_task_ends_worker (system : Nat → Str → Int) (rest : List Byte) :
    Graph.build bare_phony = .ok bare_phony_graph ∧
    (Scheduler.run_upto 1 bare_phony_graph [97] 1 (quiet_env no_files (fun _ => 0))).trace =
      [Event.submit 0] ∧
    bare_phony_graph.get_command_ref 0 = [] ∧
    ProcessPool.task_frame 0 (bare_phony_graph.get_command_ref 0) =
      ProcessPool.shutdown_frame ∧
    ProcessPool.worker_pass system
        (ProcessPool.task_frame 0 (bare_phony_graph.get_command_ref 0) ++ rest) =
      ProcessPool.Pass.exit :=
  ⟨by decide, by decide, by decide, by decide,
    ProcessPool.worker_pass_empty system 0 (by decide) rest⟩

/-- C19, at the input `a:` requested as `z`: `Scheduler::run` ends with the fatal error for
an unknown target and `pool.shutdown()` has not been called, whatever the number of workers
that `start_pool` has started. -/
theorem unknown_target_without_shutdown (fuel n_workers : Nat) (env : Env) :
    (Scheduler.run_upto fuel one_phony_graph [122] n_workers env).outcome =
      Outcome.fatal Fault.UnknownTarget ∧
    Event.shutdown ∉ (Scheduler.run_upto fuel one_phony_graph [122] n_workers env).trace := by
  rw [run_unknown fuel one_phony_graph [122] n_workers env (by decide)]
  exact ⟨rfl, by simp⟩

end exec

/-- C20, at the input `-jx`: the attached value `x` is not an integer, and
`parse_and_filter` leaves `thread_count` empty, so that `main` asks for a pool of
`default_procs = 2` workers; `-j 0`, `-j x` and a last `-j` give the count `0`, for which
`main` asks for `hardware_concurrency` workers. -/
theorem attached_value_not_integer (hardware_concurrency : Nat) :
    (ArgsResult.parse_and_filter [[98], [45, 106, 120]]).thread_count = none ∧
    njobs (ArgsResult.parse_and_filter [[98], [45, 106, 120]]).thread_count
      hardware_concurrency = 2 ∧
    (ArgsResult.parse_and_filter [[98], [45, 106], [48]]).thread_count = some 0 ∧
    (ArgsResult.parse_and_filter [[98], [45, 106], [120]]).thread_count = some 0 ∧
    (ArgsResult.parse_and_filter [[98], [45, 106]]).thread_count = some 0 ∧
    njobs (ArgsResult.parse_and_filter [[98], [45, 106], [48]]).thread_count
      hardware_concurrency = hardware_concurrency :=
  ⟨by decide, rfl, by decide, by decide, by decide, rfl⟩

/-! ## The three passes before the main loop -/

namespace exec

/-- More fuel does not change what the reverse DFS returns. -/
theorem dfs_fuel_succ (g : Graph) (fuel : Nat) (needed : List Bool) (st : List Nat)
    (r : List Bool) (h : dfs g fuel needed st = some r) : dfs g (fuel + 1) needed st = some r := by
  induction fuel generalizing needed st with
  | zero => simp [dfs] at h
  | succ fuel ih =>
    cases st with
    | nil => simpa [dfs] using h
    | cons u st1 =>
      simp only [dfs] at h ⊢
      exact ih _ _ h

theorem dfs_fuel_le (g : Graph) (fuel fuel2 : Nat) (hle : fuel ≤ fuel2) (needed : List Bool)
    (st : List Nat) (r : List Bool) (h : dfs g fuel needed st = some r) :
    dfs g fuel2 needed st = some r := by
  induction hle with
  | refl => exact h
  | step _ ih => exact dfs_fuel_succ g _ _ _ _ ih

/-- After the indegree pass the counter of a node that is not needed is `0`. -/
theorem initial_indegree_unneeded (g : Graph) (needed : List Bool)
    (hlen : needed.length = g.size) (v : Nat) (hv : ¬ flagged needed v) :
    (compute_indegree g needed (List.range g.size) (List.replicate g.size 0)).getD v 0 = 0 := by
  obtain ⟨-, h2⟩ := compute_indegree_spec g needed (List.range g.size)
    (List.replicate g.size 0) (by simp [hlen])
    (by intro v; rw [getD_replicate_zero]; norm_num)
  rw [h2 v, if_neg hv, getD_replicate_zero]

/-- Every parent entry of a needed node is needed, so all of them are counted. -/
theorem countP_needed_parents (g : Graph) (needed : List Bool) (hs : Setting g needed)
    (v : Nat) (hv : flagged needed v) :
    (g.get_parent_ids v).countP (fun p => needed.getD p false) = (g.get_parent_ids v).length := by
  rw [List.countP_eq_length]
  intro p hp
  exact hs.closed v p hv hp

end exec

namespace exec

/-- The loop over the parents of `should_execute`, for a target whose file has the time
`t`: the answer is `true` exactly when some parent has a file with a greater time. -/
theorem any_newer_iff (g : Graph) (fs : FS) (target : Str) (ps : List Nat) (t : Nat)
    (ht : fs target = some t) :
    ∃ b, any_newer g fs target ps = .ok b ∧
      (b = true ↔ ∃ p ∈ ps, ∃ tp, fs (g.get_name_ref p) = some tp ∧ t < tp) := by
  induction ps with
  | nil => exact ⟨false, rfl, by simp⟩
  | cons p ps ih =>
    obtain ⟨b, hb, hiff⟩ := ih
    cases hp : fs (g.get_name_ref p) with
    | none =>
      refine ⟨b, by simp [any_newer, is_newer, ht, hp, hb], ?_⟩
      rw [hiff]
      constructor
      · rintro ⟨q, hq, tq, h1, h2⟩
        exact ⟨q, List.mem_cons_of_mem _ hq, tq, h1, h2⟩
      · rintro ⟨q, hq, tq, h1, h2⟩
        rcases List.mem_cons.mp hq with rfl | hq
        · rw [hp] at h1; cases h1
        · exact ⟨q, hq, tq, h1, h2⟩
    | some tp =>
      by_cases hlt : t < tp
      · refine ⟨true, by simp [any_newer, is_newer, ht, hp, hlt], ?_⟩
        simp only [true_iff]
        exact ⟨p, List.mem_cons_self _ _, tp, hp, hlt⟩
      · refine ⟨b, by simp [any_newer, is_newer, ht, hp, hlt, hb], ?_⟩
        rw [hiff]
        constructor
        · rintro ⟨q, hq, tq, h1, h2⟩
          exact ⟨q, List.mem_cons_of_mem _ hq, tq, h1, h2⟩
        · rintro ⟨q, hq, tq, h1, h2⟩
          rcases List.mem_cons.mp hq with rfl | hq
          · rw [hp] at h1
            cases h1
            exact absurd h2 hlt
          · exact ⟨q, hq, tq, h1, h2⟩

end exec

/-! ## The main loop: the counter of running tasks, termination, underflow -/

namespace exec

theorem inflight_length (ws : ProcessPool.Workers) :
    (ProcessPool.inflight ws).length = ws.countP (fun w => w.isSome) := by
  induction ws with
  | nil => rfl
  | cons w ws ih =>
    cases w with
    | none => simpa [ProcessPool.inflight_cons_none] using ih
    | some x => simp [ProcessPool.inflight_cons_some, ih]

/-- A property that holds at the start of the loop and is kept by every transition holds
after any number of transitions. -/
theorem loop_state_induct (g : Graph) (needed : List Bool) (env : Env) (P : State → Prop)
    (hnext : ∀ s s1, P s → step g needed env s = .next s1 → P s1)
    (k : Nat) (s0 s : State) (h0 : P s0) (h : loop_state g needed env k s0 = some s) : P s := by
  induction k generalizing s0 with
  | zero =>
    simp only [loop_state, Option.some.injEq] at h
    rw [← h]; exact h0
  | succ k ih =>
    simp only [loop_state] at h
    cases hs : step g needed env s0 with
    | next s1 =>
      rw [hs] at h
      exact ih s1 (hnext s0 s1 h0 hs) h
    | done r =>
      rw [hs] at h
      cases h

/-- Every transition keeps `running` equal to the number of busy workers, in any graph. -/
theorem mirror_next (g : Graph) (needed : List Bool) (env : Env) (s s1 : State)
    (hm : s.running = (ProcessPool.inflight s.workers).length)
    (hstep : step g needed env s = .next s1) :
    s1.running = (ProcessPool.inflight s1.workers).length := by
  rcases step_next_cases g needed env s s1 hstep with
    ⟨u, rest, ws1, -, hacc, -, hsub, rfl⟩ | ⟨u, rest, -, -, -, rfl⟩ |
    ⟨u, ws1, hrun, hwait, rfl⟩
  · obtain ⟨ws2, e1, e2, -⟩ := ProcessPool.submit_spec s.workers u hacc
    rw [hsub] at e1
    cases e1
    simp only [e2.length_eq, List.length_cons, hm]
  · exact hm
  · obtain ⟨-, hu, hperm, -⟩ := ProcessPool.wait_result_some _ _ _ _ _ _ hwait
    simp only [hperm.length_eq, List.length_erase_of_mem hu, hm]

/-- With `running` equal to the number of busy workers, the loop ends neither in the
`abort` of `submit` nor in a `wait_result` without a busy worker. -/
theorem mirror_done (g : Graph) (needed : List Bool) (env : Env) (s : State) (r : RunResult)
    (hm : s.running = (ProcessPool.inflight s.workers).length)
    (hstep : step g needed env s = .done r) :
    r.outcome ≠ Outcome.abort ∧ r.outcome ≠ Outcome.blocked := by
  rcases step_done_cases g needed env s r hstep with
    ⟨u, rest, e, -, -, herr, rfl⟩ | ⟨u, rest, -, hacc, hsub, rfl⟩ | ⟨-, -, -, rfl⟩ |
    ⟨-, -, rfl⟩ | ⟨hrun, -, hwait, rfl⟩ | ⟨u, c, ws1, -, -, -, -, rfl⟩
  · obtain ⟨b, hb⟩ := should_execute_ok g (env.fs s.trace.length) u
    rw [hb] at herr
    cases herr
  · obtain ⟨ws2, e1, -, -⟩ := ProcessPool.submit_spec s.workers u hacc
    rw [hsub] at e1
    cases e1
  · exact ⟨by simp, by simp⟩
  · rcases finish_outcome g.size needed s with h | h <;> rw [h] <;> exact ⟨by simp, by simp⟩
  · have := ProcessPool.wait_result_none _ _ _ hwait
    rw [this] at hm
    exact absurd hm hrun
  · exact ⟨by simp, by simp⟩

end exec

namespace exec

theorem popped_append (tr tr2 : List Event) :
    popped (tr ++ tr2) = popped tr ++ popped tr2 := by
  induction tr with
  | nil => rfl
  | cons e tr ih => cases e <;> simp [popped, ih]

/-- The popped nodes are the ones with a worker and the ones that have finished. -/
theorem popped_next (g : Graph) (needed : List Bool) (env : Env) (s s1 : State)
    (ho : (popped s.trace).Perm (ProcessPool.inflight s.workers ++ completed s.trace))
    (hstep : step g needed env s = .next s1) :
    (popped s1.trace).Perm (ProcessPool.inflight s1.workers ++ completed s1.trace) := by
  rcases step_next_cases g needed env s s1 hstep with
    ⟨u, rest, ws1, -, hacc, -, hsub, rfl⟩ | ⟨u, rest, -, -, -, rfl⟩ |
    ⟨u, ws1, -, hwait, rfl⟩
  · obtain ⟨ws2, e1, e2, -⟩ := ProcessPool.submit_spec s.workers u hacc
    rw [hsub] at e1
    cases e1
    simp only [popped_append, completed_append, popped, completed, List.append_nil]
    refine List.Perm.trans (List.perm_append_comm) ?_
    refine List.Perm.trans ?_ (List.Perm.append_right _ e2.symm)
    exact List.Perm.cons u ho
  · simp only [popped_append, completed_append, popped, completed]
    rw [← List.append_assoc]
    exact List.Perm.append_right _ ho
  · obtain ⟨-, hu, hperm, -⟩ := ProcessPool.wait_result_some _ _ _ _ _ _ hwait
    simp only [popped_append, completed_append, popped, completed, List.append_nil, if_true]
    refine List.Perm.trans ho ?_
    refine List.Perm.trans ?_ (List.Perm.append_right _ hperm.symm)
    refine List.Perm.trans (List.Perm.append_right _ (List.perm_cons_erase hu)) ?_
    simp only [List.cons_append]
    rw [← List.append_assoc]
    exact (List.perm_append_singleton _ _).symm

/-- In a graph returned by `Graph::build`, no node is popped twice, however long the loop
is observed. -/
theorem main_loop_popped_nodup (g : Graph) (needed : List Bool) (hs : Setting g needed)
    (n_workers : Nat) (env : Env) (fuel : Nat) (s : State) (hi : Inv g needed n_workers s)
    (ho : (popped s.trace).Perm (ProcessPool.inflight s.workers ++ completed s.trace)) :
    (popped (main_loop g needed env fuel s).trace).Nodup := by
  have key : ∀ s, Inv g needed n_workers s →
      (popped s.trace).Perm (ProcessPool.inflight s.workers ++ completed s.trace) →
      (popped s.trace).Nodup := by
    intro s hi ho
    rw [ho.nodup_iff]
    exact (List.nodup_append.mp hi.core.nodup).2.1
  refine main_loop_induct g needed env
    (fun s => Inv g needed n_workers s ∧
      (popped s.trace).Perm (ProcessPool.inflight s.workers ++ completed s.trace))
    (fun r => (popped r.trace).Nodup) ?_ ?_ (fun s hp => key s hp.1 hp.2) fuel s ⟨hi, ho⟩
  · intro s s1 hp hstep
    exact ⟨inv_next g needed hs n_workers env s s1 hp.1 hstep,
      popped_next g needed env s s1 hp.2 hstep⟩
  · intro s r hp hstep
    have hnd := key s hp.1 hp.2
    rcases step_done_cases g needed env s r hstep with
      ⟨u, rest, e, -, -, -, rfl⟩ | ⟨u, rest, -, -, -, rfl⟩ | ⟨-, -, -, rfl⟩ | ⟨-, -, rfl⟩ |
      ⟨-, -, -, rfl⟩ | ⟨u, c, ws1, -, -, -, -, rfl⟩
    · exact hnd
    · exact hnd
    · exact hnd
    · rw [finish_trace, popped_append]
      simpa [popped] using hnd
    · exact hnd
    · rw [popped_append]
      simpa [popped] using hnd

/-- Once the loop has ended within the bound, a greater bound gives the same result. -/
theorem main_loop_fuel_succ (g : Graph) (needed : List Bool) (env : Env) (fuel : Nat)
    (s : State) (h : (main_loop g needed env fuel s).outcome ≠ Outcome.out_of_fuel) :
    main_loop g needed env (fuel + 1) s = main_loop g needed env fuel s := by
  induction fuel generalizing s with
  | zero => simp [main_loop] at h
  | succ fuel ih =>
    rw [main_loop]
    conv_rhs => rw [main_loop]
    cases hs : step g needed env s with
    | done r => rfl
    | next s1 =>
      simp only
      apply ih
      rw [main_loop, hs] at h
      exact h

theorem main_loop_fuel_le (g : Graph) (needed : List Bool) (env : Env) (fuel fuel2 : Nat)
    (hle : fuel ≤ fuel2) (s : State)
    (h : (main_loop g needed env fuel s).outcome ≠ Outcome.out_of_fuel) :
    main_loop g needed env fuel2 s = main_loop g needed env fuel s := by
  induction hle with
  | refl => rfl
  | step _ ih =>
    rw [main_loop_fuel_succ g needed env _ s (by rw [ih]; exact h), ih]

end exec

namespace exec

/-- When every needed node has a counter at least as great as the number of its entries
in `vs`, no decrement of the propagation over `vs` meets a counter that is `0`. -/
theorem no_underflow_of_count (needed : List Bool) (vs : List Nat) (indegree : List Nat)
    (hlen : indegree.length = needed.length)
    (hcnt : ∀ v, flagged needed v →
      vs.count v ≤ indegree.getD v 0 ∧ indegree.getD v 0 < 2 ^ 32) :
    no_underflow needed vs indegree := by
  induction vs generalizing indegree with
  | nil => exact trivial
  | cons x xs ih =>
    by_cases hx : flagged needed x
    · have hxl : x < indegree.length := by rw [hlen]; exact flagged_lt needed x hx
      obtain ⟨hx1, hx2⟩ := hcnt x hx
      rw [count_cons_nat, if_pos rfl] at hx1
      have hd : (indegree.getD x 0 + 2 ^ 32 - 1) % 2 ^ 32 = indegree.getD x 0 - 1 := by omega
      have hx' : needed.getD x false = true := hx
      simp only [no_underflow, hx', if_true, hd]
      refine ⟨by omega, ih _ (by simp [hlen]) ?_⟩
      intro v hv
      obtain ⟨h1, h2⟩ := hcnt v hv
      rw [count_cons_nat] at h1
      rw [getD_set]
      by_cases hxv : x = v
      · subst hxv
        simp only [hxl, and_self, if_true] at h1 ⊢
        omega
      · simp only [hxv, false_and, if_false] at h1 ⊢
        omega
    · have hx' : ¬ needed.getD x false = true := hx
      simp only [no_underflow, hx', if_false]
      refine ih indegree hlen ?_
      intro v hv
      obtain ⟨h1, h2⟩ := hcnt v hv
      rw [count_cons_nat] at h1
      exact ⟨by omega, h2⟩

/-- The counters of the children of a node that has not finished are great enough for its
propagation. -/
theorem core_count_le (g : Graph) (needed : List Bool) (hs : Setting g needed)
    (indegree R F D : List Nat) (hc : Core g needed indegree R F D) (u : Nat) (huD : u ∉ D)
    (v : Nat) (hv : flagged needed v) :
    (g.get_child_ids u).count v ≤ indegree.getD v 0 ∧ indegree.getD v 0 < 2 ^ 32 := by
  rw [hc.indeg_eq v hv, hs.symm u v,
    countP_not_mem_append (g.get_parent_ids v) D u huD]
  refine ⟨by omega, ?_⟩
  have h1 := hs.parents_lt v
  have h2 := countP_not_mem_append (g.get_parent_ids v) D u huD
  have h3 : (g.get_parent_ids v).countP (fun p => decide (p ∉ D)) ≤
      (g.get_parent_ids v).length := List.countP_le_length _
  omega

/-- In a state of the main loop in a built graph, the propagation over the children of a
node of the queue, or of a node with a worker, decrements no counter that is `0`. -/
theorem inv_no_underflow (g : Graph) (needed : List Bool) (hs : Setting g needed)
    (n_workers : Nat) (s : State) (hi : Inv g needed n_workers s) (u : Nat)
    (hu : u ∈ s.ready ∨ u ∈ ProcessPool.inflight s.workers) :
    no_underflow needed (g.get_child_ids u) s.indegree := by
  have hnd := hi.core.nodup
  have huD : u ∉ completed s.trace := by
    intro hD
    rcases hu with hu | hu
    · exact (List.nodup_append.mp hnd).2.2 hu (List.mem_append_right _ hD)
    · exact (List.nodup_append.mp (List.nodup_append.mp hnd).2.1).2.2 hu hD
  exact no_underflow_of_count needed _ _ hi.core.indeg_len
    (fun v hv => core_count_le g needed hs _ _ _ _ hi.core u huD v hv)

end exec

/-! ## Properties of the passes and of the main loop -/

namespace exec

/-- C21. The needed set is exactly the ancestor closure. For every graph whose parent
entries are ids of the graph and every start id of the graph, the reverse DFS of
`Scheduler::run` ends (with `size + 1` passes of its loop, and with the same flags for any
greater bound), it returns one flag per node, and the flag of a node is set if and only if
the node is reached from the start id by zero or more parent steps. -/
theorem needed_is_ancestor_closure (g : Graph) (start_id : Nat)
    (hpar : ∀ u, ∀ p ∈ g.get_parent_ids u, p < g.size) (hs : start_id < g.size) :
    ∃ needed, compute_needed g start_id = some needed ∧ needed.length = g.size ∧
      (∀ fuel, g.size < fuel →
        dfs g fuel ((List.replicate g.size false).set start_id true) [start_id] =
          some needed) ∧
      ∀ v, needed.getD v false = true ↔ g.ancestor start_id v := by
  obtain ⟨needed, h1, h2, h3⟩ := compute_needed_spec g start_id hpar hs
  refine ⟨needed, h1, h2, fun fuel hf => ?_, h3⟩
  unfold compute_needed at h1
  exact dfs_fuel_le g (g.size + 1) fuel hf _ _ _ h1

/-- C21, instance: in the diamond `d:`, `b: d`, `c: d`, `a: b c` the needed set of `b` is
`d` and `b`. -/
theorem needed_is_ancestor_closure_witness :
    (∃ needed, compute_needed diamond_graph 1 = some needed ∧
      needed.length = diamond_graph.size ∧
      (∀ fuel, diamond_graph.size < fuel →
        dfs diamond_graph fuel ((List.replicate diamond_graph.size false).set 1 true) [1] =
          some needed) ∧
      ∀ v, needed.getD v false = true ↔ diamond_graph.ancestor 1 v) ∧
    compute_needed diamond_graph 1 = some [true, true, false, false] :=
  ⟨needed_is_ancestor_closure diamond_graph 1
      (build_shape diamond diamond_graph (by decide)).2.2.2.2.2.2.2 (by decide),
    by decide⟩

/-- C22, as stated, fails for a node that is not needed: for `a:`, `b: a` requested as `a`
the needed set is `a` alone; the one parent entry of `b` is in the needed set, and the
counter of `b` after the indegree pass is `0`. -/
theorem unneeded_child_not_counted :
    Graph.build chain2 = .ok chain2_graph ∧
    compute_needed chain2_graph (chain2_graph.get_id [97]) = some [true, false] ∧
    (compute_indegree chain2_graph [true, false] (List.range chain2_graph.size)
      (List.replicate chain2_graph.size 0)).getD 1 0 = 0 ∧
    (chain2_graph.get_parent_ids 1).countP (fun p => [true, false].getD p false) = 1 := by
  decide

/-- C22, amended. For every graph returned by `Graph::build` (parent lists shorter than
`2^32`) and every start target that names a rule, after the indegree pass the counter of
every needed node `v` is the number of entries of its parent list that are in the needed
set, which is the length of that list; the counter of a node that is not needed is `0`. -/
theorem initial_indegree_counts_needed_parents (parsed : parse.Result) (g : Graph)
    (h : Graph.build parsed = .ok g) (hdeg : ∀ l ∈ g.m_reverse_adj, l.length < 2 ^ 32)
    (start : Str) (hs : g.get_id start ≠ npos) :
    ∃ needed, compute_needed g (g.get_id start) = some needed ∧
      (∀ v, needed.getD v false = true →
        (compute_indegree g needed (List.range g.size) (List.replicate g.size 0)).getD v 0 =
          (g.get_parent_ids v).countP (fun p => needed.getD p false) ∧
        (g.get_parent_ids v).countP (fun p => needed.getD p false) =
          (g.get_parent_ids v).length) ∧
      ∀ v, needed.getD v false ≠ true →
        (compute_indegree g needed (List.range g.size) (List.replicate g.size 0)).getD v 0 =
          0 := by
  obtain ⟨needed, hn, hset, -⟩ := build_setting parsed g h hdeg start hs
  refine ⟨needed, hn, fun v hv => ?_, fun v hv => ?_⟩
  · have hc := countP_needed_parents g needed hset v hv
    exact ⟨by rw [hc]; exact (initial_indegree g needed hset).2 v hv, hc⟩
  · exact initial_indegree_unneeded g needed hset.needed_len v hv

/-- C22 amended, instance: the diamond requested as `a`; the counters are `0`, `1`, `1`,
`2`. -/
theorem initial_indegree_counts_needed_parents_witness :
    (∃ needed, compute_needed diamond_graph (diamond_graph.get_id [97]) = some needed ∧
      (∀ v, needed.getD v false = true →
        (compute_indegree diamond_graph needed (List.range diamond_graph.size)
          (List.replicate diamond_graph.size 0)).getD v 0 =
          (diamond_graph.get_parent_ids v).countP (fun p => needed.getD p false) ∧
        (diamond_graph.get_parent_ids v).countP (fun p => needed.getD p false) =
          (diamond_graph.get_parent_ids v).length) ∧
      ∀ v, needed.getD v false ≠ true →
        (compute_indegree diamond_graph needed (List.range diamond_graph.size)
          (List.replicate diamond_graph.size 0)).getD v 0 = 0) ∧
    compute_indegree diamond_graph [true, true, true, true] (List.range diamond_graph.size)
      (List.replicate diamond_graph.size 0) = [0, 1, 1, 2] :=
  ⟨initial_indegree_counts_needed_parents diamond diamond_graph (by decide) (by decide) [97]
      (by decide),
    by decide⟩

/-- C23. The staleness decision. For every graph, node `u` and state of the file system
(a partial map from names to last-write times), `should_execute(u)` returns, and it
returns `true` if and only if `u` is phony, or the file named after `u` does not exist, or
some entry `p` of the parent list of `u` has a file whose time is strictly greater than
the time of the file of `u`. A parent without a file, and a parent with an equal or
smaller time, do not make the answer `true`. -/
theorem staleness_decision (g : Graph) (fs : FS) (u : Nat) :
    ∃ b, should_execute g fs u = .ok b ∧
      (b = true ↔
        (g.is_phony u = true ∨ fs (g.get_name_ref u) = none ∨
          ∃ p ∈ g.get_parent_ids u, ∃ tp t, fs (g.get_name_ref p) = some tp ∧
            fs (g.get_name_ref u) = some t ∧ t < tp)) := by
  unfold should_execute
  by_cases hph : g.is_phony u = true
  · exact ⟨true, by simp [hph], by simp [hph]⟩
  · cases ht : fs (g.get_name_ref u) with
    | none => exact ⟨true, by simp [hph], by simp⟩
    | some t =>
      obtain ⟨b, hb, hiff⟩ := any_newer_iff g fs (g.get_name_ref u) (g.get_parent_ids u) t ht
      refine ⟨b, by simp [hph, hb], ?_⟩
      rw [hiff]
      constructor
      · rintro ⟨p, hp, tp, h1, h2⟩
        exact Or.inr (Or.inr ⟨p, hp, tp, t, h1, rfl, h2⟩)
      · rintro (h1 | h1 | ⟨p, hp, tp, t2, h1, h2, h3⟩)
        · exact absurd h1 hph
        · cases h1
        · cases h2
          exact ⟨p, hp, tp, h1, h3⟩

end exec

namespace exec

/-- C24. The counter `running` mirrors the pool. In every state that the main loop of
`Scheduler::run` reaches from its initial state, for any graph, any flags, any pool size
and any environment, `running` is the number of worker slots whose `busy` flag is set;
a `submit` made after `can_accept` finds an idle slot; when `running` is not `0` a
`wait_result` finds a busy slot; and so the loop ends neither in the abort of `submit`
nor in a `wait_result` on no busy slot. The same holds for the run as a whole, however
long it is observed. -/
theorem running_mirrors_pool (g : Graph) (needed : List Bool) (env : Env)
    (n_workers k : Nat) (s : State)
    (h : loop_state g needed env k (initial_state g needed n_workers) = some s) :
    s.running = s.workers.countP (fun w => w.isSome) ∧
    (ProcessPool.can_accept s.workers = true → ∀ u, ProcessPool.submit s.workers u ≠ none) ∧
    (s.running ≠ 0 → ∀ pick exit_code,
      ProcessPool.wait_result s.workers pick exit_code ≠ none) ∧
    (∀ r, step g needed env s = .done r →
      r.outcome ≠ Outcome.abort ∧ r.outcome ≠ Outcome.blocked) ∧
    (∀ fuel start,
      (Scheduler.run_upto fuel g start n_workers env).outcome ≠ Outcome.abort ∧
      (Scheduler.run_upto fuel g start n_workers env).outcome ≠ Outcome.blocked) := by
  have hm : s.running = (ProcessPool.inflight s.workers).length :=
    loop_state_induct g needed env
      (fun s => s.running = (ProcessPool.inflight s.workers).length)
      (fun s s1 hp hstep => mirror_next g needed env s s1 hp hstep) k _ s
      (by simp [initial_state, ProcessPool.inflight_replicate]) h
  refine ⟨by rw [hm, inflight_length], ?_, ?_, fun r hr => mirror_done g needed env s r hm hr, ?_⟩
  · intro hacc u hnone
    obtain ⟨ws1, e1, -, -⟩ := ProcessPool.submit_spec s.workers u hacc
    rw [hnone] at e1
    cases e1
  · intro hrun pick exit_code hnone
    have := ProcessPool.wait_result_none _ _ _ hnone
    rw [this] at hm
    exact hrun hm
  · intro fuel start
    rcases run_cases fuel g start n_workers env with h1 | ⟨needed2, hs, -, hrun⟩
    · unfold Scheduler.run_upto at h1 ⊢
      simp only at h1 ⊢
      split
      · exact ⟨by simp, by simp⟩
      · cases hn : compute_needed g (g.get_id start) with
        | none => exact ⟨by simp, by simp⟩
        | some needed3 =>
          simp only
          exact main_loop_induct g needed3 env
            (fun s => s.running = (ProcessPool.inflight s.workers).length)
            (fun r => r.outcome ≠ Outcome.abort ∧ r.outcome ≠ Outcome.blocked)
            (fun s s1 hp hstep => mirror_next g needed3 env s s1 hp hstep)
            (fun s r hp hstep => mirror_done g needed3 env s r hp hstep)
            (fun s _ => ⟨by simp, by simp⟩) fuel _
            (by simp [ProcessPool.inflight_replicate])
    · rw [hrun]
      exact main_loop_induct g needed2 env
        (fun s => s.running = (ProcessPool.inflight s.workers).length)
        (fun r => r.outcome ≠ Outcome.abort ∧ r.outcome ≠ Outcome.blocked)
        (fun s s1 hp hstep => mirror_next g needed2 env s s1 hp hstep)
        (fun s r hp hstep => mirror_done g needed2 env s r hp hstep)
        (fun s _ => ⟨by simp, by simp⟩) fuel _
        (by simp [ProcessPool.inflight_replicate])

end exec

namespace exec

/-- C24, instance: the diamond requested as `a` with two workers, after the transitions
submit `d`, answer of `d`, submit `b`: one task is running and one slot is busy. -/
theorem running_mirrors_pool_witness :
    ((⟨[0, 0, 0, 2], [2], 1, [some 1, none],
        [Event.submit 0, Event.result 0 0, Event.submit 1]⟩ : State).running =
      (⟨[0, 0, 0, 2], [2], 1, [some 1, none],
        [Event.submit 0, Event.result 0 0, Event.submit 1]⟩ :
          State).workers.countP (fun w => w.isSome)) ∧
    loop_state diamond_graph [true, true, true, true] (quiet_env no_files (fun _ => 0)) 3
        (initial_state diamond_graph [true, true, true, true] 2) =
      some ⟨[0, 0, 0, 2], [2], 1, [some 1, none],
        [Event.submit 0, Event.result 0 0, Event.submit 1]⟩ :=
  ⟨(running_mirrors_pool diamond_graph [true, true, true, true]
      (quiet_env no_files (fun _ => 0)) 2 3
      ⟨[0, 0, 0, 2], [2], 1, [some 1, none],
        [Event.submit 0, Event.result 0 0, Event.submit 1]⟩ rfl).1,
    rfl⟩

/-- C25. The main loop terminates and processes no node twice. For every graph returned by
`Graph::build` (parent lists shorter than `2^32`), every start target, every pool with at
least one worker and every environment (in which a busy worker answers whenever
`wait_result` asks): the run ends within `2 * size + 1` transitions of the main loop, with
the same result for every greater bound, and it ends with success, with a detected cycle,
with a failed command, or, before the loop, with an unknown target; however long the run
is observed, no node is popped from the ready queue (submitted or skipped) twice; and in
every state that the main loop reaches, the propagation over the children of any node of
the queue or with a worker applies `--indegree[v]` to no counter that is `0`. -/
theorem main_loop_terminates (parsed : parse.Result) (g : Graph)
    (h : Graph.build parsed = .ok g) (hdeg : ∀ l ∈ g.m_reverse_adj, l.length < 2 ^ 32)
    (start : Str) (n_workers : Nat) (hw : 0 < n_workers) (env : Env) :
    (∀ fuel, 2 * g.size < fuel →
      Scheduler.run_upto fuel g start n_workers env = Scheduler.run g start n_workers env) ∧
    ((Scheduler.run g start n_workers env).outcome = Outcome.success ∨
      (Scheduler.run g start n_workers env).outcome = Outcome.fatal Fault.CycleDetected ∨
      (Scheduler.run g start n_workers env).outcome = Outcome.fatal Fault.CommandFailed ∨
      (Scheduler.run g start n_workers env).outcome = Outcome.fatal Fault.UnknownTarget) ∧
    (∀ fuel, (popped (Scheduler.run_upto fuel g start n_workers env).trace).Nodup) ∧
    (∀ needed, g.get_id start ≠ npos → compute_needed g (g.get_id start) = some needed →
      ∀ k s, loop_state g needed env k (initial_state g needed n_workers) = some s →
        ∀ u, u ∈ s.ready ∨ u ∈ ProcessPool.inflight s.workers →
          no_underflow needed (g.get_child_ids u) s.indegree) := by
  by_cases hs : g.get_id start = npos
  · have hrun := fun fuel => run_unknown fuel g start n_workers env hs
    refine ⟨fun fuel _ => ?_, ?_, fun fuel => ?_, fun needed hs2 => absurd hs hs2⟩
    · rw [hrun fuel, Scheduler.run, hrun]
    · rw [Scheduler.run, hrun]
      exact Or.inr (Or.inr (Or.inr rfl))
    · rw [hrun fuel]
      exact List.nodup_nil
  · obtain ⟨needed, hn, hset, -⟩ := build_setting parsed g h hdeg start hs
    have hrun := fun fuel => run_eq fuel g start n_workers env needed hs hn
    obtain ⟨s1, hi, hend⟩ := main_loop_ends g needed hset n_workers hw env (2 * g.size + 1) _
      (inv_initial g needed hset n_workers) (by simp)
    have hout : (Scheduler.run g start n_workers env).outcome = Outcome.success ∨
        (Scheduler.run g start n_workers env).outcome = Outcome.fatal Fault.CycleDetected ∨
        (Scheduler.run g start n_workers env).outcome = Outcome.fatal Fault.CommandFailed := by
      rw [Scheduler.run, hrun]
      rcases hend with ⟨-, -, hfin⟩ | ⟨u, c, -, -, hfail⟩
      · rw [hfin]
        rcases finish_outcome g.size needed s1 with h1 | h1
        · exact Or.inl h1
        · exact Or.inr (Or.inl h1)
      · rw [hfail]
        exact Or.inr (Or.inr rfl)
    refine ⟨fun fuel hf => ?_, ?_, fun fuel => ?_, fun needed2 _ hn2 k s hk u hu => ?_⟩
    · rw [Scheduler.run, hrun fuel, hrun (2 * g.size + 1)]
      refine main_loop_fuel_le g needed env _ fuel (by omega) _ ?_
      rw [← hrun (2 * g.size + 1)]
      intro hfuel
      have : (Scheduler.run g start n_workers env).outcome = Outcome.out_of_fuel := hfuel
      rw [this] at hout
      rcases hout with h1 | h1 | h1 <;> cases h1
    · rcases hout with h1 | h1 | h1
      · exact Or.inl h1
      · exact Or.inr (Or.inl h1)
      · exact Or.inr (Or.inr (Or.inl h1))
    · rw [hrun fuel]
      exact main_loop_popped_nodup g needed hset n_workers env fuel _
        (inv_initial g needed hset n_workers)
        (by simp [popped, completed, ProcessPool.inflight_replicate])
    · rw [hn, Option.some.injEq] at hn2
      subst hn2
      have hinv : Inv g needed n_workers s :=
        loop_state_induct g needed env (Inv g needed n_workers)
          (fun s s1 hp hstep => inv_next g needed hset n_workers env s s1 hp hstep) k _ s
          (inv_initial g needed hset n_workers) hk
      exact inv_no_underflow g needed hset n_workers s hinv u hu

end exec

namespace exec

/-- C25, instance: the diamond requested as `a` with two workers and commands that succeed;
the run ends with success and pops `d`, `b`, `c`, `a`, each once. -/
theorem main_loop_terminates_witness :
    ((∀ fuel, 2 * diamond_graph.size < fuel →
        Scheduler.run_upto fuel diamond_graph [97] 2 (quiet_env no_files (fun _ => 0)) =
          Scheduler.run diamond_graph [97] 2 (quiet_env no_files (fun _ => 0))) ∧
      ((Scheduler.run diamond_graph [97] 2 (quiet_env no_files (fun _ => 0))).outcome =
          Outcome.success ∨
        (Scheduler.run diamond_graph [97] 2 (quiet_env no_files (fun _ => 0))).outcome =
          Outcome.fatal Fault.CycleDetected ∨
        (Scheduler.run diamond_graph [97] 2 (quiet_env no_files (fun _ => 0))).outcome =
          Outcome.fatal Fault.CommandFailed ∨
        (Scheduler.run diamond_graph [97] 2 (quiet_env no_files (fun _ => 0))).outcome =
          Outcome.fatal Fault.UnknownTarget) ∧
      (∀ fuel, (popped (Scheduler.run_upto fuel diamond_graph [97] 2
        (quiet_env no_files (fun _ => 0))).trace).Nodup) ∧
      (∀ needed, diamond_graph.get_id [97] ≠ npos →
        compute_needed diamond_graph (diamond_graph.get_id [97]) = some needed →
        ∀ k s, loop_state diamond_graph needed (quiet_env no_files (fun _ => 0)) k
            (initial_state diamond_graph needed 2) = some s →
          ∀ u, u ∈ s.ready ∨ u ∈ ProcessPool.inflight s.workers →
            no_underflow needed (diamond_graph.get_child_ids u) s.indegree)) ∧
    (Scheduler.run diamond_graph [97] 2 (quiet_env no_files (fun _ => 0))).outcome =
      Outcome.success ∧
    popped (Scheduler.run diamond_graph [97] 2 (quiet_env no_files (fun _ => 0))).trace =
      [0, 1, 2, 3] :=
  ⟨main_loop_terminates diamond diamond_graph (by decide) (by decide) [97] 2 (by decide)
      (quiet_env no_files (fun _ => 0)),
    by decide, by decide⟩

end exec

/-! ## Runs that submit a node without commands -/

namespace exec

/-- The nodes needed for `b` in `bare_side_cycle_graph` are `b` and `a`. -/
theorem bare_side_cycle_needed (v : Nat)
    (hv : bare_side_cycle_graph.ancestor 1 v) : v = 1 ∨ v = 0 := by
  induction hv with
  | refl => exact Or.inl rfl
  | tail _ hstep ih =>
    rcases ih with rfl | rfl
    · right
      simpa [Graph.parent_rel, Graph.get_parent_ids, bare_side_cycle_graph] using hstep
    · exfalso
      simp [Graph.parent_rel, Graph.get_parent_ids, bare_side_cycle_graph] at hstep

/-- C6, at the input `a:` (phony, no command), `b: a` requested as `b` with two workers:
`a` is the one parent of `b`, and the first transition of the run submits it (it is not
skipped). The frame that `ProcessPool::submit` writes for `a` has the command count `0`
and is byte for byte the frame of `shutdown`; the worker that reads it leaves its loop
and writes no result frame, whatever follows in the pipe and whatever the commands would
return. -/
theorem parent_frame_never_written (system : Nat → Str → Int) (rest : List Byte) :
    Graph.build bare_chain2 = .ok bare_chain2_graph ∧
    bare_chain2_graph.get_parent_ids 1 = [0] ∧
    (Scheduler.run_upto 1 bare_chain2_graph [98] 2 (quiet_env no_files (fun _ => 0))).trace =
      [Event.submit 0] ∧
    ProcessPool.task_frame 0 (bare_chain2_graph.get_command_ref 0) =
      ProcessPool.shutdown_frame ∧
    ProcessPool.worker_pass system
        (ProcessPool.task_frame 0 (bare_chain2_graph.get_command_ref 0) ++ rest) =
      ProcessPool.Pass.exit :=
  ⟨by decide, by decide, by decide, by decide,
    ProcessPool.worker_pass_empty system 0 (by decide) rest⟩

/-- C8, at the input `a:` (no command), `c:` (command `f`), `t: a c`, all phony, requested
as `t` with two workers: the first two transitions of the run submit `a` and `c`, and `c`
has a command. The frame that `ProcessPool::submit` writes for `a` has the command count
`0` and is byte for byte the frame of `shutdown`; the worker that reads it leaves its
loop and writes no result frame, whatever follows in the pipe and whatever the commands
would return. -/
theorem worker_gone_before_failure (system : Nat → Str → Int) (rest : List Byte) :
    Graph.build bare_pair = .ok bare_pair_graph ∧
    (Scheduler.run_upto 2 bare_pair_graph [116] 2 failing_env).trace =
      [Event.submit 0, Event.submit 1] ∧
    bare_pair_graph.get_command_ref 1 = [[102]] ∧
    ProcessPool.task_frame 0 (bare_pair_graph.get_command_ref 0) =
      ProcessPool.shutdown_frame ∧
    ProcessPool.worker_pass system
        (ProcessPool.task_frame 0 (bare_pair_graph.get_command_ref 0) ++ rest) =
      ProcessPool.Pass.exit :=
  ⟨by decide, by decide, by decide, by decide,
    ProcessPool.worker_pass_empty system 0 (by decide) rest⟩

/-- C9, at the input `a:` (phony, no command), `x: y`, `y: x`, `t: a x` requested as `t`
with two workers: the needed subgraph holds the cycle of `x` and `y`, and the first
transition of the run submits `a`. The frame that `ProcessPool::submit` writes for `a` has
the command count `0` and is byte for byte the frame of `shutdown`; the worker that reads
it leaves its loop and writes no result frame, whatever follows in the pipe and whatever
the commands would return. -/
theorem worker_gone_before_cycle_test (system : Nat → Str → Int) (rest : List Byte) :
    Graph.build bare_cycle = .ok bare_cycle_graph ∧
    (∃ w, bare_cycle_graph.ancestor (bare_cycle_graph.get_id [116]) w ∧
      bare_cycle_graph.on_cycle w) ∧
    (Scheduler.run_upto 1 bare_cycle_graph [116] 2 (quiet_env no_files (fun _ => 0))).trace =
      [Event.submit 0] ∧
    ProcessPool.task_frame 0 (bare_cycle_graph.get_command_ref 0) =
      ProcessPool.shutdown_frame ∧
    ProcessPool.worker_pass system
        (ProcessPool.task_frame 0 (bare_cycle_graph.get_command_ref 0) ++ rest) =
      ProcessPool.Pass.exit :=
  ⟨by decide,
    ⟨1, Relation.ReflTransGen.single
        (show 1 ∈ bare_cycle_graph.get_parent_ids 3 by decide),
      Relation.TransGen.tail
        (Relation.TransGen.single (show 2 ∈ bare_cycle_graph.get_parent_ids 1 by decide))
        (show 1 ∈ bare_cycle_graph.get_parent_ids 2 by decide)⟩,
    by decide, by decide, ProcessPool.worker_pass_empty system 0 (by decide) rest⟩

/-- C10, at the input `a:` (no command), `b: a`, `x: y`, `y: x`, with `a` and `b` phony,
requested as `b` with two workers: no needed node lies on a cycle, `x` does, and the
first transition of the run submits `a`. The frame that `ProcessPool::submit` writes for
`a` has the command count `0` and is byte for byte the frame of `shutdown`; the worker
that reads it leaves its loop and writes no result frame, whatever follows in the pipe
and whatever the commands would return. -/
theorem worker_gone_in_acyclic_run (system : Nat → Str → Int) (rest : List Byte) :
    Graph.build bare_side_cycle = .ok bare_side_cycle_graph ∧
    (∀ v, bare_side_cycle_graph.ancestor (bare_side_cycle_graph.get_id [98]) v →
      ¬ bare_side_cycle_graph.on_cycle v) ∧
    bare_side_cycle_graph.on_cycle 2 ∧
    (Scheduler.run_upto 1 bare_side_cycle_graph [98] 2
        (quiet_env no_files (fun _ => 0))).trace = [Event.submit 0] ∧
    ProcessPool.task_frame 0 (bare_side_cycle_graph.get_command_ref 0) =
      ProcessPool.shutdown_frame ∧
    ProcessPool.worker_pass system
        (ProcessPool.task_frame 0 (bare_side_cycle_graph.get_command_ref 0) ++ rest) =
      ProcessPool.Pass.exit := by
  have h0 : ¬ bare_side_cycle_graph.on_cycle 0 :=
    not_on_cycle_of_no_parents bare_side_cycle_graph 0 (by decide)
  refine ⟨by decide, ?_,
    Relation.TransGen.tail
      (Relation.TransGen.single (show 3 ∈ bare_side_cycle_graph.get_parent_ids 2 by decide))
      (show 2 ∈ bare_side_cycle_graph.get_parent_ids 3 by decide),
    by decide, by decide, ProcessPool.worker_pass_empty system 0 (by decide) rest⟩
  intro v hv
  have hid : bare_side_cycle_graph.get_id [98] = 1 := by decide
  rw [hid] at hv
  rcases bare_side_cycle_needed v hv with rfl | rfl
  · intro hc
    obtain ⟨p, hp, hpc⟩ := on_cycle_parent bare_side_cycle_graph 1 hc
    have hp0 : p = 0 := by
      simpa [Graph.get_parent_ids, bare_side_cycle_graph] using hp
    rw [hp0] at hpc
    exact h0 hpc
  · exact h0

/-- C11, at scenario S1 with the rules as the specification writes them, `a:`, `b: a`,
`c: b`, all phony and without commands, requested as `c` with two workers: no needed node
lies on a cycle and every needed node is phony, the first transition of the run submits
`a`, and no node has a command. The frame that `ProcessPool::submit` writes for `a` has
the command count `0` and is byte for byte the frame of `shutdown`; the worker that reads
it leaves its loop and writes no result frame, whatever follows in the pipe and whatever
the commands would return. -/
theorem bare_chain_loses_worker (system : Nat → Str → Int) (rest : List Byte) :
    Graph.build bare_chain3 = .ok bare_chain3_graph ∧
    (∀ v, bare_chain3_graph.ancestor (bare_chain3_graph.get_id [99]) v →
      ¬ bare_chain3_graph.on_cycle v ∧ bare_chain3_graph.is_phony v = true) ∧
    (Scheduler.run_upto 1 bare_chain3_graph [99] 2 (quiet_env no_files (fun _ => 0))).trace =
      [Event.submit 0] ∧
    (∀ u, bare_chain3_graph.get_command_ref u = []) ∧
    ProcessPool.task_frame 0 (bare_chain3_graph.get_command_ref 0) =
      ProcessPool.shutdown_frame ∧
    ProcessPool.worker_pass system
        (ProcessPool.task_frame 0 (bare_chain3_graph.get_command_ref 0) ++ rest) =
      ProcessPool.Pass.exit := by
  refine ⟨by decide, ?_, by decide, ?_, by decide,
    ProcessPool.worker_pass_empty system 0 (by decide) rest⟩
  · intro v hv
    refine ⟨not_on_cycle_of_table bare_chain3_graph (by decide) v, ?_⟩
    have hle := ancestor_le_of_table bare_chain3_graph (by decide) _ v hv
    have h2 : bare_chain3_graph.get_id [99] = 2 := by decide
    rw [h2] at hle
    interval_cases v <;> decide
  · intro u
    match u with
    | 0 => rfl
    | 1 => rfl
    | 2 => rfl
    | n + 3 => simp [Graph.get_command_ref, bare_chain3_graph]

end exec

